import Mathlib

/-!
# PBE engine of the `pkcs8` package: CBC codec, cipher suites, PBKDF1, `decryptPBE`

A shallow embedding of `cipher.go`, `cipher_pbe.go` and
`internal/pkcspbkdf/pkcs5_pbkdf1.go`.

* A Go `[]byte` argument is a `List Byte`; a returned `[]byte` is an
  `Option (List Byte)` (`none` is the nil slice), a returned `error` is an
  `Option String` (`none` is the nil error, `some m` an error with message `m`).
* A run-time panic is made explicit: a Go function is a value of `Go α`,
  either `Except.ok` of what it returns or `Except.error` of the panic.
* Go `int` values that can be negative (`size`, `Iterations`) are `Int`.
-/

namespace Pkcs8

/-- One octet. -/
abbrev Byte := Fin 256

/-- Go conversion `byte(n)` of a non-negative `int`: truncation to 8 bits. -/
def byte (n : Nat) : Byte := ⟨n % 256, Nat.mod_lt n (by decide)⟩

/-- Run-time panics that the modelled code can raise. -/
inductive Panic where
  /-- `cipher.NewCBCEncrypter` / `NewCBCDecrypter`: IV length must equal block size. -/
  | ivLength
  /-- `CryptBlocks`: input not full blocks. -/
  | notFullBlocks
  /-- Integer divide by zero (`x % 0`). -/
  | divideByZero
  /-- Index out of range (`s[i]` with `i` outside `0 ≤ i < len(s)`). -/
  | indexOutOfRange
  /-- Slice bounds out of range (`s[a:b]`). -/
  | sliceBounds
  /-- A panic raised inside a collaborator that is not part of this package. -/
  | external
  deriving DecidableEq, Repr

/-- A Go computation: it returns a value or panics. -/
abbrev Go (α : Type) := Except Panic α

/-- Result of a Go function of type `([]byte, error)`. -/
abbrev BytesErr := Option (List Byte) × Option String

/-- A nil-or-not slice read as its contents (`len(nil) = 0`). -/
def bytesOf : Option (List Byte) → List Byte
  | none => []
  | some l => l

/-- Go interface `cipher.Block`: `BlockSize()`, `Encrypt(dst, src)`, `Decrypt(dst, src)`.
The CBC modes always call `Encrypt`/`Decrypt` with `dst` and `src` of exactly
`BlockSize()` bytes; `encrypt b` is the content of `dst` afterwards, so it has the
length of `dst`. -/
structure Block where
  blockSize : Nat
  encrypt : List Byte → List Byte
  decrypt : List Byte → List Byte
  encrypt_length : ∀ b : List Byte, b.length = blockSize → (encrypt b).length = blockSize
  decrypt_length : ∀ b : List Byte, b.length = blockSize → (decrypt b).length = blockSize

/-- Go `subtle.XORBytes(dst, x, y)`: the bytewise xor of the first
`min(len(x), len(y))` bytes. -/
def xorBytes (x y : List Byte) : List Byte := List.zipWith (fun a b => a ^^^ b) x y

/-- The loop of `cbcEncrypter.CryptBlocks`: `n` is the number of blocks left in
`src`; each round xors the next block with `iv`, encrypts it in place and makes
the encrypted block the next `iv`. -/
def encryptBlocks (b : Block) : Nat → List Byte → List Byte → List Byte
  | 0, _, _ => []
  | n + 1, iv, src =>
    let c := b.encrypt (xorBytes (src.take b.blockSize) iv)
    c ++ encryptBlocks b n c (src.drop b.blockSize)

/-- The loop of `cbcDecrypter.CryptBlocks`, read front to back (the library
walks the blocks backwards to work in place; every output block is the
decryption of its input block xored with the previous input block, the first
one with the IV). `n` is the number of blocks in `src`. -/
def decryptBlocks (b : Block) : Nat → List Byte → List Byte → List Byte
  | 0, _, _ => []
  | n + 1, iv, src =>
    let c := src.take b.blockSize
    xorBytes (b.decrypt c) iv ++ decryptBlocks b n c (src.drop b.blockSize)

/-- Go `cipher.NewCBCEncrypter(block, iv)` / `cipher.NewCBCDecrypter(block, iv)`:
panics unless `len(iv) == block.BlockSize()`; the mode keeps the block and a
copy of the IV. -/
def newCBC (block : Block) (iv : List Byte) : Go (Block × List Byte) :=
  if iv.length ≠ block.blockSize then Except.error Panic.ivLength
  else Except.ok (block, iv)

/-- Go `cbcEncrypter.CryptBlocks(dst, src)` with `dst` and `src` the same buffer:
the new content of the buffer. -/
def encrypterCryptBlocks (mode : Block × List Byte) (src : List Byte) : Go (List Byte) :=
  if mode.1.blockSize = 0 then Except.error Panic.divideByZero
  else if src.length % mode.1.blockSize ≠ 0 then Except.error Panic.notFullBlocks
  else Except.ok (encryptBlocks mode.1 (src.length / mode.1.blockSize) mode.2 src)

/-- Go `cbcDecrypter.CryptBlocks(dst, src)` with `dst` a fresh buffer of
`len(src)` bytes: the new content of `dst` (unchanged, empty, when `src` is
empty). -/
def decrypterCryptBlocks (mode : Block × List Byte) (src : List Byte) : Go (List Byte) :=
  if mode.1.blockSize = 0 then Except.error Panic.divideByZero
  else if src.length % mode.1.blockSize ≠ 0 then Except.error Panic.notFullBlocks
  else Except.ok (decryptBlocks mode.1 (src.length / mode.1.blockSize) mode.2 src)

/-- The error message of every failed padding check of `cbcDecrypt`. -/
def errDecryptionFailed : String := "pkcs8: decryption failed"

/-- Source `cbcEncrypt` (cipher.go). -/
def cbcEncrypt (block : Block) (iv plaintext : List Byte) : Go BytesErr :=
  match newCBC block iv with
  | Except.error p => Except.error p
  | Except.ok mode =>
    if block.blockSize = 0 then Except.error Panic.divideByZero
    else
      let paddingLen := block.blockSize - plaintext.length % block.blockSize
      let ciphertext := plaintext ++ List.replicate paddingLen (byte paddingLen)
      match encrypterCryptBlocks mode ciphertext with
      | Except.error p => Except.error p
      | Except.ok ciphertext => Except.ok (some ciphertext, none)

/-- Source `cbcDecrypt` (cipher.go). -/
def cbcDecrypt (block : Block) (iv ciphertext : List Byte) : Go BytesErr :=
  match newCBC block iv with
  | Except.error p => Except.error p
  | Except.ok mode =>
    match decrypterCryptBlocks mode ciphertext with
    | Except.error p => Except.error p
    | Except.ok plaintext =>
      match plaintext.getLast? with
      | none => Except.error Panic.indexOutOfRange
      | some last =>
        let psLen := last.val
        if psLen = 0 ∨ psLen > block.blockSize then
          Except.ok (none, some errDecryptionFailed)
        else if plaintext.length < psLen then
          Except.ok (none, some errDecryptionFailed)
        else
          let ps := plaintext.drop (plaintext.length - psLen)
          let plaintext := plaintext.take (plaintext.length - psLen)
          if ps ≠ List.replicate psLen (byte psLen) then
            Except.ok (none, some errDecryptionFailed)
          else Except.ok (some plaintext, none)

/-- Source `cipherWithBlock` (cipher.go); `newBlock` returns a block or an error,
or panics. -/
structure cipherWithBlock where
  oid : List Int
  ivSize : Int
  keySize : Int
  newBlock : List Byte → Go (Except String Block)

/-- Source `cipherWithBlock.IVSize`. -/
def cipherWithBlock.IVSize (c : cipherWithBlock) : Int := c.ivSize

/-- Source `cipherWithBlock.KeySize`. -/
def cipherWithBlock.KeySize (c : cipherWithBlock) : Int := c.keySize

/-- Source `cipherWithBlock.OID`. -/
def cipherWithBlock.OID (c : cipherWithBlock) : List Int := c.oid

/-- Source `cipherWithBlock.Encrypt`. -/
def cipherWithBlock.Encrypt (c : cipherWithBlock) (key iv plaintext : List Byte) : Go BytesErr :=
  match c.newBlock key with
  | Except.error p => Except.error p
  | Except.ok (Except.error err) => Except.ok (none, some err)
  | Except.ok (Except.ok block) => cbcEncrypt block iv plaintext

/-- Source `cipherWithBlock.Decrypt`. -/
def cipherWithBlock.Decrypt (c : cipherWithBlock) (key iv ciphertext : List Byte) : Go BytesErr :=
  match c.newBlock key with
  | Except.error p => Except.error p
  | Except.ok (Except.error err) => Except.ok (none, some err)
  | Except.ok (Except.ok block) => cbcDecrypt block iv ciphertext

/-- A toy block cipher of block size `bs`: xor with a fixed pad byte. Used to
run the codec on concrete inputs. -/
def xorBlock (bs : Nat) (k : Byte) : Block where
  blockSize := bs
  encrypt := fun b => b.map (fun x => x ^^^ k)
  decrypt := fun b => b.map (fun x => x ^^^ k)
  encrypt_length := by intro b h; simpa using h
  decrypt_length := by intro b h; simpa using h

/-- Decidable equality of outcomes, so that closed runs can be evaluated. -/
instance instDecidableEqGo {ε α : Type} [DecidableEq ε] [DecidableEq α] :
    DecidableEq (Except ε α)
  | Except.ok a, Except.ok b =>
    if h : a = b then isTrue (by rw [h]) else isFalse (fun h2 => h (Except.ok.inj h2))
  | Except.error a, Except.error b =>
    if h : a = b then isTrue (by rw [h]) else isFalse (fun h2 => h (Except.error.inj h2))
  | Except.ok _, Except.error _ => isFalse (fun h => Except.noConfusion h)
  | Except.error _, Except.ok _ => isFalse (fun h => Except.noConfusion h)

/-! ## PKCS#5 PBKDF1 (`internal/pkcspbkdf/pkcs5_pbkdf1.go`) -/

/-- A Go slice value as far as re-slicing can see it: `arr` is the backing
array from the first element of the slice up to its capacity, `len` the length. -/
structure Slice where
  arr : List Byte
  len : Nat
  deriving DecidableEq, Repr

/-- The bytes of a slice. -/
def Slice.toList (s : Slice) : List Byte := s.arr.take s.len

/-- Go `s[lo:hi]`: panics unless `0 ≤ lo ≤ hi ≤ cap(s)`. -/
def Slice.slice (s : Slice) (lo hi : Int) : Go Slice :=
  if 0 ≤ lo ∧ lo ≤ hi ∧ hi ≤ (s.arr.length : Int) then
    Except.ok { arr := s.arr.drop lo.toNat, len := (hi - lo).toNat }
  else Except.error Panic.sliceBounds

/-- The loop `for i := 0; i < r; i++ { derived = hash(derived) }`, with `n` the
number of rounds left. -/
def hashLoop (hash : List Byte → List Byte) : Nat → List Byte → List Byte
  | 0, derived => derived
  | n + 1, derived => hashLoop hash n (hash derived)

/-- Source `PKCS5PBKDF1`. The buffer made by `make` and the slice returned by
`hash` have capacity equal to their length (the hashes of `hash.go` return
`sum[:]` of an array). A loop bound `r ≤ 0` gives no round. -/
def PKCS5PBKDF1 (hash : List Byte → List Byte) (salt password : List Byte) (r size : Int) :
    Go Slice :=
  let derived := password ++ salt
  let derived := hashLoop hash r.toNat derived
  Slice.slice { arr := derived, len := derived.length } 0 size

/-! ## Collaborators outside the source files at hand -/

/-- What the package calls but does not define in the files at hand: the Go
standard library hashes and DES constructors, and the package's own RC2,
PKCS#12 KDF, BMP-string and ASN.1 helpers. -/
structure Env where
  /-- `md5.Sum`, a `[16]byte`. -/
  md5 : List Byte → List Byte
  md5_size : ∀ x : List Byte, (md5 x).length = 16
  /-- `sha1.Sum`, a `[20]byte`. -/
  sha1 : List Byte → List Byte
  sha1_size : ∀ x : List Byte, (sha1 x).length = 20
  /-- `pkcspbkdf.PKCS12PBKDF(hash, u, v, salt, password, r, ID, size)`. -/
  PKCS12PBKDF : (List Byte → List Byte) → Int → Int → List Byte → List Byte → Int → Byte → Int →
    Go (Option (List Byte))
  /-- `bmpStringZeroTerminated(s)`, on the bytes of the string `s`. -/
  bmpStringZeroTerminated : List Byte → Go BytesErr
  /-- `unmarshal(bytes, params)` for a `SEQUENCE { salt, iterations }` target:
  an error, or the decoded `Salt` and `Iterations`. -/
  unmarshal : List Byte → Go (Except String (List Byte × Int))
  /-- `des.NewCipher`. -/
  desNewCipher : List Byte → Go (Except String Block)
  /-- `des.NewTripleDESCipher`. -/
  desNewTripleDESCipher : List Byte → Go (Except String Block)
  /-- `rc2.New(key, t1)`. -/
  rc2New : List Byte → Int → Go (Except String Block)
  /-- `rc2.BlockSize`. -/
  rc2BlockSize : Int

/-- Source `Md5Size` (hash.go). -/
def Md5Size : Int := 16

/-- Source `Md5Sum` (hash.go). -/
def Md5Sum (env : Env) (input : List Byte) : List Byte := env.md5 input

/-- Source `Sha1Size` (hash.go). -/
def Sha1Size : Int := 20

/-- Source `Sha1Sum` (hash.go). -/
def Sha1Sum (env : Env) (input : List Byte) : List Byte := env.sha1 input

/-! ## Legacy PBE schemes (`cipher_pbe.go`) -/

/-- Source `oidPBEWithSHAAnd3KeyTripleDESCBC`. -/
def oidPBEWithSHAAnd3KeyTripleDESCBC : List Int := [1, 2, 840, 113549, 1, 12, 1, 3]

/-- Source `oidPBEWithSHAAnd40BitRC2CBC`. -/
def oidPBEWithSHAAnd40BitRC2CBC : List Int := [1, 2, 840, 113549, 1, 12, 1, 6]

/-- Source `oidPBEWithMD5AndDESCBC`. -/
def oidPBEWithMD5AndDESCBC : List Int := [1, 2, 840, 113549, 1, 5, 3]

/-- Go `des.BlockSize`. -/
def desBlockSize : Int := 8

/-- Source `shaWithTripleDESCBC`. -/
def shaWithTripleDESCBC (env : Env) : cipherWithBlock where
  ivSize := desBlockSize
  keySize := 24
  newBlock := env.desNewTripleDESCipher
  oid := oidPBEWithSHAAnd3KeyTripleDESCBC

/-- Source `shaWith40BitRC2CBC`. -/
def shaWith40BitRC2CBC (env : Env) : cipherWithBlock where
  ivSize := env.rc2BlockSize
  keySize := 5
  newBlock := fun key => env.rc2New key ((key.length : Int) * 8)
  oid := oidPBEWithSHAAnd40BitRC2CBC

/-- Source `md5WithDESCBC`. -/
def md5WithDESCBC (env : Env) : cipherWithBlock where
  ivSize := desBlockSize
  keySize := 8
  newBlock := env.desNewCipher
  oid := oidPBEWithMD5AndDESCBC

/-- Source `sha1PbeParams`. -/
structure sha1PbeParams where
  Salt : List Byte
  Iterations : Int
  deriving DecidableEq, Repr

/-- Source `md5Pkcs5PbeParams`. -/
structure md5Pkcs5PbeParams where
  Salt : List Byte
  Iterations : Int
  deriving DecidableEq, Repr

/-- Source `sha1PbeParams.pbkdf`. -/
def sha1PbeParams.pbkdf (env : Env) (p : sha1PbeParams) (password : List Byte) (size : Int)
    (id : Byte) : Go BytesErr :=
  match env.PKCS12PBKDF (Sha1Sum env) Sha1Size 64 p.Salt password p.Iterations id size with
  | Except.error e => Except.error e
  | Except.ok key => Except.ok (key, none)

/-- Source `sha1PbeParams.DeriveKey`. -/
def sha1PbeParams.DeriveKey (env : Env) (p : sha1PbeParams) (password : List Byte) (size : Int) :
    Go BytesErr :=
  p.pbkdf env password size 1

/-- Source `sha1PbeParams.DeriveIV`. -/
def sha1PbeParams.DeriveIV (env : Env) (p : sha1PbeParams) (password : List Byte) (size : Int) :
    Go BytesErr :=
  p.pbkdf env password size 2

/-- Source `md5Pkcs5PbeParams.pbkdf`. -/
def md5Pkcs5PbeParams.pbkdf (env : Env) (p : md5Pkcs5PbeParams) (password : List Byte)
    (size part : Int) : Go BytesErr :=
  match PKCS5PBKDF1 (Md5Sum env) p.Salt password p.Iterations size with
  | Except.error e => Except.error e
  | Except.ok key =>
    match key.slice (part * 8) (part * 8 + 8) with
    | Except.error e => Except.error e
    | Except.ok k => Except.ok (some k.toList, none)

/-- Source `md5Pkcs5PbeParams.DeriveKey`: the `size` argument is not used. -/
def md5Pkcs5PbeParams.DeriveKey (env : Env) (p : md5Pkcs5PbeParams) (password : List Byte)
    (_size : Int) : Go BytesErr :=
  p.pbkdf env password 16 0

/-- Source `md5Pkcs5PbeParams.DeriveIV`: the `size` argument is not used. -/
def md5Pkcs5PbeParams.DeriveIV (env : Env) (p : md5Pkcs5PbeParams) (password : List Byte)
    (_size : Int) : Go BytesErr :=
  p.pbkdf env password 16 1

/-- Source interface `pbeKDFParameters`, with its two implementations. -/
inductive pbeKDFParameters where
  | sha1 (p : sha1PbeParams)
  | md5 (p : md5Pkcs5PbeParams)
  deriving DecidableEq, Repr

/-- Method `DeriveKey` of the interface. -/
def pbeKDFParameters.DeriveKey (env : Env) : pbeKDFParameters → List Byte → Int → Go BytesErr
  | pbeKDFParameters.sha1 p, password, size => p.DeriveKey env password size
  | pbeKDFParameters.md5 p, password, size => p.DeriveKey env password size

/-- Method `DeriveIV` of the interface. -/
def pbeKDFParameters.DeriveIV (env : Env) : pbeKDFParameters → List Byte → Int → Go BytesErr
  | pbeKDFParameters.sha1 p, password, size => p.DeriveIV env password size
  | pbeKDFParameters.md5 p, password, size => p.DeriveIV env password size

/-- `unmarshal(bytes, params)` into the zero value `params` of either shape:
the fields `Salt` and `Iterations` are overwritten by the decoded ones. -/
def pbeKDFParameters.fill : pbeKDFParameters → List Byte × Int → pbeKDFParameters
  | pbeKDFParameters.sha1 _, d => pbeKDFParameters.sha1 { Salt := d.1, Iterations := d.2 }
  | pbeKDFParameters.md5 _, d => pbeKDFParameters.md5 { Salt := d.1, Iterations := d.2 }

/-- Go `asn1.RawValue`, the field read here. -/
structure RawValue where
  FullBytes : List Byte
  deriving DecidableEq, Repr

/-- Go `pkix.AlgorithmIdentifier`. -/
structure AlgorithmIdentifier where
  Algorithm : List Int
  Parameters : RawValue
  deriving DecidableEq, Repr

/-- The `encryptedPrivateKeyInfo` handed to `decryptPBE`. -/
structure encryptedPrivateKeyInfo where
  EncryptionAlgorithm : AlgorithmIdentifier
  EncryptedData : List Byte
  deriving DecidableEq, Repr

/-- Go `asn1.ObjectIdentifier.String`: the arcs in decimal, joined by dots. -/
def oidString (oid : List Int) : String :=
  String.intercalate "." (oid.map (fun v => toString v))

/-- The message prefix of the `default` branch of `decryptPBE`. -/
def errUnsupportedPrefix : String := "pkcs8: unsupported algorithm: "

/-- Result of `decryptPBE`: `([]byte, KDFParameters, error)`. -/
abbrev PBEResult := Option (List Byte) × Option pbeKDFParameters × Option String

/-- The `switch` of `decryptPBE`: the zero-valued `params`, the `cipherType` and
`origPassword` chosen for the OID, or `none` in the `default` branch. -/
def selectScheme (env : Env) (alg : List Int) : Option (pbeKDFParameters × cipherWithBlock × Bool) :=
  if alg = oidPBEWithSHAAnd3KeyTripleDESCBC then
    some (pbeKDFParameters.sha1 { Salt := [], Iterations := 0 }, shaWithTripleDESCBC env, false)
  else if alg = oidPBEWithSHAAnd40BitRC2CBC then
    some (pbeKDFParameters.sha1 { Salt := [], Iterations := 0 }, shaWith40BitRC2CBC env, false)
  else if alg = oidPBEWithMD5AndDESCBC then
    some (pbeKDFParameters.md5 { Salt := [], Iterations := 0 }, md5WithDESCBC env, true)
  else none

/-- The part of `decryptPBE` from `DeriveKey` on, once `params` is decoded. -/
def deriveAndDecrypt (env : Env) (params : pbeKDFParameters) (cipherType : cipherWithBlock)
    (privKey : encryptedPrivateKeyInfo) (password : List Byte) : Go PBEResult :=
  match params.DeriveKey env password cipherType.KeySize with
  | Except.error e => Except.error e
  | Except.ok (_, some err) => Except.ok (none, none, some err)
  | Except.ok (symKey, none) =>
    match params.DeriveIV env password cipherType.IVSize with
    | Except.error e => Except.error e
    | Except.ok (_, some err) => Except.ok (none, none, some err)
    | Except.ok (iv, none) =>
      match cipherType.Decrypt (bytesOf symKey) (bytesOf iv) privKey.EncryptedData with
      | Except.error e => Except.error e
      | Except.ok (_, some err) => Except.ok (none, none, some err)
      | Except.ok (decryptedKey, none) => Except.ok (decryptedKey, some params, none)

/-- The part of `decryptPBE` from `unmarshal` on, with the password already in
the encoding of the scheme. -/
def unmarshalAndDecrypt (env : Env) (params : pbeKDFParameters) (cipherType : cipherWithBlock)
    (privKey : encryptedPrivateKeyInfo) (password : List Byte) : Go PBEResult :=
  match env.unmarshal privKey.EncryptionAlgorithm.Parameters.FullBytes with
  | Except.error e => Except.error e
  | Except.ok (Except.error err) => Except.ok (none, none, some err)
  | Except.ok (Except.ok decoded) =>
    deriveAndDecrypt env (params.fill decoded) cipherType privKey password

/-- Source `decryptPBE`. -/
def decryptPBE (env : Env) (privKey : encryptedPrivateKeyInfo) (password : List Byte) :
    Go PBEResult :=
  match selectScheme env privKey.EncryptionAlgorithm.Algorithm with
  | none =>
    Except.ok (none, none,
      some (errUnsupportedPrefix ++ oidString privKey.EncryptionAlgorithm.Algorithm))
  | some (params, cipherType, origPassword) =>
    if origPassword then unmarshalAndDecrypt env params cipherType privKey password
    else
      match env.bmpStringZeroTerminated password with
      | Except.error e => Except.error e
      | Except.ok (_, some err) => Except.ok (none, none, some err)
      | Except.ok (encoded, none) =>
        unmarshalAndDecrypt env params cipherType privKey (bytesOf encoded)

/-! ## Stand-in collaborators, to run the model on concrete inputs -/

/-- A stand-in suite around `xorBlock`: the constructor accepts keys of
`keySize` bytes and pads with the first key byte. -/
def xorSuite (bs keySize : Nat) : cipherWithBlock where
  oid := [1, 2, 3]
  ivSize := bs
  keySize := keySize
  newBlock := fun key =>
    if key.length = keySize then Except.ok (Except.ok (xorBlock bs (key.headD 0)))
    else Except.ok (Except.error "xor: invalid key size")

/-- A stand-in 16-byte checksum in the place of a hash. -/
def sum16 (x : List Byte) : List Byte :=
  (List.range 16).map (fun i => byte (x.foldl (fun a b => 3 * a + b.val) 7 + 17 * i))

/-- A stand-in 20-byte checksum in the place of a hash. -/
def sum20 (x : List Byte) : List Byte :=
  (List.range 20).map (fun i => byte (x.foldl (fun a b => 5 * a + b.val) 11 + 13 * i))

/-- Stand-in collaborators: checksums for the hashes, xor pads for the block
ciphers, a one-byte-iteration-count parameter decoder. -/
def stubEnv : Env where
  md5 := sum16
  md5_size := by intro x; simp [sum16]
  sha1 := sum20
  sha1_size := by intro x; simp [sum20]
  PKCS12PBKDF := fun hash _ _ salt password _ id size =>
    Except.ok (some ((List.range size.toNat).map
      (fun i => byte (((hash (id :: salt ++ password)).getD (i % 20) 0).val + i))))
  bmpStringZeroTerminated := fun s =>
    if s.all (fun c => decide (c.val < 128)) then
      Except.ok (some (s.foldr (fun c acc => 0 :: c :: acc) [0, 0]), none)
    else Except.ok (none, some "pkcs8: string contains characters that cannot be encoded")
  unmarshal := fun b =>
    match b with
    | [] => Except.ok (Except.error "asn1: syntax error: truncated")
    | n :: salt => Except.ok (Except.ok (salt, (n.val : Int)))
  desNewCipher := fun key =>
    if key.length = 8 then Except.ok (Except.ok (xorBlock 8 (key.headD 0)))
    else Except.ok (Except.error "crypto/des: invalid key size")
  desNewTripleDESCipher := fun key =>
    if key.length = 24 then Except.ok (Except.ok (xorBlock 8 (key.headD 0)))
    else Except.ok (Except.error "crypto/des: invalid key size")
  rc2New := fun key _ => Except.ok (Except.ok (xorBlock 8 (key.headD 0)))
  rc2BlockSize := 8

/-! ## CBC mode as the specification words it -/

/-- The blocks `f 0`, ..., `f (n - 1)` one after the other. -/
def concatBlocks (f : Nat → List Byte) : Nat → List Byte
  | 0 => []
  | n + 1 => concatBlocks f n ++ f n

/-- Block `i` of a buffer cut into blocks of `bs` bytes. -/
def blockAt (bs : Nat) (buf : List Byte) (i : Nat) : List Byte :=
  (buf.drop (i * bs)).take bs

/-- CBC encryption, block `i`: `C_i = E(P_i xor C_(i-1))`, where `C_(-1)` is the IV. -/
def cbcCipherBlock (block : Block) (iv buf : List Byte) : Nat → List Byte
  | 0 => block.encrypt (xorBytes (blockAt block.blockSize buf 0) iv)
  | i + 1 =>
    block.encrypt (xorBytes (blockAt block.blockSize buf (i + 1)) (cbcCipherBlock block iv buf i))

/-- CBC encryption of a buffer of full blocks under an IV. -/
def cbcEncryption (block : Block) (iv buf : List Byte) : List Byte :=
  concatBlocks (cbcCipherBlock block iv buf) (buf.length / block.blockSize)

/-- CBC decryption, block `i`: `P_i = D(C_i) xor C_(i-1)`, where `C_(-1)` is the IV. -/
def cbcPlainBlock (block : Block) (iv buf : List Byte) (i : Nat) : List Byte :=
  xorBytes (block.decrypt (blockAt block.blockSize buf i))
    (if i = 0 then iv else blockAt block.blockSize buf (i - 1))

/-- CBC decryption of a buffer of full blocks under an IV. -/
def cbcDecryption (block : Block) (iv buf : List Byte) : List Byte :=
  concatBlocks (cbcPlainBlock block iv buf) (buf.length / block.blockSize)

/-- The value of the last byte of a buffer (0 for the empty buffer). -/
def lastByte (D : List Byte) : Nat := (D.getLastD 0).val

/-! ## The hash chain as the specification words it -/

/-- The chain `d_0 = d0`, `d_(i+1) = hash(d_i)`. -/
def hashChain (hash : List Byte → List Byte) (d0 : List Byte) : Nat → List Byte
  | 0 => d0
  | i + 1 => hash (hashChain hash d0 i)

/-! ## PKCS#12 Appendix-B KDF, modelled from the specification -/

/-- A byte string read as a big-endian integer. -/
def beToNat (bs : List Byte) : Nat := bs.foldl (fun acc b => acc * 256 + b.val) 0

/-- The `v` low-order bytes of `x`, big-endian: exactly `v` bytes, with leading
zero bytes when `x` is short. -/
def natToBE (v x : Nat) : List Byte := (List.range v).map (fun i => byte (x / 256 ^ (v - 1 - i)))

/-- Modelled from the spec: `pkcs12_pbkdf.go` is not among the source files.
A pattern "repeated/truncated" to exactly `n` bytes. -/
def repeatTo (pattern : List Byte) (n : Nat) : List Byte :=
  (List.range n).map (fun i => pattern.getD (i % pattern.length) 0)

/-- Modelled from the spec: `pkcs12_pbkdf.go` is not among the source files.
Steps 2 and 3: the pattern repeated/truncated to the smallest multiple of `v`
bytes that is at least its length, empty for the empty pattern. -/
def fillWithRepeats (pattern : List Byte) (v : Nat) : List Byte :=
  repeatTo pattern (v * ((pattern.length + v - 1) / v))

/-- Modelled from the spec: `pkcs12_pbkdf.go` is not among the source files.
The update of one chunk: `(I_j + B + 1) mod 2^(8v)` on big-endian integers,
written back as exactly `v` bytes. -/
def pkcs12Chunk (v : Nat) (Ij B : List Byte) : List Byte :=
  natToBE v ((beToNat Ij + beToNat B + 1) % 2 ^ (8 * v))

/-- Modelled from the spec: `pkcs12_pbkdf.go` is not among the source files.
The second half of step 5: `B` is `A` repeated/truncated to `v` bytes and
every `v`-byte chunk of `I` is updated with it. -/
def pkcs12Update (v : Nat) (I A : List Byte) : List Byte :=
  concatBlocks (fun j => pkcs12Chunk v (blockAt v I j) (repeatTo A v)) (I.length / v)

/-- Modelled from the spec: `pkcs12_pbkdf.go` is not among the source files.
Step 5, `k` rounds from the state `I`: `A` is the hash applied to `D || I` and
then rehashed `c - 1` further times; `A` is appended to the output and `I` is
updated. -/
def pkcs12Rounds (hash : List Byte → List Byte) (v : Nat) (c : Int) (D : List Byte) :
    Nat → List Byte → List Byte
  | 0, _ => []
  | k + 1, I =>
    let A := hashLoop hash (c - 1).toNat (hash (D ++ I))
    A ++ pkcs12Rounds hash v c D k (pkcs12Update v I A)

/-- Modelled from the spec: `pkcs12_pbkdf.go` is not among the source files.
`PKCS12PBKDF(hash, u, v, salt, password, c, ID, n)` after section 4.3: `D` is
`v` bytes of value `ID`, `I = S' || P'`, and rounds are run until `n` bytes
are collected, that is `ceil(n / u)` rounds of `u` bytes each; the first `n`
bytes are returned. -/
def PKCS12PBKDF (hash : List Byte → List Byte) (u v : Nat) (salt password : List Byte)
    (c : Int) (ID : Byte) (n : Nat) : List Byte :=
  (pkcs12Rounds hash v c (List.replicate v ID) ((n + u - 1) / u)
    (fillWithRepeats salt v ++ fillWithRepeats password v)).take n

/-- The state `I` before round `i` (rounds counted from 0): `I_0` is the
initial `S' || P'`, and each round updates it with its `A = H^c(D || I)`. -/
def pkcs12I (hash : List Byte → List Byte) (v : Nat) (c : Int) (D I0 : List Byte) :
    Nat → List Byte
  | 0 => I0
  | i + 1 =>
    pkcs12Update v (pkcs12I hash v c D I0 i)
      (hashChain hash (D ++ pkcs12I hash v c D I0 i) c.toNat)

/-- The block `A` of round `i`: `H^c(D || I)` on the state before that round. -/
def pkcs12A (hash : List Byte → List Byte) (v : Nat) (c : Int) (D I0 : List Byte)
    (i : Nat) : List Byte :=
  hashChain hash (D ++ pkcs12I hash v c D I0 i) c.toNat

/-! ## SHA-1 (FIPS 180-4), the hash behind `Sha1Sum` -/

namespace SHA1

/-- Rotation of a 32-bit word to the left by `k` bits, given `p = 2^k` and
`q = 2^(32-k)`. -/
def rotl (p q x : Nat) : Nat := Nat.add (Nat.mod (Nat.mul x p) 4294967296) (Nat.div x q)

/-- The sum of five words modulo `2^32`. -/
def add5 (a b c d e : Nat) : Nat :=
  Nat.mod (Nat.add (Nat.add (Nat.add (Nat.add a b) c) d) e) 4294967296

/-- The function `Ch` of rounds 0 to 19. -/
def fCh (b c d : Nat) : Nat := Nat.xor d (Nat.land b (Nat.xor c d))

/-- The function `Parity` of rounds 20 to 39 and 60 to 79. -/
def fPar (b c d : Nat) : Nat := Nat.xor (Nat.xor b c) d

/-- The function `Maj` of rounds 40 to 59. -/
def fMaj (b c d : Nat) : Nat := Nat.lor (Nat.land b c) (Nat.land d (Nat.lor b c))

/-- The working variables `a` to `e` and the window `w` of the 16 schedule
words `W_t, ..., W_(t+15)`, packed big-endian into one number. -/
structure State where
  a : Nat
  b : Nat
  c : Nat
  d : Nat
  e : Nat
  w : Nat

/-- The schedule word `W_(t+16) = rotl1(W_(t+13) xor W_(t+8) xor W_(t+2) xor W_t)`. -/
def nextW (w : Nat) : Nat :=
  rotl 2 2147483648
    (Nat.mod (Nat.xor (Nat.xor (Nat.xor (Nat.shiftRight w 64) (Nat.shiftRight w 224))
      (Nat.shiftRight w 416)) (Nat.shiftRight w 480)) 4294967296)

/-- The window moved on by one word: `W_t` leaves, `W_(t+16)` enters. -/
def slide (w : Nat) : Nat :=
  Nat.add (Nat.mul (Nat.mod w (Nat.pow 2 480)) 4294967296) (nextW w)

/-- One round with round function `f` and constant `k`. -/
def round (f : Nat → Nat → Nat → Nat) (k : Nat) (s : State) : State :=
  { a := add5 (rotl 32 134217728 s.a) (f s.b s.c s.d) s.e k (Nat.shiftRight s.w 480),
    b := s.a, c := rotl 1073741824 4 s.b, d := s.c, e := s.d, w := slide s.w }

/-- Five rounds. -/
def round5 (f : Nat → Nat → Nat → Nat) (k : Nat) (s : State) : State :=
  round f k (round f k (round f k (round f k (round f k s))))

/-- Twenty rounds. -/
def round20 (f : Nat → Nat → Nat → Nat) (k : Nat) (s : State) : State :=
  round5 f k (round5 f k (round5 f k (round5 f k s)))

/-- The eighty rounds of one block. -/
def rounds80 (s : State) : State :=
  round20 fPar 3395469782 (round20 fMaj 2400959708 (round20 fPar 1859775393
    (round20 fCh 1518500249 s)))

/-- The 32-bit word of `h` that starts `sh` bits above the bottom. -/
def word (h sh : Nat) : Nat := Nat.mod (Nat.shiftRight h sh) 4294967296

/-- Five 32-bit words packed big-endian into one 160-bit number. -/
def pack (a b c d e : Nat) : Nat :=
  Nat.add (Nat.mul (Nat.add (Nat.mul (Nat.add (Nat.mul (Nat.add (Nat.mul a 4294967296) b)
    4294967296) c) 4294967296) d) 4294967296) e

/-- The working variables at the start of a block: the five words of the
chaining value `h`, and the block `w` as the first window. -/
def start (h w : Nat) : State :=
  { a := word h 128, b := word h 96, c := word h 64, d := word h 32, e := word h 0, w := w }

/-- The next chaining value: the words of `h` plus the working variables after
the rounds, each modulo `2^32`. -/
def finish (h : Nat) (s : State) : Nat :=
  pack (Nat.mod (Nat.add (word h 128) s.a) 4294967296)
    (Nat.mod (Nat.add (word h 96) s.b) 4294967296)
    (Nat.mod (Nat.add (word h 64) s.c) 4294967296)
    (Nat.mod (Nat.add (word h 32) s.d) 4294967296)
    (Nat.mod (Nat.add (word h 0) s.e) 4294967296)

/-- The compression function: chaining value `h` (160 bits) and block `w`
(512 bits) to the next chaining value. -/
def compress (h w : Nat) : Nat := finish h (rounds80 (start h w))

/-- The initial chaining value. -/
def iv : Nat := 0x67452301EFCDAB8998BADCFE10325476C3D2E1F0

/-- The blocks of the padded message `padded`, `n` of them left, compressed in
order. -/
def blocks : Nat → Nat → Nat → Nat
  | 0, _, h => h
  | n + 1, padded, h =>
    blocks n padded (compress h (Nat.mod (Nat.shiftRight padded (512 * n)) (Nat.pow 2 512)))

/-- The number of zero bytes of the padding of a message of `len` bytes. -/
def zeroPad (len : Nat) : Nat := (119 - len % 64) % 64

/-- The padded message as one number: the message, the byte `80`, the zero
bytes and the bit length on 8 bytes. -/
def padded (msg : List Byte) : Nat :=
  beToNat msg * 2 ^ (8 * (zeroPad msg.length + 9)) + 2 ^ (8 * (zeroPad msg.length + 8) + 7) +
    8 * msg.length

/-- SHA-1 of a message, 20 bytes. -/
def sum (msg : List Byte) : List Byte :=
  natToBE 20 (blocks ((msg.length + 9 + zeroPad msg.length) / 64) (padded msg) iv)

/-- SHA-1 of a 20-byte message given as a 160-bit number, as a 160-bit number. -/
def sumOf20 (x : Nat) : Nat :=
  compress iv (Nat.add (Nat.mul x (Nat.pow 2 352))
    4586997231980143023221641790604173881593129978336562247475177678773845752176969616140037106220251373109408)

end SHA1

/-- Iteration of a function on numbers in which every value is computed before
the next step starts. -/
def iterStrict (f : Nat → Nat) : Nat → Nat → Nat
  | 0, x => x
  | n + 1, x =>
    match f x with
    | 0 => iterStrict f n 0
    | k + 1 => iterStrict f n (k + 1)

/-! ## MD5 (RFC 1321), the hash behind `Md5Sum` -/

namespace MD5

/-- The constants `floor(2^32 * abs(sin(i + 1)))`. -/
def K : List Nat :=
  [3614090360, 3905402710, 606105819, 3250441966, 4118548399, 1200080426, 2821735955,
    4249261313, 1770035416, 2336552879, 4294925233, 2304563134, 1804603682, 4254626195,
    2792965006, 1236535329, 4129170786, 3225465664, 643717713, 3921069994, 3593408605,
    38016083, 3634488961, 3889429448, 568446438, 3275163606, 4107603335, 1163531501,
    2850285829, 4243563512, 1735328473, 2368359562, 4294588738, 2272392833, 1839030562,
    4259657740, 2763975236, 1272893353, 4139469664, 3200236656, 681279174, 3936430074,
    3572445317, 76029189, 3654602809, 3873151461, 530742520, 3299628645, 4096336452,
    1126891415, 2878612391, 4237533241, 1700485571, 2399980690, 4293915773, 2240044497,
    1873313359, 4264355552, 2734768916, 1309151649, 4149444226, 3174756917, 718787259,
    3951481745]

/-- The rotation amounts of the 64 steps. -/
def S : List Nat :=
  [7, 12, 17, 22, 7, 12, 17, 22, 7, 12, 17, 22, 7, 12, 17, 22, 5, 9, 14, 20, 5, 9, 14, 20, 5,
    9, 14, 20, 5, 9, 14, 20, 4, 11, 16, 23, 4, 11, 16, 23, 4, 11, 16, 23, 4, 11, 16, 23, 6, 10,
    15, 21, 6, 10, 15, 21, 6, 10, 15, 21, 6, 10, 15, 21]

/-- Rotation of a 32-bit word to the left by `n` bits. -/
def rotl (x n : Nat) : Nat := ((x <<< n) ||| (x >>> (32 - n))) % 4294967296

/-- A little-endian 32-bit word. -/
def leWord (a b c d : Byte) : Nat := a.val + 256 * b.val + 65536 * c.val + 16777216 * d.val

/-- The little-endian words of a block. -/
def leWords : List Byte → List Nat
  | a :: b :: c :: d :: rest => leWord a b c d :: leWords rest
  | _ => []

/-- The 4 bytes of a word, little-endian. -/
def leBytes (w : Nat) : List Byte := [byte w, byte (w / 256), byte (w / 65536), byte (w / 16777216)]

/-- The four words of the chaining value. -/
structure State where
  a : Nat
  b : Nat
  c : Nat
  d : Nat

/-- The round function of step `i`. -/
def f (i b c d : Nat) : Nat :=
  if i < 16 then (b &&& c) ||| ((b ^^^ 4294967295) &&& d)
  else if i < 32 then (d &&& b) ||| ((d ^^^ 4294967295) &&& c)
  else if i < 48 then b ^^^ c ^^^ d
  else c ^^^ (b ||| (d ^^^ 4294967295))

/-- The index of the message word of step `i`. -/
def g (i : Nat) : Nat :=
  if i < 16 then i
  else if i < 32 then (5 * i + 1) % 16
  else if i < 48 then (3 * i + 5) % 16
  else (7 * i) % 16

/-- Step `i` on the words `m` of the block. -/
def step (m : List Nat) (s : State) (i : Nat) : State :=
  { a := s.d, d := s.c, c := s.b,
    b := (s.b + rotl ((s.a + f i s.b s.c s.d + K.getD i 0 + m.getD (g i) 0) % 4294967296)
      (S.getD i 0)) % 4294967296 }

/-- The compression of one 64-byte block into the chaining value. -/
def compress (h : State) (block : List Byte) : State :=
  { a := (h.a + ((List.range 64).foldl (step (leWords block)) h).a) % 4294967296,
    b := (h.b + ((List.range 64).foldl (step (leWords block)) h).b) % 4294967296,
    c := (h.c + ((List.range 64).foldl (step (leWords block)) h).c) % 4294967296,
    d := (h.d + ((List.range 64).foldl (step (leWords block)) h).d) % 4294967296 }

/-- The padded message: the byte `80`, zero bytes up to 56 modulo 64, and the
bit length on 8 bytes, little-endian. -/
def pad (msg : List Byte) : List Byte :=
  msg ++ (128 : Byte) :: List.replicate ((119 - msg.length % 64) % 64) (0 : Byte) ++
    (leBytes (8 * msg.length) ++ leBytes (8 * msg.length / 4294967296))

/-- The blocks of a padded message, `n` of them, compressed in order. -/
def blocks : Nat → State → List Byte → State
  | 0, h, _ => h
  | n + 1, h, bytes => blocks n (compress h (bytes.take 64)) (bytes.drop 64)

/-- MD5 of a message, 16 bytes. -/
def sum (msg : List Byte) : List Byte :=
  leBytes (blocks ((pad msg).length / 64)
      { a := 1732584193, b := 4023233417, c := 2562383102, d := 271733878 } (pad msg)).a ++
    leBytes (blocks ((pad msg).length / 64)
      { a := 1732584193, b := 4023233417, c := 2562383102, d := 271733878 } (pad msg)).b ++
    leBytes (blocks ((pad msg).length / 64)
      { a := 1732584193, b := 4023233417, c := 2562383102, d := 271733878 } (pad msg)).c ++
    leBytes (blocks ((pad msg).length / 64)
      { a := 1732584193, b := 4023233417, c := 2562383102, d := 271733878 } (pad msg)).d

end MD5

/-! ## DES (FIPS 46-3), the cipher behind `des.NewCipher` -/

namespace DES

/-- The initial permutation. -/
def IP : List Nat :=
  [58, 50, 42, 34, 26, 18, 10, 2, 60, 52, 44, 36, 28, 20, 12, 4, 62, 54, 46, 38, 30, 22, 14,
    6, 64, 56, 48, 40, 32, 24, 16, 8, 57, 49, 41, 33, 25, 17, 9, 1, 59, 51, 43, 35, 27, 19, 11,
    3, 61, 53, 45, 37, 29, 21, 13, 5, 63, 55, 47, 39, 31, 23, 15, 7]

/-- The final permutation, inverse of `IP`. -/
def FP : List Nat :=
  [40, 8, 48, 16, 56, 24, 64, 32, 39, 7, 47, 15, 55, 23, 63, 31, 38, 6, 46, 14, 54, 22, 62,
    30, 37, 5, 45, 13, 53, 21, 61, 29, 36, 4, 44, 12, 52, 20, 60, 28, 35, 3, 43, 11, 51, 19,
    59, 27, 34, 2, 42, 10, 50, 18, 58, 26, 33, 1, 41, 9, 49, 17, 57, 25]

/-- The expansion of 32 bits to 48. -/
def E : List Nat :=
  [32, 1, 2, 3, 4, 5, 4, 5, 6, 7, 8, 9, 8, 9, 10, 11, 12, 13, 12, 13, 14, 15, 16, 17, 16, 17,
    18, 19, 20, 21, 20, 21, 22, 23, 24, 25, 24, 25, 26, 27, 28, 29, 28, 29, 30, 31, 32, 1]

/-- The permutation after the S-boxes. -/
def P : List Nat :=
  [16, 7, 20, 21, 29, 12, 28, 17, 1, 15, 23, 26, 5, 18, 31, 10, 2, 8, 24, 14, 32, 27, 3, 9,
    19, 13, 30, 6, 22, 11, 4, 25]

/-- Permuted choice 1 of the key schedule. -/
def PC1 : List Nat :=
  [57, 49, 41, 33, 25, 17, 9, 1, 58, 50, 42, 34, 26, 18, 10, 2, 59, 51, 43, 35, 27, 19, 11, 3,
    60, 52, 44, 36, 63, 55, 47, 39, 31, 23, 15, 7, 62, 54, 46, 38, 30, 22, 14, 6, 61, 53, 45,
    37, 29, 21, 13, 5, 28, 20, 12, 4]

/-- Permuted choice 2 of the key schedule. -/
def PC2 : List Nat :=
  [14, 17, 11, 24, 1, 5, 3, 28, 15, 6, 21, 10, 23, 19, 12, 4, 26, 8, 16, 7, 27, 20, 13, 2, 41,
    52, 31, 37, 47, 55, 30, 40, 51, 45, 33, 48, 44, 49, 39, 56, 34, 53, 46, 42, 50, 36, 29, 32]

/-- The left rotations of the key schedule. -/
def shifts : List Nat :=
  [1, 1, 2, 2, 2, 2, 2, 2, 1, 2, 2, 2, 2, 2, 2, 1]

/-- The eight S-boxes, each as 4 rows of 16 entries. -/
def sboxes : List (List Nat) :=
  [[14, 4, 13, 1, 2, 15, 11, 8, 3, 10, 6, 12, 5, 9, 0, 7, 0, 15, 7, 4, 14, 2, 13, 1, 10, 6,
      12, 11, 9, 5, 3, 8, 4, 1, 14, 8, 13, 6, 2, 11, 15, 12, 9, 7, 3, 10, 5, 0, 15, 12, 8, 2,
      4, 9, 1, 7, 5, 11, 3, 14, 10, 0, 6, 13],
    [15, 1, 8, 14, 6, 11, 3, 4, 9, 7, 2, 13, 12, 0, 5, 10, 3, 13, 4, 7, 15, 2, 8, 14, 12, 0,
      1, 10, 6, 9, 11, 5, 0, 14, 7, 11, 10, 4, 13, 1, 5, 8, 12, 6, 9, 3, 2, 15, 13, 8, 10, 1,
      3, 15, 4, 2, 11, 6, 7, 12, 0, 5, 14, 9],
    [10, 0, 9, 14, 6, 3, 15, 5, 1, 13, 12, 7, 11, 4, 2, 8, 13, 7, 0, 9, 3, 4, 6, 10, 2, 8, 5,
      14, 12, 11, 15, 1, 13, 6, 4, 9, 8, 15, 3, 0, 11, 1, 2, 12, 5, 10, 14, 7, 1, 10, 13, 0, 6,
      9, 8, 7, 4, 15, 14, 3, 11, 5, 2, 12],
    [7, 13, 14, 3, 0, 6, 9, 10, 1, 2, 8, 5, 11, 12, 4, 15, 13, 8, 11, 5, 6, 15, 0, 3, 4, 7, 2,
      12, 1, 10, 14, 9, 10, 6, 9, 0, 12, 11, 7, 13, 15, 1, 3, 14, 5, 2, 8, 4, 3, 15, 0, 6, 10,
      1, 13, 8, 9, 4, 5, 11, 12, 7, 2, 14],
    [2, 12, 4, 1, 7, 10, 11, 6, 8, 5, 3, 15, 13, 0, 14, 9, 14, 11, 2, 12, 4, 7, 13, 1, 5, 0,
      15, 10, 3, 9, 8, 6, 4, 2, 1, 11, 10, 13, 7, 8, 15, 9, 12, 5, 6, 3, 0, 14, 11, 8, 12, 7,
      1, 14, 2, 13, 6, 15, 0, 9, 10, 4, 5, 3],
    [12, 1, 10, 15, 9, 2, 6, 8, 0, 13, 3, 4, 14, 7, 5, 11, 10, 15, 4, 2, 7, 12, 9, 5, 6, 1,
      13, 14, 0, 11, 3, 8, 9, 14, 15, 5, 2, 8, 12, 3, 7, 0, 4, 10, 1, 13, 11, 6, 4, 3, 2, 12,
      9, 5, 15, 10, 11, 14, 1, 7, 6, 0, 8, 13],
    [4, 11, 2, 14, 15, 0, 8, 13, 3, 12, 9, 7, 5, 10, 6, 1, 13, 0, 11, 7, 4, 9, 1, 10, 14, 3,
      5, 12, 2, 15, 8, 6, 1, 4, 11, 13, 12, 3, 7, 14, 10, 15, 6, 8, 0, 5, 9, 2, 6, 11, 13, 8,
      1, 4, 10, 7, 9, 5, 0, 15, 14, 2, 3, 12],
    [13, 2, 8, 4, 6, 15, 11, 1, 10, 9, 3, 14, 5, 0, 12, 7, 1, 15, 13, 8, 10, 3, 7, 4, 12, 5,
      6, 11, 0, 14, 9, 2, 7, 11, 4, 1, 9, 12, 14, 2, 0, 6, 10, 13, 15, 3, 5, 8, 2, 1, 14, 7, 4,
      10, 8, 13, 15, 12, 9, 0, 3, 5, 6, 11]]

/-- The bits of the `width`-bit number `x` picked by `table` (positions counted
from 1 at the most significant bit), in the order of the table. -/
def permute (x width : Nat) (table : List Nat) : Nat :=
  table.foldl (fun r p => 2 * r + (x >>> (width - p)) % 2) 0

/-- Rotation of a 28-bit half of the key to the left by `s` bits. -/
def rotl28 (x s : Nat) : Nat := ((x <<< s) ||| (x >>> (28 - s))) % 268435456

/-- The key schedule: the halves `c` and `d` are rotated and `PC2` picks a
48-bit subkey, once for each entry of the list of rotations. -/
def schedule : List Nat → Nat → Nat → List Nat
  | [], _, _ => []
  | s :: rest, c, d =>
    permute (rotl28 c s * 268435456 + rotl28 d s) 56 PC2 :: schedule rest (rotl28 c s) (rotl28 d s)

/-- The 16 subkeys of a 64-bit key. -/
def subkeys (key : Nat) : List Nat :=
  schedule shifts (permute key 64 PC1 / 268435456) (permute key 64 PC1 % 268435456)

/-- The output of S-box `i` on the 6 bits `b`: the outer bits pick the row, the
inner four the column. -/
def sbox (i b : Nat) : Nat :=
  (sboxes.getD i []).getD ((b / 32 * 2 + b % 2) * 16 + b / 2 % 16) 0

/-- The S-box layer on 48 bits. -/
def substitute (x : Nat) : Nat :=
  (List.range 8).foldl (fun o i => 16 * o + sbox i ((x >>> (42 - 6 * i)) % 64)) 0

/-- The Feistel function. -/
def feistel (r k : Nat) : Nat := permute (substitute (permute r 32 E ^^^ k)) 32 P

/-- The rounds: each subkey in turn maps `(l, r)` to `(r, l xor f(r, k))`; the
halves are swapped at the end. -/
def rounds : List Nat → Nat → Nat → Nat
  | [], l, r => r * 4294967296 + l
  | k :: ks, l, r => rounds ks r (l ^^^ feistel r k)

/-- One 64-bit block under the subkeys `ks` taken in order. -/
def crypt (ks : List Nat) (block : Nat) : Nat :=
  permute (rounds ks (permute block 64 IP / 4294967296) (permute block 64 IP % 4294967296)) 64 FP

/-- The `cipher.Block` of a key schedule: encryption takes the subkeys in
order, decryption in reverse order. -/
def block (ks : List Nat) : Block where
  blockSize := 8
  encrypt := fun b => natToBE 8 (crypt ks (beToNat b))
  decrypt := fun b => natToBE 8 (crypt ks.reverse (beToNat b))
  encrypt_length := by intro b _; simp [natToBE]
  decrypt_length := by intro b _; simp [natToBE]

/-- Go `des.NewCipher`: a key of 8 bytes, or else a `KeySizeError`. -/
def NewCipher (key : List Byte) : Go (Except String Block) :=
  if key.length ≠ 8 then
    Except.ok (Except.error ("crypto/des: invalid key size " ++ toString key.length))
  else Except.ok (Except.ok (block (subkeys (beToNat key))))

end DES

/-! ## The parameter bytes, modelled from the specification -/

/-- Modelled from the spec: `unmarshal` is not among the source files. A DER
length, short form or long form on one or two bytes, and the bytes after it. -/
def derLength : List Byte → Option (Nat × List Byte)
  | [] => none
  | b :: rest =>
    if b.val < 128 then some (b.val, rest)
    else if b.val = 129 then
      match rest with
      | l :: r => some (l.val, r)
      | _ => none
    else if b.val = 130 then
      match rest with
      | h :: l :: r => some (h.val * 256 + l.val, r)
      | _ => none
    else none

/-- Modelled from the spec: `unmarshal` is not among the source files. One DER
element with the given tag: its content and the bytes after it. -/
def derElement (tag : Nat) : List Byte → Option (List Byte × List Byte)
  | [] => none
  | t :: rest =>
    if t.val ≠ tag then none
    else
      match derLength rest with
      | none => none
      | some (len, body) =>
        if body.length < len then none else some (body.take len, body.drop len)

/-- Modelled from the spec: `unmarshal` is not among the source files. The
value of a DER INTEGER: big-endian two's complement. -/
def derInteger (content : List Byte) : Int :=
  if (content.headD 0).val < 128 then (beToNat content : Int)
  else (beToNat content : Int) - (256 ^ content.length : Nat)

/-- Modelled from the spec: `unmarshal` is not among the source files. Section
6 gives the wire shape of the parameters, the same for both KDF families:
`SEQUENCE { salt OCTET STRING, iterations INTEGER }`, with nothing after it;
anything else is a parameter-decode error. -/
def derUnmarshal (bytes : List Byte) : Go (Except String (List Byte × Int)) :=
  match derElement 48 bytes with
  | some (body, []) =>
    match derElement 4 body with
    | some (salt, rest) =>
      match derElement 2 rest with
      | some (i, []) =>
        if i = [] then Except.ok (Except.error "asn1: syntax error: empty integer")
        else Except.ok (Except.ok (salt, derInteger i))
      | _ => Except.ok (Except.error "asn1: structure error: iterations")
    | none => Except.ok (Except.error "asn1: structure error: salt")
  | some (_, _ :: _) => Except.ok (Except.error "pkcs8: trailing data")
  | none => Except.ok (Except.error "asn1: structure error: sequence")

/-- Collaborators for the MD5-and-DES scheme as they are: MD5, DES and the DER
shape of the parameters; what that scheme does not use stays a stand-in. -/
def md5DesEnv : Env :=
  { stubEnv with
    md5 := MD5.sum
    md5_size := by intro x; simp [MD5.sum, MD5.leBytes]
    desNewCipher := DES.NewCipher
    unmarshal := derUnmarshal }

/-! ## The `return` statements of `cbcDecrypt` -/

/-- The four `return` statements of `cbcDecrypt` (cipher.go), in source order. -/
inductive Return where
  /-- After `psLen == 0 || psLen > block.BlockSize()` (line 63). -/
  | psLenRange
  /-- After `len(plaintext) < psLen` (line 67). -/
  | plaintextShort
  /-- After `!bytes.Equal(ps, ...)` (line 74). -/
  | paddingMismatch
  /-- The final `return plaintext, nil` (line 77). -/
  | plaintext
  deriving DecidableEq, Repr

/-- Source `cbcDecrypt` (cipher.go) once more, statement for statement as in
`cbcDecrypt` above, returning beside the result the `return` statement that
was reached. -/
def cbcDecryptTraced (block : Block) (iv ciphertext : List Byte) : Go (BytesErr × Return) :=
  match newCBC block iv with
  | Except.error p => Except.error p
  | Except.ok mode =>
    match decrypterCryptBlocks mode ciphertext with
    | Except.error p => Except.error p
    | Except.ok plaintext =>
      match plaintext.getLast? with
      | none => Except.error Panic.indexOutOfRange
      | some last =>
        let psLen := last.val
        if psLen = 0 ∨ psLen > block.blockSize then
          Except.ok ((none, some errDecryptionFailed), Return.psLenRange)
        else if plaintext.length < psLen then
          Except.ok ((none, some errDecryptionFailed), Return.plaintextShort)
        else
          let ps := plaintext.drop (plaintext.length - psLen)
          let plaintext := plaintext.take (plaintext.length - psLen)
          if ps ≠ List.replicate psLen (byte psLen) then
            Except.ok ((none, some errDecryptionFailed), Return.paddingMismatch)
          else Except.ok ((some plaintext, none), Return.plaintext)

/-! ## Lemmas on the CBC loops -/

theorem byte_xor_cancel (a b : Byte) : (a ^^^ b) ^^^ b = a := by
  apply Fin.ext
  have ha : a.val < 256 := a.isLt
  have hb : b.val < 256 := b.isLt
  have hab : a.val ^^^ b.val < 256 :=
    Nat.xor_lt_two_pow (show a.val < 2 ^ 8 from ha) (show b.val < 2 ^ 8 from hb)
  show ((a.val ^^^ b.val) % 256 ^^^ b.val) % 256 = a.val
  rw [Nat.mod_eq_of_lt hab, Nat.xor_cancel_right, Nat.mod_eq_of_lt ha]

theorem xorBytes_length (x y : List Byte) (h : x.length = y.length) :
    (xorBytes x y).length = x.length := by
  simp [xorBytes, h]

theorem xorBytes_cancel (x y : List Byte) (h : x.length = y.length) :
    xorBytes (xorBytes x y) y = x := by
  induction x generalizing y with
  | nil => simp [xorBytes]
  | cons a x ih =>
    cases y with
    | nil => simp at h
    | cons b y =>
      have h2 : x.length = y.length := by simpa using h
      have := ih y h2
      simp only [xorBytes, List.zipWith_cons_cons] at this ⊢
      rw [this, byte_xor_cancel]

theorem encryptBlocks_length (b : Block) (n : Nat) (iv src : List Byte)
    (hiv : iv.length = b.blockSize) (hsrc : src.length = n * b.blockSize) :
    (encryptBlocks b n iv src).length = n * b.blockSize := by
  induction n generalizing iv src with
  | zero => simp [encryptBlocks]
  | succ n ih =>
    have htake : (src.take b.blockSize).length = b.blockSize := by
      rw [List.length_take, hsrc, Nat.succ_mul]; omega
    have hx : (xorBytes (src.take b.blockSize) iv).length = b.blockSize := by
      rw [xorBytes_length _ _ (by rw [htake, hiv]), htake]
    have hc := b.encrypt_length _ hx
    have hdrop : (src.drop b.blockSize).length = n * b.blockSize := by
      rw [List.length_drop, hsrc, Nat.succ_mul]; omega
    simp only [encryptBlocks, List.length_append, hc, ih _ _ hc hdrop]
    rw [Nat.succ_mul]; omega

theorem decryptBlocks_length (b : Block) (n : Nat) (iv src : List Byte)
    (hiv : iv.length = b.blockSize) (hsrc : src.length = n * b.blockSize) :
    (decryptBlocks b n iv src).length = n * b.blockSize := by
  induction n generalizing iv src with
  | zero => simp [decryptBlocks]
  | succ n ih =>
    have htake : (src.take b.blockSize).length = b.blockSize := by
      rw [List.length_take, hsrc, Nat.succ_mul]; omega
    have hd := b.decrypt_length _ htake
    have hx : (xorBytes (b.decrypt (src.take b.blockSize)) iv).length = b.blockSize := by
      rw [xorBytes_length _ _ (by rw [hd, hiv]), hd]
    have hdrop : (src.drop b.blockSize).length = n * b.blockSize := by
      rw [List.length_drop, hsrc, Nat.succ_mul]; omega
    simp only [decryptBlocks, List.length_append, hx, ih _ _ htake hdrop]
    rw [Nat.succ_mul]; omega

theorem decryptBlocks_encryptBlocks (b : Block)
    (hinv : ∀ x : List Byte, x.length = b.blockSize → b.decrypt (b.encrypt x) = x)
    (n : Nat) (iv src : List Byte)
    (hiv : iv.length = b.blockSize) (hsrc : src.length = n * b.blockSize) :
    decryptBlocks b n iv (encryptBlocks b n iv src) = src := by
  induction n generalizing iv src with
  | zero =>
    have : src = [] := by
      apply List.eq_nil_of_length_eq_zero; simpa using hsrc
    simp [decryptBlocks, this]
  | succ n ih =>
    have htake : (src.take b.blockSize).length = b.blockSize := by
      rw [List.length_take, hsrc, Nat.succ_mul]; omega
    have hx : (xorBytes (src.take b.blockSize) iv).length = b.blockSize := by
      rw [xorBytes_length _ _ (by rw [htake, hiv]), htake]
    have hc := b.encrypt_length _ hx
    have hdrop : (src.drop b.blockSize).length = n * b.blockSize := by
      rw [List.length_drop, hsrc, Nat.succ_mul]; omega
    simp only [encryptBlocks, decryptBlocks]
    rw [List.take_left' hc, List.drop_left' hc, hinv _ hx,
      xorBytes_cancel _ _ (by rw [htake, hiv]), ih _ _ hc hdrop, List.take_append_drop]

theorem padded_length (bs len : Nat) (hbs : 0 < bs) :
    len + (bs - len % bs) = (len / bs + 1) * bs := by
  have h1 : len % bs < bs := Nat.mod_lt _ hbs
  have h2 : bs * (len / bs) + len % bs = len := Nat.div_add_mod len bs
  rw [Nat.add_mul, Nat.one_mul, Nat.mul_comm (len / bs) bs]
  omega

theorem cbcEncrypt_eq (block : Block) (iv plaintext : List Byte)
    (hbs : 0 < block.blockSize) (hiv : iv.length = block.blockSize) :
    cbcEncrypt block iv plaintext =
      Except.ok (some (encryptBlocks block (plaintext.length / block.blockSize + 1) iv
        (plaintext ++ List.replicate (block.blockSize - plaintext.length % block.blockSize)
          (byte (block.blockSize - plaintext.length % block.blockSize)))), none) := by
  have hlen := padded_length block.blockSize plaintext.length hbs
  have hne : block.blockSize ≠ 0 := Nat.pos_iff_ne_zero.mp hbs
  simp only [cbcEncrypt, newCBC, hiv, ne_eq, not_true_eq_false, if_false, hne,
    encrypterCryptBlocks, List.length_append, List.length_replicate, hlen,
    Nat.mul_mod_left, Nat.mul_div_cancel _ hbs]

theorem cbcDecrypt_crypt (block : Block) (iv ciphertext : List Byte) (n : Nat)
    (hbs : 0 < block.blockSize)
    (hct : ciphertext.length = n * block.blockSize) :
    decrypterCryptBlocks (block, iv) ciphertext =
      Except.ok (decryptBlocks block n iv ciphertext) := by
  have hne : block.blockSize ≠ 0 := Nat.pos_iff_ne_zero.mp hbs
  simp only [decrypterCryptBlocks, hne, if_false, hct, Nat.mul_mod_left, ne_eq,
    not_true_eq_false, Nat.mul_div_cancel _ hbs]

theorem byte_val (p : Nat) (hp : p ≤ 255) : (byte p).val = p := by
  show p % 256 = p
  omega

theorem cbcDecrypt_of_crypt (block : Block) (iv ciphertext D : List Byte)
    (hiv : iv.length = block.blockSize)
    (hD : decrypterCryptBlocks (block, iv) ciphertext = Except.ok D) :
    cbcDecrypt block iv ciphertext =
      match D.getLast? with
      | none => Except.error Panic.indexOutOfRange
      | some last =>
        if last.val = 0 ∨ last.val > block.blockSize then
          Except.ok (none, some errDecryptionFailed)
        else if D.length < last.val then
          Except.ok (none, some errDecryptionFailed)
        else if D.drop (D.length - last.val) ≠ List.replicate last.val (byte last.val) then
          Except.ok (none, some errDecryptionFailed)
        else Except.ok (some (D.take (D.length - last.val)), none) := by
  simp only [cbcDecrypt, newCBC, hiv, ne_eq, not_true_eq_false, if_false, hD]

theorem unpad_padded (block : Block) (iv ciphertext pt : List Byte) (p : Nat)
    (hiv : iv.length = block.blockSize) (hp1 : 1 ≤ p) (hp2 : p ≤ block.blockSize)
    (hp3 : p ≤ 255)
    (hD : decrypterCryptBlocks (block, iv) ciphertext =
      Except.ok (pt ++ List.replicate p (byte p))) :
    cbcDecrypt block iv ciphertext = Except.ok (some pt, none) := by
  rw [cbcDecrypt_of_crypt block iv ciphertext _ hiv hD]
  have hlast : (pt ++ List.replicate p (byte p)).getLast? = some (byte p) := by
    obtain ⟨q, rfl⟩ : ∃ q, p = q + 1 := ⟨p - 1, by omega⟩
    rw [List.replicate_succ', ← List.append_assoc, List.getLast?_concat]
  have hv := byte_val p hp3
  simp only [hlast, hv, List.length_append, List.length_replicate, Nat.add_sub_cancel]
  have h1 : ¬ (p = 0 ∨ p > block.blockSize) := by omega
  have h2 : ¬ (pt.length + p < p) := by omega
  simp [h1, h2]

theorem xorBlock_inv (bs : Nat) (k : Byte) (x : List Byte) :
    (xorBlock bs k).decrypt ((xorBlock bs k).encrypt x) = x := by
  simp only [xorBlock, List.map_map]
  have h : ((fun y : Byte => y ^^^ k) ∘ fun y : Byte => y ^^^ k) = id := by
    funext y
    exact byte_xor_cancel y k
  rw [h, List.map_id]

/-! ## The CBC codec -/

/-- C1. Round trip: for a block cipher of block size between 1 and 255 whose
block decryption inverts its block encryption, an IV of block-size length and
any plaintext, `cbcEncrypt` returns a ciphertext without error and `cbcDecrypt`
of that ciphertext returns exactly the plaintext without error; the same holds
for `Encrypt` and `Decrypt` of every suite whose constructor yields that block
for the key. -/
theorem cbc_round_trip (c : cipherWithBlock) (block : Block) (key iv plaintext : List Byte)
    (hkey : c.newBlock key = Except.ok (Except.ok block))
    (hbs1 : 1 ≤ block.blockSize) (hbs2 : block.blockSize ≤ 255)
    (hinv : ∀ x : List Byte, x.length = block.blockSize → block.decrypt (block.encrypt x) = x)
    (hiv : iv.length = block.blockSize) :
    ∃ ct : List Byte,
      cbcEncrypt block iv plaintext = Except.ok (some ct, none) ∧
      cbcDecrypt block iv ct = Except.ok (some plaintext, none) ∧
      c.Encrypt key iv plaintext = Except.ok (some ct, none) ∧
      c.Decrypt key iv ct = Except.ok (some plaintext, none) := by
  have hbs : 0 < block.blockSize := hbs1
  have hmod : plaintext.length % block.blockSize < block.blockSize := Nat.mod_lt _ hbs
  have henc := cbcEncrypt_eq block iv plaintext hbs hiv
  have hpad : (plaintext ++ List.replicate (block.blockSize - plaintext.length % block.blockSize)
      (byte (block.blockSize - plaintext.length % block.blockSize))).length =
      (plaintext.length / block.blockSize + 1) * block.blockSize := by
    rw [List.length_append, List.length_replicate]
    exact padded_length _ _ hbs
  have hctlen := encryptBlocks_length block _ iv _ hiv hpad
  have hdec : cbcDecrypt block iv (encryptBlocks block (plaintext.length / block.blockSize + 1) iv
      (plaintext ++ List.replicate (block.blockSize - plaintext.length % block.blockSize)
        (byte (block.blockSize - plaintext.length % block.blockSize)))) =
      Except.ok (some plaintext, none) := by
    apply unpad_padded block iv _ plaintext
      (block.blockSize - plaintext.length % block.blockSize) hiv
      (by omega) (by omega) (by omega)
    rw [cbcDecrypt_crypt block iv _ _ hbs hctlen,
      decryptBlocks_encryptBlocks block hinv _ iv _ hiv hpad]
  refine ⟨_, henc, hdec, ?_, ?_⟩
  · simp only [cipherWithBlock.Encrypt, hkey, henc]
  · simp only [cipherWithBlock.Decrypt, hkey, hdec]

/-- C1 at a concrete input: block size 8, a 3-byte plaintext. -/
theorem cbc_round_trip_witness :
    ∃ ct : List Byte,
      cbcEncrypt (xorBlock 8 90) [1, 2, 3, 4, 5, 6, 7, 8] [65, 66, 67] =
        Except.ok (some ct, none) ∧
      cbcDecrypt (xorBlock 8 90) [1, 2, 3, 4, 5, 6, 7, 8] ct =
        Except.ok (some [65, 66, 67], none) ∧
      (xorSuite 8 5).Encrypt [90, 1, 2, 3, 4] [1, 2, 3, 4, 5, 6, 7, 8] [65, 66, 67] =
        Except.ok (some ct, none) ∧
      (xorSuite 8 5).Decrypt [90, 1, 2, 3, 4] [1, 2, 3, 4, 5, 6, 7, 8] ct =
        Except.ok (some [65, 66, 67], none) :=
  cbc_round_trip (xorSuite 8 5) (xorBlock 8 90) [90, 1, 2, 3, 4] [1, 2, 3, 4, 5, 6, 7, 8]
    [65, 66, 67] rfl (by decide) (by decide) (fun x _ => xorBlock_inv 8 90 x) rfl

theorem byte_val_self (x : Byte) : byte x.val = x := by
  apply Fin.ext
  show x.val % 256 = x.val
  exact Nat.mod_eq_of_lt x.isLt

theorem getLast?_eq_getLastD (D : List Byte) (h : 0 < D.length) :
    D.getLast? = some (D.getLastD 0) := by
  cases D with
  | nil => simp at h
  | cons a l => rfl

theorem tail_eq_replicate_iff (D : List Byte) (last : Byte) (h : last.val ≤ D.length) :
    D.drop (D.length - last.val) = List.replicate last.val (byte last.val) ↔
      ∀ x ∈ D.drop (D.length - last.val), x.val = last.val := by
  rw [byte_val_self, List.eq_replicate_iff]
  constructor
  · rintro ⟨_, h2⟩ x hx
    rw [h2 x hx]
  · intro h2
    refine ⟨by rw [List.length_drop]; omega, fun x hx => Fin.ext (h2 x hx)⟩

/-- The padding check of `cbcDecrypt` on the CBC decryption `D` of a ciphertext
of full blocks. -/
theorem cbcDecrypt_full_blocks (block : Block) (iv ciphertext : List Byte) (n : Nat)
    (hn : 0 < n) (hbs : 0 < block.blockSize) (hiv : iv.length = block.blockSize)
    (hct : ciphertext.length = n * block.blockSize) :
    cbcDecrypt block iv ciphertext =
      if ((decryptBlocks block n iv ciphertext).getLastD 0).val = 0 ∨
          ((decryptBlocks block n iv ciphertext).getLastD 0).val > block.blockSize ∨
          ((decryptBlocks block n iv ciphertext).getLastD 0).val >
            (decryptBlocks block n iv ciphertext).length ∨
          ¬ ∀ x ∈ (decryptBlocks block n iv ciphertext).drop
              ((decryptBlocks block n iv ciphertext).length -
                ((decryptBlocks block n iv ciphertext).getLastD 0).val),
            x.val = ((decryptBlocks block n iv ciphertext).getLastD 0).val then
        Except.ok (none, some errDecryptionFailed)
      else
        Except.ok (some ((decryptBlocks block n iv ciphertext).take
          ((decryptBlocks block n iv ciphertext).length -
            ((decryptBlocks block n iv ciphertext).getLastD 0).val)), none) := by
  have hD := cbcDecrypt_crypt block iv ciphertext n hbs hct
  have hlen := decryptBlocks_length block n iv ciphertext hiv hct
  have hpos : 0 < (decryptBlocks block n iv ciphertext).length := by
    rw [hlen]; exact Nat.mul_pos hn hbs
  rw [cbcDecrypt_of_crypt block iv ciphertext _ hiv hD, getLast?_eq_getLastD _ hpos]
  generalize decryptBlocks block n iv ciphertext = D
  generalize D.getLastD 0 = last
  show (if last.val = 0 ∨ last.val > block.blockSize then _ else _) = _
  by_cases h1 : last.val = 0 ∨ last.val > block.blockSize
  · have hbad : last.val = 0 ∨ last.val > block.blockSize ∨ last.val > D.length ∨
        ¬ ∀ x ∈ D.drop (D.length - last.val), x.val = last.val := by
      rcases h1 with h | h
      · exact Or.inl h
      · exact Or.inr (Or.inl h)
    rw [if_pos h1, if_pos hbad]
  · rw [if_neg h1]
    by_cases h2 : D.length < last.val
    · have hbad : last.val = 0 ∨ last.val > block.blockSize ∨ last.val > D.length ∨
          ¬ ∀ x ∈ D.drop (D.length - last.val), x.val = last.val :=
        Or.inr (Or.inr (Or.inl h2))
      rw [if_pos h2, if_pos hbad]
    · rw [if_neg h2]
      have hle : last.val ≤ D.length := by omega
      have hiff := tail_eq_replicate_iff D last hle
      by_cases h3 : D.drop (D.length - last.val) = List.replicate last.val (byte last.val)
      · have h4 := hiff.mp h3
        have hgood : ¬ (last.val = 0 ∨ last.val > block.blockSize ∨ last.val > D.length ∨
            ¬ ∀ x ∈ D.drop (D.length - last.val), x.val = last.val) := by
          intro h
          rcases h with h | h | h | h
          · exact h1 (Or.inl h)
          · exact h1 (Or.inr h)
          · exact h2 h
          · exact h h4
        rw [if_neg (not_not.mpr h3), if_neg hgood]
      · have h4 : ¬ ∀ x ∈ D.drop (D.length - last.val), x.val = last.val :=
          fun h => h3 (hiff.mpr h)
        have hbad : last.val = 0 ∨ last.val > block.blockSize ∨ last.val > D.length ∨
            ¬ ∀ x ∈ D.drop (D.length - last.val), x.val = last.val :=
          Or.inr (Or.inr (Or.inr h4))
        rw [if_pos h3, if_pos hbad]

theorem concatBlocks_succ_left (f : Nat → List Byte) (n : Nat) :
    concatBlocks f (n + 1) = f 0 ++ concatBlocks (fun i => f (i + 1)) n := by
  induction n with
  | zero => simp [concatBlocks]
  | succ n ih =>
    rw [concatBlocks, ih, concatBlocks, List.append_assoc]

theorem blockAt_succ (bs : Nat) (buf : List Byte) (i : Nat) :
    blockAt bs buf (i + 1) = blockAt bs (buf.drop bs) i := by
  simp only [blockAt, List.drop_drop]
  congr 2
  rw [Nat.succ_mul, Nat.add_comm]

theorem blockAt_zero (bs : Nat) (buf : List Byte) : blockAt bs buf 0 = buf.take bs := by
  simp [blockAt]

theorem cbcCipherBlock_succ (block : Block) (iv buf : List Byte) (i : Nat) :
    cbcCipherBlock block iv buf (i + 1) =
      cbcCipherBlock block (block.encrypt (xorBytes (buf.take block.blockSize) iv))
        (buf.drop block.blockSize) i := by
  induction i with
  | zero =>
    simp only [cbcCipherBlock, blockAt_succ, blockAt_zero]
  | succ i ih =>
    rw [cbcCipherBlock, ih, blockAt_succ]
    rfl

/-- The loop of the encrypter computes CBC encryption. -/
theorem encryptBlocks_eq_spec (block : Block) (n : Nat) (iv buf : List Byte) :
    encryptBlocks block n iv buf = concatBlocks (cbcCipherBlock block iv buf) n := by
  induction n generalizing iv buf with
  | zero => rfl
  | succ n ih =>
    rw [concatBlocks_succ_left, encryptBlocks, ih]
    simp only [cbcCipherBlock_succ]
    simp only [cbcCipherBlock, blockAt_zero]

theorem cbcPlainBlock_succ (block : Block) (iv buf : List Byte) (i : Nat) :
    cbcPlainBlock block iv buf (i + 1) =
      cbcPlainBlock block (buf.take block.blockSize) (buf.drop block.blockSize) i := by
  cases i with
  | zero => simp [cbcPlainBlock, blockAt_succ, blockAt_zero]
  | succ i =>
    simp only [cbcPlainBlock, blockAt_succ, Nat.add_sub_cancel]
    simp

/-- The loop of the decrypter computes CBC decryption. -/
theorem decryptBlocks_eq_spec (block : Block) (n : Nat) (iv buf : List Byte) :
    decryptBlocks block n iv buf = concatBlocks (cbcPlainBlock block iv buf) n := by
  induction n generalizing iv buf with
  | zero => rfl
  | succ n ih =>
    rw [concatBlocks_succ_left, decryptBlocks, ih]
    simp only [cbcPlainBlock_succ]
    have h0 : cbcPlainBlock block iv buf 0 =
        xorBytes (block.decrypt (buf.take block.blockSize)) iv := by
      simp [cbcPlainBlock, blockAt_zero]
    rw [h0]

theorem full_blocks (bs len : Nat) (hpos : 0 < len) (hmul : len % bs = 0) :
    0 < bs ∧ 0 < len / bs ∧ len = len / bs * bs := by
  have hbs : 0 < bs := by
    rcases Nat.eq_zero_or_pos bs with h | h
    · rw [h, Nat.mod_zero] at hmul
      omega
    · exact h
  have h2 : bs * (len / bs) + len % bs = len := Nat.div_add_mod len bs
  rw [hmul, Nat.add_zero, Nat.mul_comm] at h2
  refine ⟨hbs, ?_, h2.symm⟩
  rcases Nat.eq_zero_or_pos (len / bs) with h | h
  · rw [h, Nat.zero_mul] at h2
    omega
  · exact h

/-- The outcome of `cbcDecrypt` on a ciphertext of full blocks, in terms of the
CBC decryption `D` of the ciphertext and its last byte. -/
theorem cbcDecrypt_spec (block : Block) (iv ciphertext : List Byte)
    (hiv : iv.length = block.blockSize) (hpos : 0 < ciphertext.length)
    (hmul : ciphertext.length % block.blockSize = 0) :
    cbcDecrypt block iv ciphertext =
      if lastByte (cbcDecryption block iv ciphertext) = 0 ∨
          lastByte (cbcDecryption block iv ciphertext) > block.blockSize ∨
          lastByte (cbcDecryption block iv ciphertext) >
            (cbcDecryption block iv ciphertext).length ∨
          ¬ ∀ x ∈ (cbcDecryption block iv ciphertext).drop
              ((cbcDecryption block iv ciphertext).length -
                lastByte (cbcDecryption block iv ciphertext)),
            x.val = lastByte (cbcDecryption block iv ciphertext) then
        Except.ok (none, some errDecryptionFailed)
      else
        Except.ok (some ((cbcDecryption block iv ciphertext).take
          ((cbcDecryption block iv ciphertext).length -
            lastByte (cbcDecryption block iv ciphertext))), none) := by
  obtain ⟨hbs, hn, hct⟩ := full_blocks block.blockSize ciphertext.length hpos hmul
  rw [cbcDecrypt_full_blocks block iv ciphertext _ hn hbs hiv hct]
  simp only [cbcDecryption, lastByte, decryptBlocks_eq_spec]

theorem cbcDecryption_length (block : Block) (iv ciphertext : List Byte)
    (hiv : iv.length = block.blockSize) (hpos : 0 < ciphertext.length)
    (hmul : ciphertext.length % block.blockSize = 0) :
    (cbcDecryption block iv ciphertext).length = ciphertext.length := by
  obtain ⟨_, _, hct⟩ := full_blocks block.blockSize ciphertext.length hpos hmul
  rw [cbcDecryption, ← decryptBlocks_eq_spec,
    decryptBlocks_length block _ iv ciphertext hiv hct, ← hct]

/-- C2. For a ciphertext whose length is a positive multiple of the block size
(and an IV of block-size length), with `D` the CBC decryption of the ciphertext
and `p` the value of the last byte of `D`: `cbcDecrypt` returns the
decryption-failed error if and only if `p = 0`, or `p > blockSize`, or
`p > len(D)`, or the last `p` bytes of `D` are not all equal to `p`; in
particular a final decrypted byte that is 0 or exceeds the block size is
always rejected. -/
theorem cbcDecrypt_fails_iff (block : Block) (iv ciphertext : List Byte)
    (hiv : iv.length = block.blockSize) (hpos : 0 < ciphertext.length)
    (hmul : ciphertext.length % block.blockSize = 0) :
    (cbcDecrypt block iv ciphertext = Except.ok (none, some errDecryptionFailed) ↔
      (lastByte (cbcDecryption block iv ciphertext) = 0 ∨
        lastByte (cbcDecryption block iv ciphertext) > block.blockSize ∨
        lastByte (cbcDecryption block iv ciphertext) >
          (cbcDecryption block iv ciphertext).length ∨
        ¬ ∀ x ∈ (cbcDecryption block iv ciphertext).drop
            ((cbcDecryption block iv ciphertext).length -
              lastByte (cbcDecryption block iv ciphertext)),
          x.val = lastByte (cbcDecryption block iv ciphertext))) ∧
    (lastByte (cbcDecryption block iv ciphertext) = 0 ∨
        lastByte (cbcDecryption block iv ciphertext) > block.blockSize →
      cbcDecrypt block iv ciphertext = Except.ok (none, some errDecryptionFailed)) := by
  have hspec := cbcDecrypt_spec block iv ciphertext hiv hpos hmul
  constructor
  · constructor
    · intro hfail
      by_contra hgood
      rw [hspec, if_neg hgood] at hfail
      have h2 := congrArg Prod.fst (Except.ok.inj hfail)
      simp at h2
    · intro hbad
      rw [hspec, if_pos hbad]
  · intro h
    rw [hspec, if_pos]
    rcases h with h | h
    · exact Or.inl h
    · exact Or.inr (Or.inl h)

/-- C2 at a concrete input: one block of 8 bytes whose decryption ends in 0 is
rejected. -/
theorem cbcDecrypt_fails_iff_witness :
    cbcDecrypt (xorBlock 8 90) [1, 2, 3, 4, 5, 6, 7, 8] [0, 0, 0, 0, 0, 0, 0, 82] =
      Except.ok (none, some errDecryptionFailed) :=
  (cbcDecrypt_fails_iff (xorBlock 8 90) [1, 2, 3, 4, 5, 6, 7, 8] [0, 0, 0, 0, 0, 0, 0, 82]
    rfl (by decide) (by decide)).2 (Or.inl (by decide))

/-- C4. For a block cipher with block size `bs` between 1 and 255, an IV of
block-size length and any plaintext, `cbcEncrypt` returns the CBC encryption
under the IV of the plaintext followed by `p` bytes each of value `p`, where
`p = bs - (len(plaintext) mod bs)`; `p` lies in `[1, bs]` and `p = bs` exactly
when `len(plaintext)` is a multiple of `bs`. -/
theorem cbcEncrypt_pads_and_encrypts (block : Block) (iv plaintext : List Byte)
    (hbs1 : 1 ≤ block.blockSize) (hbs2 : block.blockSize ≤ 255)
    (hiv : iv.length = block.blockSize) :
    (∃ pad : List Byte,
      pad.length = block.blockSize - plaintext.length % block.blockSize ∧
      (∀ x ∈ pad, x.val = block.blockSize - plaintext.length % block.blockSize) ∧
      cbcEncrypt block iv plaintext =
        Except.ok (some (cbcEncryption block iv (plaintext ++ pad)), none)) ∧
    1 ≤ block.blockSize - plaintext.length % block.blockSize ∧
    block.blockSize - plaintext.length % block.blockSize ≤ block.blockSize ∧
    (block.blockSize - plaintext.length % block.blockSize = block.blockSize ↔
      plaintext.length % block.blockSize = 0) := by
  have hbs : 0 < block.blockSize := hbs1
  have hmod : plaintext.length % block.blockSize < block.blockSize := Nat.mod_lt _ hbs
  refine ⟨⟨List.replicate (block.blockSize - plaintext.length % block.blockSize)
    (byte (block.blockSize - plaintext.length % block.blockSize)), ?_, ?_, ?_⟩,
    by omega, by omega, by omega⟩
  · exact List.length_replicate _ _
  · intro x hx
    rw [List.eq_of_mem_replicate hx]
    exact byte_val _ (by omega)
  · rw [cbcEncrypt_eq block iv plaintext hbs hiv, cbcEncryption, List.length_append,
      List.length_replicate, padded_length _ _ hbs, Nat.mul_div_cancel _ hbs,
      encryptBlocks_eq_spec]

/-- C4 at a concrete input: block size 8, a 3-byte plaintext, so `p = 5`. -/
theorem cbcEncrypt_pads_and_encrypts_witness :
    ∃ pad : List Byte, pad.length = 5 ∧ (∀ x ∈ pad, x.val = 5) ∧
      cbcEncrypt (xorBlock 8 90) [1, 2, 3, 4, 5, 6, 7, 8] [65, 66, 67] =
        Except.ok (some (cbcEncryption (xorBlock 8 90) [1, 2, 3, 4, 5, 6, 7, 8]
          ([65, 66, 67] ++ pad)), none) :=
  (cbcEncrypt_pads_and_encrypts (xorBlock 8 90) [1, 2, 3, 4, 5, 6, 7, 8] [65, 66, 67]
    (by decide) (by decide) rfl).1

/-- C5. `Encrypt` has no error path for well-formed inputs: for a suite whose
constructor accepts the key and yields a block of positive block size, an IV of
block-size length and any plaintext, `cipherWithBlock.Encrypt` returns a
ciphertext and no error; the ciphertext has `(len(plaintext) div bs + 1) * bs`
bytes, a positive multiple of the block size, more than `len(plaintext)` and at
most `len(plaintext) + bs`. -/
theorem Encrypt_no_error (c : cipherWithBlock) (block : Block) (key iv plaintext : List Byte)
    (hkey : c.newBlock key = Except.ok (Except.ok block))
    (hbs : 0 < block.blockSize) (hiv : iv.length = block.blockSize) :
    ∃ ct : List Byte,
      c.Encrypt key iv plaintext = Except.ok (some ct, none) ∧
      ct.length = (plaintext.length / block.blockSize + 1) * block.blockSize ∧
      0 < ct.length ∧ ct.length % block.blockSize = 0 ∧
      plaintext.length < ct.length ∧ ct.length ≤ plaintext.length + block.blockSize := by
  have hmod : plaintext.length % block.blockSize < block.blockSize := Nat.mod_lt _ hbs
  have hpl := padded_length block.blockSize plaintext.length hbs
  have hpad : (plaintext ++ List.replicate (block.blockSize - plaintext.length % block.blockSize)
      (byte (block.blockSize - plaintext.length % block.blockSize))).length =
      (plaintext.length / block.blockSize + 1) * block.blockSize := by
    rw [List.length_append, List.length_replicate]
    exact hpl
  have hctlen := encryptBlocks_length block _ iv _ hiv hpad
  refine ⟨_, ?_, hctlen, ?_, ?_, ?_, ?_⟩
  · simp only [cipherWithBlock.Encrypt, hkey, cbcEncrypt_eq block iv plaintext hbs hiv]
  · rw [hctlen, ← hpl]; omega
  · rw [hctlen]; exact Nat.mul_mod_left _ _
  · rw [hctlen, ← hpl]; omega
  · rw [hctlen, ← hpl]; omega

/-- C5 at a concrete input: an 8-byte plaintext gives 16 bytes of ciphertext. -/
theorem Encrypt_no_error_witness :
    ∃ ct : List Byte,
      (xorSuite 8 5).Encrypt [90, 1, 2, 3, 4] [1, 2, 3, 4, 5, 6, 7, 8]
        [65, 66, 67, 68, 69, 70, 71, 72] = Except.ok (some ct, none) ∧
      ct.length = 16 :=
  (Encrypt_no_error (xorSuite 8 5) (xorBlock 8 90) [90, 1, 2, 3, 4] [1, 2, 3, 4, 5, 6, 7, 8]
    [65, 66, 67, 68, 69, 70, 71, 72] rfl (by decide) rfl).imp (fun _ h => ⟨h.1, h.2.1⟩)

/-- When `cbcDecrypt` returns at all, the IV has block-size length and the
ciphertext length is a positive multiple of the block size. -/
theorem cbcDecrypt_returns (block : Block) (iv ciphertext : List Byte) (r : BytesErr)
    (h : cbcDecrypt block iv ciphertext = Except.ok r) :
    iv.length = block.blockSize ∧ 0 < ciphertext.length ∧
      ciphertext.length % block.blockSize = 0 := by
  by_cases hiv : iv.length = block.blockSize
  · by_cases hbs : block.blockSize = 0
    · simp [cbcDecrypt, newCBC, hiv, decrypterCryptBlocks, hbs] at h
    · by_cases hmul : ciphertext.length % block.blockSize = 0
      · refine ⟨hiv, ?_, hmul⟩
        rcases Nat.eq_zero_or_pos ciphertext.length with h0 | h0
        · simp [cbcDecrypt, newCBC, hiv, decrypterCryptBlocks, hbs, h0, decryptBlocks] at h
        · exact h0
      · simp [cbcDecrypt, newCBC, hiv, decrypterCryptBlocks, hbs, hmul] at h
  · simp [cbcDecrypt, newCBC, hiv] at h

/-- C6. Whenever `cbcDecrypt` succeeds, its result is the CBC decryption `D` of
the ciphertext without its trailing `p` bytes, `p` being the last byte of `D`:
the prefix of `D` of length `len(ciphertext) - p`, with `1 ≤ p ≤ blockSize`, so
the plaintext is `p` bytes shorter than the ciphertext. -/
theorem cbcDecrypt_strips_padding (block : Block) (iv ciphertext : List Byte)
    (res : Option (List Byte))
    (h : cbcDecrypt block iv ciphertext = Except.ok (res, none)) :
    res = some ((cbcDecryption block iv ciphertext).take
      (ciphertext.length - lastByte (cbcDecryption block iv ciphertext))) ∧
    1 ≤ lastByte (cbcDecryption block iv ciphertext) ∧
    lastByte (cbcDecryption block iv ciphertext) ≤ block.blockSize ∧
    (bytesOf res).length + lastByte (cbcDecryption block iv ciphertext) =
      ciphertext.length := by
  obtain ⟨hiv, hpos, hmul⟩ := cbcDecrypt_returns block iv ciphertext _ h
  have hspec := cbcDecrypt_spec block iv ciphertext hiv hpos hmul
  have hlen := cbcDecryption_length block iv ciphertext hiv hpos hmul
  rw [hspec] at h
  by_cases hbad : lastByte (cbcDecryption block iv ciphertext) = 0 ∨
      lastByte (cbcDecryption block iv ciphertext) > block.blockSize ∨
      lastByte (cbcDecryption block iv ciphertext) >
        (cbcDecryption block iv ciphertext).length ∨
      ¬ ∀ x ∈ (cbcDecryption block iv ciphertext).drop
          ((cbcDecryption block iv ciphertext).length -
            lastByte (cbcDecryption block iv ciphertext)),
        x.val = lastByte (cbcDecryption block iv ciphertext)
  · rw [if_pos hbad] at h
    have h2 := congrArg Prod.snd (Except.ok.inj h)
    simp at h2
  · rw [if_neg hbad] at h
    have h2 := congrArg Prod.fst (Except.ok.inj h)
    simp only at h2
    rw [hlen] at h2 hbad
    have hres : (bytesOf res).length =
        ciphertext.length - lastByte (cbcDecryption block iv ciphertext) := by
      rw [← h2, bytesOf, List.length_take, hlen]
      omega
    refine ⟨h2.symm, ?_, ?_, ?_⟩ <;> omega

/-- C6 at a concrete input: the ciphertext of `ABC` under block size 8. -/
theorem cbcDecrypt_strips_padding_witness :
    some [65, 66, 67] = some ((cbcDecryption (xorBlock 8 90) [1, 2, 3, 4, 5, 6, 7, 8]
      [26, 26, 26, 91, 90, 89, 88, 87]).take
      ([26, 26, 26, 91, 90, 89, 88, 87].length -
        lastByte (cbcDecryption (xorBlock 8 90) [1, 2, 3, 4, 5, 6, 7, 8]
          [26, 26, 26, 91, 90, 89, 88, 87]))) :=
  (cbcDecrypt_strips_padding (xorBlock 8 90) [1, 2, 3, 4, 5, 6, 7, 8]
    [26, 26, 26, 91, 90, 89, 88, 87] (some [65, 66, 67]) (by decide)).1

/-- An error returned by `cbcDecrypt` is the decryption-failed error, with a nil
plaintext. -/
theorem cbcDecrypt_error_eq (block : Block) (iv ct : List Byte) (r : Option (List Byte))
    (e : String) (h : cbcDecrypt block iv ct = Except.ok (r, some e)) :
    r = none ∧ e = "pkcs8: decryption failed" := by
  obtain ⟨hiv, hpos, hmul⟩ := cbcDecrypt_returns block iv ct _ h
  rw [cbcDecrypt_spec block iv ct hiv hpos hmul] at h
  split at h
  · have h3 := Except.ok.inj h
    have ha := congrArg Prod.fst h3
    have hb := congrArg Prod.snd h3
    simp only [Option.some.injEq] at ha hb
    exact ⟨ha.symm, hb.symm⟩
  · have hb := congrArg Prod.snd (Except.ok.inj h)
    simp at hb

/-- C7. Decryption failure is undifferentiated: whenever `cbcDecrypt` returns an
error, on whatever input and whichever padding check failed, the error is the
one message `pkcs8: decryption failed` and the returned plaintext is nil. -/
theorem cbcDecrypt_failure_uniform (block1 block2 : Block) (iv1 ct1 iv2 ct2 : List Byte)
    (r1 r2 : Option (List Byte)) (e1 e2 : String)
    (h1 : cbcDecrypt block1 iv1 ct1 = Except.ok (r1, some e1))
    (h2 : cbcDecrypt block2 iv2 ct2 = Except.ok (r2, some e2)) :
    e1 = e2 ∧ e1 = "pkcs8: decryption failed" ∧ r1 = none ∧ r2 = none ∧
      cbcDecrypt block1 iv1 ct1 = cbcDecrypt block2 iv2 ct2 := by
  obtain ⟨ha1, hb1⟩ := cbcDecrypt_error_eq block1 iv1 ct1 r1 e1 h1
  obtain ⟨ha2, hb2⟩ := cbcDecrypt_error_eq block2 iv2 ct2 r2 e2 h2
  refine ⟨by rw [hb1, hb2], hb1, ha1, ha2, ?_⟩
  rw [h1, h2, ha1, ha2, hb1, hb2]

/-- C7 at concrete inputs: a final byte 0 under block size 8 and a broken pad
run under block size 4 fail alike. -/
theorem cbcDecrypt_failure_uniform_witness :
    cbcDecrypt (xorBlock 8 90) [1, 2, 3, 4, 5, 6, 7, 8] [0, 0, 0, 0, 0, 0, 0, 82] =
      cbcDecrypt (xorBlock 4 5) [1, 2, 3, 4] [13, 14, 15, 3] :=
  (cbcDecrypt_failure_uniform (xorBlock 8 90) (xorBlock 4 5) [1, 2, 3, 4, 5, 6, 7, 8]
    [0, 0, 0, 0, 0, 0, 0, 82] [1, 2, 3, 4] [13, 14, 15, 3] none none
    "pkcs8: decryption failed" "pkcs8: decryption failed" (by decide) (by decide)).2.2.2.2

/-! ## PBKDF1 and the MD5 scheme -/

theorem hashChain_shift (hash : List Byte → List Byte) (d0 : List Byte) (n : Nat) :
    hashChain hash (hash d0) n = hashChain hash d0 (n + 1) := by
  induction n with
  | zero => rfl
  | succ n ih =>
    show hash (hashChain hash (hash d0) n) = hash (hashChain hash d0 (n + 1))
    rw [ih]

/-- The loop of `PKCS5PBKDF1` computes the hash chain. -/
theorem hashLoop_eq_chain (hash : List Byte → List Byte) (n : Nat) (d0 : List Byte) :
    hashLoop hash n d0 = hashChain hash d0 n := by
  induction n generalizing d0 with
  | zero => rfl
  | succ n ih => rw [hashLoop, ih, hashChain_shift]

theorem hashLoop_length (hash : List Byte → List Byte) (u : Nat)
    (hu : ∀ x : List Byte, (hash x).length = u) (n : Nat) (hn : 1 ≤ n) (d0 : List Byte) :
    (hashLoop hash n d0).length = u := by
  obtain ⟨m, rfl⟩ : ∃ m, n = m + 1 := ⟨n - 1, by omega⟩
  rw [hashLoop_eq_chain, hashChain]
  exact hu _

theorem PKCS5PBKDF1_eq (hash : List Byte → List Byte) (salt password : List Byte)
    (r size : Int) (h0 : 0 ≤ size)
    (hsize : size ≤ ((hashLoop hash r.toNat (password ++ salt)).length : Int)) :
    PKCS5PBKDF1 hash salt password r size =
      Except.ok { arr := hashLoop hash r.toNat (password ++ salt), len := size.toNat } := by
  have hc : (0 : Int) ≤ 0 ∧ 0 ≤ size ∧
      size ≤ ((hashLoop hash r.toNat (password ++ salt)).length : Int) :=
    ⟨le_refl 0, h0, hsize⟩
  simp only [PKCS5PBKDF1, Slice.slice, if_pos hc]
  simp

/-- C9. For a hash with output length `u`, an iteration count `r ≥ 1` and a
size between 0 and `u`, `PKCS5PBKDF1(hash, salt, password, r, size)` returns
the first `size` bytes of `d_r`, where `d_0 = password || salt` (password
first) and `d_(i+1) = hash(d_i)`; the result has exactly `size` bytes. -/
theorem PKCS5PBKDF1_spec (hash : List Byte → List Byte) (u : Nat)
    (hu : ∀ x : List Byte, (hash x).length = u)
    (salt password : List Byte) (r size : Int)
    (hr : 1 ≤ r) (h0 : 0 ≤ size) (hsize : size ≤ (u : Int)) :
    ∃ key : Slice,
      PKCS5PBKDF1 hash salt password r size = Except.ok key ∧
      key.toList = (hashChain hash (password ++ salt) r.toNat).take size.toNat ∧
      (key.toList.length : Int) = size := by
  have hn : 1 ≤ r.toNat := by omega
  have hlen := hashLoop_length hash u hu r.toNat hn (password ++ salt)
  refine ⟨_, PKCS5PBKDF1_eq hash salt password r size h0 (by rw [hlen]; exact hsize), ?_, ?_⟩
  · rw [Slice.toList, hashLoop_eq_chain]
  · show ((List.take size.toNat (hashLoop hash r.toNat (password ++ salt))).length : Int) = size
    rw [List.length_take, hlen]
    omega

/-- C9 at a concrete input: two rounds of a 16-byte checksum, 8 bytes asked. -/
theorem PKCS5PBKDF1_spec_witness :
    ∃ key : Slice,
      PKCS5PBKDF1 sum16 [9, 9] [1, 2] 2 8 = Except.ok key ∧
      key.toList = (sum16 (sum16 [1, 2, 9, 9])).take 8 ∧
      (key.toList.length : Int) = 8 :=
  PKCS5PBKDF1_spec sum16 16 stubEnv.md5_size [9, 9] [1, 2] 2 8 (by decide) (by decide)
    (by decide)

/-- C10. For the MD5 scheme with an iteration count of at least 1, whatever the
`size` arguments, `DeriveKey` returns bytes `[0:8]` and `DeriveIV` bytes
`[8:16]` of one and the same 16-byte value
`PKCS5PBKDF1(MD5, salt, password, iterations, 16)`: key and IV put together are
that derivation. -/
theorem md5_key_iv_same_derivation (env : Env) (p : md5Pkcs5PbeParams) (password : List Byte)
    (size1 size2 : Int) (hiter : 1 ≤ p.Iterations) :
    ∃ K : Slice,
      PKCS5PBKDF1 (Md5Sum env) p.Salt password p.Iterations 16 = Except.ok K ∧
      K.toList.length = 16 ∧
      p.DeriveKey env password size1 = Except.ok (some (K.toList.take 8), none) ∧
      p.DeriveIV env password size2 = Except.ok (some ((K.toList.drop 8).take 8), none) ∧
      K.toList.take 8 ++ (K.toList.drop 8).take 8 = K.toList := by
  have hn : 1 ≤ p.Iterations.toNat := by omega
  have hlen := hashLoop_length (Md5Sum env) 16 env.md5_size p.Iterations.toNat hn
    (password ++ p.Salt)
  have hK := PKCS5PBKDF1_eq (Md5Sum env) p.Salt password p.Iterations 16 (by decide)
    (by rw [hlen]; decide)
  generalize hashLoop (Md5Sum env) p.Iterations.toNat (password ++ p.Salt) = derived
    at hK hlen
  have h16 : (16 : Int).toNat = 16 := rfl
  rw [h16] at hK
  have ht : derived.take 16 = derived := List.take_of_length_le (by omega)
  have hKlen : (Slice.toList { arr := derived, len := 16 }).length = 16 := by
    rw [Slice.toList, ht, hlen]
  refine ⟨_, hK, hKlen, ?_, ?_, ?_⟩
  · simp only [md5Pkcs5PbeParams.DeriveKey, md5Pkcs5PbeParams.pbkdf, hK, Slice.slice, hlen]
    simp [Slice.toList, ht]
  · simp only [md5Pkcs5PbeParams.DeriveIV, md5Pkcs5PbeParams.pbkdf, hK, Slice.slice, hlen]
    simp [Slice.toList, ht]
  · simp only [Slice.toList, ht]
    rw [← List.take_add]
    exact List.take_of_length_le (by omega)

/-- C10 at a concrete input: salt `09 09`, password `01 02`, 2 iterations, with
differing `size` arguments. -/
theorem md5_key_iv_same_derivation_witness :
    ∃ K : Slice,
      PKCS5PBKDF1 (Md5Sum stubEnv) [9, 9] [1, 2] 2 16 = Except.ok K ∧
      K.toList.length = 16 ∧
      md5Pkcs5PbeParams.DeriveKey stubEnv { Salt := [9, 9], Iterations := 2 } [1, 2] 8 =
        Except.ok (some (K.toList.take 8), none) ∧
      md5Pkcs5PbeParams.DeriveIV stubEnv { Salt := [9, 9], Iterations := 2 } [1, 2] 3 =
        Except.ok (some ((K.toList.drop 8).take 8), none) ∧
      K.toList.take 8 ++ (K.toList.drop 8).take 8 = K.toList :=
  md5_key_iv_same_derivation stubEnv { Salt := [9, 9], Iterations := 2 } [1, 2] 8 3
    (by decide)

/-! ## The OID dispatch of `decryptPBE` -/

theorem selectScheme_none (env : Env) (alg : List Int)
    (h1 : alg ≠ oidPBEWithSHAAnd3KeyTripleDESCBC) (h2 : alg ≠ oidPBEWithSHAAnd40BitRC2CBC)
    (h3 : alg ≠ oidPBEWithMD5AndDESCBC) : selectScheme env alg = none := by
  simp only [selectScheme, if_neg h1, if_neg h2, if_neg h3]

theorem DeriveKey_no_error (env : Env) (params : pbeKDFParameters) (password : List Byte)
    (size : Int) (x : Option (List Byte)) (e : String) :
    params.DeriveKey env password size ≠ Except.ok (x, some e) := by
  intro h
  cases params with
  | sha1 p =>
    simp only [pbeKDFParameters.DeriveKey, sha1PbeParams.DeriveKey, sha1PbeParams.pbkdf] at h
    split at h <;> simp at h
  | md5 p =>
    simp only [pbeKDFParameters.DeriveKey, md5Pkcs5PbeParams.DeriveKey,
      md5Pkcs5PbeParams.pbkdf] at h
    split at h
    · simp at h
    · split at h <;> simp at h

theorem DeriveIV_no_error (env : Env) (params : pbeKDFParameters) (password : List Byte)
    (size : Int) (x : Option (List Byte)) (e : String) :
    params.DeriveIV env password size ≠ Except.ok (x, some e) := by
  intro h
  cases params with
  | sha1 p =>
    simp only [pbeKDFParameters.DeriveIV, sha1PbeParams.DeriveIV, sha1PbeParams.pbkdf] at h
    split at h <;> simp at h
  | md5 p =>
    simp only [pbeKDFParameters.DeriveIV, md5Pkcs5PbeParams.DeriveIV,
      md5Pkcs5PbeParams.pbkdf] at h
    split at h
    · simp at h
    · split at h <;> simp at h

/-- An error returned by `Decrypt` comes from the constructor or is the
decryption-failed error. -/
theorem Decrypt_error_origin (c : cipherWithBlock) (key iv ct : List Byte)
    (r : Option (List Byte)) (e : String)
    (h : c.Decrypt key iv ct = Except.ok (r, some e)) :
    c.newBlock key = Except.ok (Except.error e) ∨ e = "pkcs8: decryption failed" := by
  simp only [cipherWithBlock.Decrypt] at h
  split at h
  · simp at h
  · rename_i err hnb
    have h2 := congrArg Prod.snd (Except.ok.inj h)
    simp only [Option.some.injEq] at h2
    left
    rw [hnb, h2]
  · right
    exact (cbcDecrypt_error_eq _ _ _ _ _ h).2

/-- An error returned by the tail of `decryptPBE` comes from `unmarshal`, from
the block constructor, or is the decryption-failed error. -/
theorem unmarshalAndDecrypt_error_origin (env : Env) (params : pbeKDFParameters)
    (c : cipherWithBlock) (privKey : encryptedPrivateKeyInfo) (password : List Byte)
    (r : Option (List Byte)) (k : Option pbeKDFParameters) (e : String)
    (h : unmarshalAndDecrypt env params c privKey password = Except.ok (r, k, some e)) :
    env.unmarshal privKey.EncryptionAlgorithm.Parameters.FullBytes =
        Except.ok (Except.error e) ∨
      (∃ key : List Byte, c.newBlock key = Except.ok (Except.error e)) ∨
      e = "pkcs8: decryption failed" := by
  simp only [unmarshalAndDecrypt] at h
  split at h
  · simp at h
  · rename_i err hun
    have h2 := congrArg (fun t => t.2.2) (Except.ok.inj h)
    simp only [Option.some.injEq] at h2
    left
    rw [hun, h2]
  · rename_i decoded hun
    right
    simp only [deriveAndDecrypt] at h
    split at h
    · simp at h
    · rename_i x err hk
      exact absurd hk (DeriveKey_no_error _ _ _ _ _ _)
    · split at h
      · simp at h
      · rename_i x err hk
        exact absurd hk (DeriveIV_no_error _ _ _ _ _ _)
      · split at h
        · simp at h
        · rename_i x err hd
          have h2 := congrArg (fun t => t.2.2) (Except.ok.inj h)
          simp only [Option.some.injEq] at h2
          rw [h2] at hd
          rcases Decrypt_error_origin _ _ _ _ _ _ hd with h3 | h3
          · exact Or.inl ⟨_, h3⟩
          · exact Or.inr h3
        · have h2 := congrArg (fun t => t.2.2) (Except.ok.inj h)
          simp at h2

/-- C8. For every algorithm OID other than the three supported ones, whatever
the parameter bytes, the ciphertext, the password and the behaviour of every
collaborator (password encoder, parameter decoder, KDFs, block ciphers),
`decryptPBE` returns the error `pkcs8: unsupported algorithm: ` followed by the
dotted OID, with nil plaintext and nil parameters. Conversely, under a supported
OID every error `decryptPBE` returns is one handed back by the password
encoder, by the parameter decoder or by the block-cipher constructor, or is the
decryption-failed error: the unsupported-algorithm error is made only for
unsupported OIDs. -/
theorem decryptPBE_unsupported (env : Env) (privKey : encryptedPrivateKeyInfo)
    (password : List Byte) :
    (privKey.EncryptionAlgorithm.Algorithm ≠ [1, 2, 840, 113549, 1, 12, 1, 3] ∧
      privKey.EncryptionAlgorithm.Algorithm ≠ [1, 2, 840, 113549, 1, 12, 1, 6] ∧
      privKey.EncryptionAlgorithm.Algorithm ≠ [1, 2, 840, 113549, 1, 5, 3] →
      decryptPBE env privKey password =
        Except.ok (none, none, some ("pkcs8: unsupported algorithm: " ++
          oidString privKey.EncryptionAlgorithm.Algorithm))) ∧
    (privKey.EncryptionAlgorithm.Algorithm = [1, 2, 840, 113549, 1, 12, 1, 3] ∨
      privKey.EncryptionAlgorithm.Algorithm = [1, 2, 840, 113549, 1, 12, 1, 6] ∨
      privKey.EncryptionAlgorithm.Algorithm = [1, 2, 840, 113549, 1, 5, 3] →
      ∀ (r : Option (List Byte)) (k : Option pbeKDFParameters) (e : String),
        decryptPBE env privKey password = Except.ok (r, k, some e) →
        (∃ b : Option (List Byte),
          env.bmpStringZeroTerminated password = Except.ok (b, some e)) ∨
        env.unmarshal privKey.EncryptionAlgorithm.Parameters.FullBytes =
          Except.ok (Except.error e) ∨
        (∃ key : List Byte,
          env.desNewTripleDESCipher key = Except.ok (Except.error e) ∨
          env.rc2New key ((key.length : Int) * 8) = Except.ok (Except.error e) ∨
          env.desNewCipher key = Except.ok (Except.error e)) ∨
        e = "pkcs8: decryption failed") := by
  constructor
  · rintro ⟨h1, h2, h3⟩
    simp only [decryptPBE, selectScheme_none env _ h1 h2 h3]
    rfl
  · intro hsup r k e h
    have tail : ∀ (params : pbeKDFParameters) (c : cipherWithBlock) (pw : List Byte),
        (∀ key : List Byte, c.newBlock key = Except.ok (Except.error e) →
          env.desNewTripleDESCipher key = Except.ok (Except.error e) ∨
          env.rc2New key ((key.length : Int) * 8) = Except.ok (Except.error e) ∨
          env.desNewCipher key = Except.ok (Except.error e)) →
        unmarshalAndDecrypt env params c privKey pw = Except.ok (r, k, some e) →
        env.unmarshal privKey.EncryptionAlgorithm.Parameters.FullBytes =
          Except.ok (Except.error e) ∨
        (∃ key : List Byte,
          env.desNewTripleDESCipher key = Except.ok (Except.error e) ∨
          env.rc2New key ((key.length : Int) * 8) = Except.ok (Except.error e) ∨
          env.desNewCipher key = Except.ok (Except.error e)) ∨
        e = "pkcs8: decryption failed" := by
      intro params c pw hc hu
      rcases unmarshalAndDecrypt_error_origin env params c privKey pw r k e hu with
        h1 | ⟨key, h2⟩ | h3
      · exact Or.inl h1
      · exact Or.inr (Or.inl ⟨key, hc key h2⟩)
      · exact Or.inr (Or.inr h3)
    have bmp : ∀ (params : pbeKDFParameters) (c : cipherWithBlock),
        (∀ key : List Byte, c.newBlock key = Except.ok (Except.error e) →
          env.desNewTripleDESCipher key = Except.ok (Except.error e) ∨
          env.rc2New key ((key.length : Int) * 8) = Except.ok (Except.error e) ∨
          env.desNewCipher key = Except.ok (Except.error e)) →
        (match env.bmpStringZeroTerminated password with
          | Except.error p => Except.error p
          | Except.ok (_, some err) => Except.ok (none, none, some err)
          | Except.ok (encoded, none) =>
            unmarshalAndDecrypt env params c privKey (bytesOf encoded)) =
          Except.ok (r, k, some e) →
        (∃ b : Option (List Byte),
          env.bmpStringZeroTerminated password = Except.ok (b, some e)) ∨
        env.unmarshal privKey.EncryptionAlgorithm.Parameters.FullBytes =
          Except.ok (Except.error e) ∨
        (∃ key : List Byte,
          env.desNewTripleDESCipher key = Except.ok (Except.error e) ∨
          env.rc2New key ((key.length : Int) * 8) = Except.ok (Except.error e) ∨
          env.desNewCipher key = Except.ok (Except.error e)) ∨
        e = "pkcs8: decryption failed" := by
      intro params c hc hb
      split at hb
      · simp at hb
      · rename_i b err hbmp
        have h2 := congrArg (fun t => t.2.2) (Except.ok.inj hb)
        simp only [Option.some.injEq] at h2
        exact Or.inl ⟨b, by rw [hbmp, h2]⟩
      · exact Or.inr (tail _ _ _ hc hb)
    rcases hsup with h1 | h1 | h1
    · simp only [decryptPBE, selectScheme, h1, oidPBEWithSHAAnd3KeyTripleDESCBC, if_true] at h
      exact bmp _ _ (fun key hk => Or.inl hk) h
    · simp only [decryptPBE, selectScheme, h1, oidPBEWithSHAAnd3KeyTripleDESCBC,
        oidPBEWithSHAAnd40BitRC2CBC] at h
      exact bmp _ _ (fun key hk => Or.inr (Or.inl hk)) h
    · simp only [decryptPBE, selectScheme, h1, oidPBEWithSHAAnd3KeyTripleDESCBC,
        oidPBEWithSHAAnd40BitRC2CBC, oidPBEWithMD5AndDESCBC] at h
      exact Or.inr (tail _ _ _ (fun key hk => Or.inr (Or.inr hk)) h)

/-- C8 at the OID `1.2.3` of the package test, with nil ciphertext. -/
theorem decryptPBE_unsupported_witness :
    decryptPBE stubEnv
        { EncryptionAlgorithm := { Algorithm := [1, 2, 3],
                                   Parameters := { FullBytes := [2, 1, 2, 3] } },
          EncryptedData := [] }
        [0, 83, 0, 101, 0, 0] =
      Except.ok (none, none, some "pkcs8: unsupported algorithm: 1.2.3") :=
  (decryptPBE_unsupported stubEnv
    { EncryptionAlgorithm := { Algorithm := [1, 2, 3],
                               Parameters := { FullBytes := [2, 1, 2, 3] } },
      EncryptedData := [] }
    [0, 83, 0, 101, 0, 0]).1 (by decide)

/-! ## Ciphertexts that are empty or not made of full blocks -/

/-- Key and IV of the MD5 scheme, for an iteration count of at least 1. -/
theorem md5_derive (env : Env) (p : md5Pkcs5PbeParams) (password : List Byte) (size : Int)
    (hiter : 1 ≤ p.Iterations) :
    ∃ key iv : List Byte, key.length = 8 ∧ iv.length = 8 ∧
      p.DeriveKey env password size = Except.ok (some key, none) ∧
      p.DeriveIV env password size = Except.ok (some iv, none) := by
  have hn : 1 ≤ p.Iterations.toNat := by omega
  have hlen := hashLoop_length (Md5Sum env) 16 env.md5_size p.Iterations.toNat hn
    (password ++ p.Salt)
  have hK := PKCS5PBKDF1_eq (Md5Sum env) p.Salt password p.Iterations 16 (by decide)
    (by rw [hlen]; decide)
  generalize hashLoop (Md5Sum env) p.Iterations.toNat (password ++ p.Salt) = derived
    at hK hlen
  refine ⟨derived.take 8, (derived.drop 8).take 8, ?_, ?_, ?_, ?_⟩
  · rw [List.length_take, hlen]; rfl
  · rw [List.length_take, List.length_drop, hlen]; rfl
  · simp only [md5Pkcs5PbeParams.DeriveKey, md5Pkcs5PbeParams.pbkdf, hK, Slice.slice, hlen]
    simp [Slice.toList]
  · simp only [md5Pkcs5PbeParams.DeriveIV, md5Pkcs5PbeParams.pbkdf, hK, Slice.slice, hlen]
    simp [Slice.toList]

theorem cbcDecrypt_empty (block : Block) (iv : List Byte) (hbs : 0 < block.blockSize)
    (hiv : iv.length = block.blockSize) :
    cbcDecrypt block iv [] = Except.error Panic.indexOutOfRange := by
  have hne : block.blockSize ≠ 0 := Nat.pos_iff_ne_zero.mp hbs
  simp [cbcDecrypt, newCBC, hiv, decrypterCryptBlocks, hne, decryptBlocks]

theorem cbcDecrypt_partial_block (block : Block) (iv ct : List Byte)
    (hbs : 0 < block.blockSize) (hiv : iv.length = block.blockSize)
    (hct : ct.length % block.blockSize ≠ 0) :
    cbcDecrypt block iv ct = Except.error Panic.notFullBlocks := by
  have hne : block.blockSize ≠ 0 := Nat.pos_iff_ne_zero.mp hbs
  simp [cbcDecrypt, newCBC, hiv, decrypterCryptBlocks, hne, hct]

/-- C3, what the code does. With a block of positive block size and an IV of
block-size length, `cbcDecrypt` and `cipherWithBlock.Decrypt` panic on the empty
ciphertext (index out of range at `plaintext[len(plaintext)-1]`) and on a
ciphertext that is not made of full blocks (`CryptBlocks`: input not full
blocks); so does `decryptPBE` under the MD5-and-DES OID with well-formed
parameters. No error value is returned. -/
theorem decrypt_bad_length_panics (env : Env) (privKey : encryptedPrivateKeyInfo)
    (password salt : List Byte) (iter : Int) (c : cipherWithBlock) (block : Block)
    (key iv ct : List Byte)
    (hkey : c.newBlock key = Except.ok (Except.ok block))
    (hbs : 0 < block.blockSize) (hiv : iv.length = block.blockSize)
    (hct : ct = [] ∨ ct.length % block.blockSize ≠ 0)
    (halg : privKey.EncryptionAlgorithm.Algorithm = [1, 2, 840, 113549, 1, 5, 3])
    (hun : env.unmarshal privKey.EncryptionAlgorithm.Parameters.FullBytes =
      Except.ok (Except.ok (salt, iter)))
    (hiter : 1 ≤ iter)
    (hdes : ∀ k : List Byte, k.length = 8 →
      ∃ b : Block, env.desNewCipher k = Except.ok (Except.ok b) ∧ b.blockSize = 8)
    (hdata : privKey.EncryptedData = [] ∨ privKey.EncryptedData.length % 8 ≠ 0) :
    (∃ p : Panic, cbcDecrypt block iv ct = Except.error p ∧
      c.Decrypt key iv ct = Except.error p) ∧
    (∃ p : Panic, decryptPBE env privKey password = Except.error p) ∧
    cbcDecrypt block iv [] = Except.error Panic.indexOutOfRange ∧
    (privKey.EncryptedData = [] →
      decryptPBE env privKey password = Except.error Panic.indexOutOfRange) := by
  have hcbc : ∀ (b : Block) (v d : List Byte), 0 < b.blockSize → v.length = b.blockSize →
      (d = [] ∨ d.length % b.blockSize ≠ 0) →
      ∃ p : Panic, cbcDecrypt b v d = Except.error p ∧
        (d = [] → p = Panic.indexOutOfRange) := by
    intro b v d h1 h2 h3
    by_cases hd : d = []
    · exact ⟨_, by rw [hd]; exact cbcDecrypt_empty b v h1 h2, fun _ => rfl⟩
    · rcases h3 with h3 | h3
      · exact absurd h3 hd
      · exact ⟨_, cbcDecrypt_partial_block b v d h1 h2 h3, fun h => absurd h hd⟩
  obtain ⟨k8, iv8, hk8, hiv8, hdk, hdi⟩ :=
    md5_derive env { Salt := salt, Iterations := iter } password 8 hiter
  obtain ⟨b, hb, hb8⟩ := hdes k8 hk8
  have hdata2 : privKey.EncryptedData = [] ∨ privKey.EncryptedData.length % b.blockSize ≠ 0 := by
    rw [hb8]; exact hdata
  obtain ⟨q, hq, hq0⟩ := hcbc b iv8 privKey.EncryptedData (by omega) (by omega) hdata2
  have hpbe : decryptPBE env privKey password = Except.error q := by
    have hsel : selectScheme env privKey.EncryptionAlgorithm.Algorithm =
        some (pbeKDFParameters.md5 { Salt := [], Iterations := 0 }, md5WithDESCBC env, true) := by
      rw [halg]; rfl
    have hnb : (md5WithDESCBC env).newBlock k8 = Except.ok (Except.ok b) := hb
    simp only [decryptPBE, hsel, if_true, unmarshalAndDecrypt, hun, pbeKDFParameters.fill,
      deriveAndDecrypt, pbeKDFParameters.DeriveKey, pbeKDFParameters.DeriveIV,
      cipherWithBlock.KeySize, cipherWithBlock.IVSize]
    have hdk2 : md5Pkcs5PbeParams.DeriveKey env { Salt := salt, Iterations := iter } password
        (md5WithDESCBC env).keySize = Except.ok (some k8, none) := hdk
    have hdi2 : md5Pkcs5PbeParams.DeriveIV env { Salt := salt, Iterations := iter } password
        (md5WithDESCBC env).ivSize = Except.ok (some iv8, none) := hdi
    simp only [hdk2, hdi2, bytesOf, cipherWithBlock.Decrypt, hnb, hq]
  refine ⟨?_, ⟨q, hpbe⟩, cbcDecrypt_empty block iv hbs hiv, ?_⟩
  · obtain ⟨p, hp, _⟩ := hcbc block iv ct hbs hiv hct
    exact ⟨p, hp, by simp only [cipherWithBlock.Decrypt, hkey, hp]⟩
  · intro h0
    rw [hpbe, hq0 h0]

/-- C3 at concrete inputs: the empty ciphertext, for the codec under block size
8 and for `decryptPBE` under the MD5-and-DES OID with salt `01 01` and 2
iterations. -/
theorem decrypt_bad_length_panics_witness :
    cbcDecrypt (xorBlock 8 90) [1, 2, 3, 4, 5, 6, 7, 8] [] =
      Except.error Panic.indexOutOfRange ∧
    decryptPBE stubEnv
        { EncryptionAlgorithm := { Algorithm := [1, 2, 840, 113549, 1, 5, 3],
                                   Parameters := { FullBytes := [2, 1, 1] } },
          EncryptedData := [] }
        [112, 119] = Except.error Panic.indexOutOfRange :=
  have h := decrypt_bad_length_panics stubEnv
    { EncryptionAlgorithm := { Algorithm := [1, 2, 840, 113549, 1, 5, 3],
                               Parameters := { FullBytes := [2, 1, 1] } },
      EncryptedData := [] }
    [112, 119] [1, 1] 2 (xorSuite 8 5) (xorBlock 8 90) [90, 1, 2, 3, 4]
    [1, 2, 3, 4, 5, 6, 7, 8] [] rfl (by decide) rfl (Or.inl rfl) rfl rfl (by decide)
    (fun k hk => ⟨xorBlock 8 (k.headD 0), by simp [stubEnv, hk], rfl⟩) (Or.inl rfl)
  ⟨h.2.2.1, h.2.2.2 rfl⟩

/-- The same panics evaluated directly, including a ciphertext of 3 bytes under
block size 8. -/
theorem decrypt_bad_length_runs :
    cbcDecrypt (xorBlock 8 90) [1, 2, 3, 4, 5, 6, 7, 8] [] =
      Except.error Panic.indexOutOfRange ∧
    cbcDecrypt (xorBlock 8 90) [1, 2, 3, 4, 5, 6, 7, 8] [7, 7, 7] =
      Except.error Panic.notFullBlocks ∧
    (xorSuite 8 5).Decrypt [90, 1, 2, 3, 4] [1, 2, 3, 4, 5, 6, 7, 8] [] =
      Except.error Panic.indexOutOfRange ∧
    decryptPBE stubEnv
        { EncryptionAlgorithm := { Algorithm := [1, 2, 840, 113549, 1, 5, 3],
                                   Parameters := { FullBytes := [2, 1, 1] } },
          EncryptedData := [7, 7, 7] }
        [112, 119] = Except.error Panic.notFullBlocks := by
  decide

/-! ## The pipeline of `decryptPBE` -/

/-- On full blocks with an IV of block-size length `cbcDecrypt` returns, and an
error comes with a nil plaintext. -/
theorem cbcDecrypt_total (block : Block) (iv ct : List Byte)
    (hiv : iv.length = block.blockSize) (hpos : 0 < ct.length)
    (hmul : ct.length % block.blockSize = 0) :
    ∃ res : BytesErr, cbcDecrypt block iv ct = Except.ok res ∧
      (res.2 ≠ none → res.1 = none) ∧ (res.2 = none → res.1 ≠ none) := by
  rw [cbcDecrypt_spec block iv ct hiv hpos hmul]
  split
  · exact ⟨_, rfl, fun _ => rfl, fun h => by simp at h⟩
  · exact ⟨_, rfl, fun h => absurd rfl h, fun _ => by simp⟩

/-- Key and IV of the MD5 scheme in terms of the hash chain. -/
theorem md5_derive_eq (env : Env) (p : md5Pkcs5PbeParams) (password : List Byte) (size : Int)
    (hiter : 1 ≤ p.Iterations) :
    p.DeriveKey env password size =
      Except.ok (some ((hashChain (Md5Sum env) (password ++ p.Salt) p.Iterations.toNat).take 8),
        none) ∧
    p.DeriveIV env password size =
      Except.ok (some (((hashChain (Md5Sum env) (password ++ p.Salt)
        p.Iterations.toNat).drop 8).take 8), none) ∧
    (hashChain (Md5Sum env) (password ++ p.Salt) p.Iterations.toNat).length = 16 := by
  have hn : 1 ≤ p.Iterations.toNat := by omega
  have hlen := hashLoop_length (Md5Sum env) 16 env.md5_size p.Iterations.toNat hn
    (password ++ p.Salt)
  have hK := PKCS5PBKDF1_eq (Md5Sum env) p.Salt password p.Iterations 16 (by decide)
    (by rw [hlen]; decide)
  rw [hashLoop_eq_chain] at hK hlen
  generalize hashChain (Md5Sum env) (password ++ p.Salt) p.Iterations.toNat = derived
    at hK hlen
  refine ⟨?_, ?_, hlen⟩
  · simp only [md5Pkcs5PbeParams.DeriveKey, md5Pkcs5PbeParams.pbkdf, hK, Slice.slice, hlen]
    simp [Slice.toList]
  · simp only [md5Pkcs5PbeParams.DeriveIV, md5Pkcs5PbeParams.pbkdf, hK, Slice.slice, hlen]
    simp [Slice.toList]

/-- The tail of `decryptPBE` once key, IV and block are known: the outcome of
`cbcDecrypt` with the decoded parameters added on success. -/
theorem deriveAndDecrypt_eq (env : Env) (params : pbeKDFParameters) (c : cipherWithBlock)
    (privKey : encryptedPrivateKeyInfo) (password : List Byte)
    (K IV : Option (List Byte)) (block : Block)
    (hK : params.DeriveKey env password c.KeySize = Except.ok (K, none))
    (hIV : params.DeriveIV env password c.IVSize = Except.ok (IV, none))
    (hnb : c.newBlock (bytesOf K) = Except.ok (Except.ok block)) :
    deriveAndDecrypt env params c privKey password =
      match cbcDecrypt block (bytesOf IV) privKey.EncryptedData with
      | Except.error e => Except.error e
      | Except.ok (_, some err) => Except.ok (none, none, some err)
      | Except.ok (pt, none) => Except.ok (pt, some params, none) := by
  simp only [deriveAndDecrypt, hK, hIV, cipherWithBlock.Decrypt, hnb]

/-- The tail of `decryptPBE` on full blocks: plaintext and error are those of
`cbcDecrypt`, the parameters are returned exactly when the error is nil. -/
theorem deriveAndDecrypt_full_blocks (env : Env) (params : pbeKDFParameters)
    (c : cipherWithBlock) (privKey : encryptedPrivateKeyInfo) (password : List Byte)
    (K IV : Option (List Byte)) (block : Block)
    (hK : params.DeriveKey env password c.KeySize = Except.ok (K, none))
    (hIV : params.DeriveIV env password c.IVSize = Except.ok (IV, none))
    (hnb : c.newBlock (bytesOf K) = Except.ok (Except.ok block))
    (hiv : (bytesOf IV).length = block.blockSize) (hpos : 0 < privKey.EncryptedData.length)
    (hmul : privKey.EncryptedData.length % block.blockSize = 0) :
    ∃ res : BytesErr,
      cbcDecrypt block (bytesOf IV) privKey.EncryptedData = Except.ok res ∧
      deriveAndDecrypt env params c privKey password =
        Except.ok (res.1, if res.2 = none then some params else none, res.2) := by
  obtain ⟨res, hres, h1, _⟩ := cbcDecrypt_total block (bytesOf IV) privKey.EncryptedData
    hiv hpos hmul
  refine ⟨res, hres, ?_⟩
  rw [deriveAndDecrypt_eq env params c privKey password K IV block hK hIV hnb, hres]
  obtain ⟨r1, r2⟩ := res
  cases r2 with
  | none => simp
  | some e =>
    have : r1 = none := h1 (by simp)
    simp [this]

/-- Under the MD5-and-DES OID `decryptPBE` decodes the parameters and goes on
with the password as given. -/
theorem decryptPBE_md5 (env : Env) (privKey : encryptedPrivateKeyInfo) (password : List Byte)
    (halg : privKey.EncryptionAlgorithm.Algorithm = [1, 2, 840, 113549, 1, 5, 3]) :
    decryptPBE env privKey password =
      unmarshalAndDecrypt env (pbeKDFParameters.md5 { Salt := [], Iterations := 0 })
        (md5WithDESCBC env) privKey password := by
  have hsel : selectScheme env privKey.EncryptionAlgorithm.Algorithm =
      some (pbeKDFParameters.md5 { Salt := [], Iterations := 0 }, md5WithDESCBC env, true) := by
    rw [halg]; rfl
  simp only [decryptPBE, hsel, if_true]

/-- Under a PKCS#12 OID `decryptPBE` first encodes the password. -/
theorem decryptPBE_sha1 (env : Env) (privKey : encryptedPrivateKeyInfo) (password : List Byte)
    (c : cipherWithBlock)
    (halg : (privKey.EncryptionAlgorithm.Algorithm = [1, 2, 840, 113549, 1, 12, 1, 3] ∧
        c = shaWithTripleDESCBC env) ∨
      (privKey.EncryptionAlgorithm.Algorithm = [1, 2, 840, 113549, 1, 12, 1, 6] ∧
        c = shaWith40BitRC2CBC env)) :
    decryptPBE env privKey password =
      match env.bmpStringZeroTerminated password with
      | Except.error e => Except.error e
      | Except.ok (_, some err) => Except.ok (none, none, some err)
      | Except.ok (encoded, none) =>
        unmarshalAndDecrypt env (pbeKDFParameters.sha1 { Salt := [], Iterations := 0 }) c
          privKey (bytesOf encoded) := by
  rcases halg with ⟨h, hc⟩ | ⟨h, hc⟩
  · have hsel : selectScheme env privKey.EncryptionAlgorithm.Algorithm =
        some (pbeKDFParameters.sha1 { Salt := [], Iterations := 0 },
          shaWithTripleDESCBC env, false) := by
      rw [h]; rfl
    simp only [decryptPBE, hsel, hc]
    rfl
  · have hsel : selectScheme env privKey.EncryptionAlgorithm.Algorithm =
        some (pbeKDFParameters.sha1 { Salt := [], Iterations := 0 },
          shaWith40BitRC2CBC env, false) := by
      rw [h]; rfl
    simp only [decryptPBE, hsel, hc]
    rfl

theorem unmarshalAndDecrypt_ok (env : Env) (params : pbeKDFParameters) (c : cipherWithBlock)
    (privKey : encryptedPrivateKeyInfo) (password : List Byte) (decoded : List Byte × Int)
    (hun : env.unmarshal privKey.EncryptionAlgorithm.Parameters.FullBytes =
      Except.ok (Except.ok decoded)) :
    unmarshalAndDecrypt env params c privKey password =
      deriveAndDecrypt env (params.fill decoded) c privKey password := by
  simp only [unmarshalAndDecrypt, hun]

/-- C11. Under OID 1.2.840.113549.1.5.3, with parameter bytes that decode to a
salt and an iteration count of at least 1 and a ciphertext whose length is a
positive multiple of 8, `decryptPBE` returns what
`cbcDecrypt(DES(K), IV, ciphertext)` returns (its plaintext and its error, and
the decoded parameters when the error is nil), where `K` is bytes `[0:8]` and
`IV` bytes `[8:16]` of `d`, MD5 applied `iterations` times to
`password || salt`: the password enters as the raw bytes given, the BMP encoder
plays no part. -/
theorem decryptPBE_md5_des (env : Env) (privKey : encryptedPrivateKeyInfo)
    (password salt d : List Byte) (iter : Int) (block : Block)
    (halg : privKey.EncryptionAlgorithm.Algorithm = [1, 2, 840, 113549, 1, 5, 3])
    (hun : env.unmarshal privKey.EncryptionAlgorithm.Parameters.FullBytes =
      Except.ok (Except.ok (salt, iter)))
    (hiter : 1 ≤ iter)
    (hd : d = hashChain (Md5Sum env) (password ++ salt) iter.toNat)
    (hdes : env.desNewCipher (d.take 8) = Except.ok (Except.ok block))
    (hbs : block.blockSize = 8)
    (hpos : 0 < privKey.EncryptedData.length)
    (hmul : privKey.EncryptedData.length % 8 = 0) :
    d.take 8 ++ (d.drop 8).take 8 = d.take 16 ∧ d.length = 16 ∧
    (∃ res : BytesErr,
      cbcDecrypt block ((d.drop 8).take 8) privKey.EncryptedData = Except.ok res ∧
      decryptPBE env privKey password =
        Except.ok (res.1,
          if res.2 = none then
            some (pbeKDFParameters.md5 { Salt := salt, Iterations := iter })
          else none,
          res.2)) ∧
    (∀ bmp : List Byte → Go BytesErr,
      decryptPBE { env with bmpStringZeroTerminated := bmp } privKey password =
        decryptPBE env privKey password) := by
  obtain ⟨hK, hIV, hlen⟩ :=
    md5_derive_eq env { Salt := salt, Iterations := iter } password 8 hiter
  simp only [← hd] at hK hIV hlen
  refine ⟨?_, hlen, ?_, ?_⟩
  · rw [← List.take_add]
  · have hiv : (bytesOf (some ((d.drop 8).take 8))).length = block.blockSize := by
      rw [hbs, bytesOf, List.length_take, List.length_drop, hlen]; rfl
    have hmul2 : privKey.EncryptedData.length % block.blockSize = 0 := by rw [hbs]; exact hmul
    obtain ⟨res, hres, hpbe⟩ := deriveAndDecrypt_full_blocks env
      (pbeKDFParameters.md5 { Salt := salt, Iterations := iter }) (md5WithDESCBC env) privKey
      password (some (d.take 8)) (some ((d.drop 8).take 8)) block hK hIV hdes hiv hpos hmul2
    refine ⟨res, hres, ?_⟩
    rw [decryptPBE_md5 env privKey password halg,
      unmarshalAndDecrypt_ok env _ _ privKey password (salt, iter) hun]
    exact hpbe
  · intro bmp
    rw [decryptPBE_md5 env privKey password halg, decryptPBE_md5 _ privKey password halg]
    rfl

/-- C11 at a concrete input: salt `01 01`, 2 iterations, password `01 02`, one
block of ciphertext that decrypts to `01 02 03`. -/
theorem decryptPBE_md5_des_witness :
    decryptPBE stubEnv
        { EncryptionAlgorithm := { Algorithm := [1, 2, 840, 113549, 1, 5, 3],
                                   Parameters := { FullBytes := [2, 1, 1] } },
          EncryptedData := [153, 165, 181, 192, 209, 230, 247, 4] }
        [1, 2] =
      Except.ok (some [1, 2, 3],
        some (pbeKDFParameters.md5 { Salt := [1, 1], Iterations := 2 }), none) := by
  obtain ⟨res, hres, hpbe⟩ := (decryptPBE_md5_des stubEnv
    { EncryptionAlgorithm := { Algorithm := [1, 2, 840, 113549, 1, 5, 3],
                               Parameters := { FullBytes := [2, 1, 1] } },
      EncryptedData := [153, 165, 181, 192, 209, 230, 247, 4] }
    [1, 2] [1, 1] (sum16 (sum16 [1, 2, 1, 1])) 2 (xorBlock 8 15) rfl rfl (by decide) rfl
    rfl rfl (by decide) (by decide)).2.2.1
  rw [hpbe]
  have h2 : res = (some [1, 2, 3], none) := by
    have h3 : cbcDecrypt (xorBlock 8 15) (((sum16 (sum16 [1, 2, 1, 1])).drop 8).take 8)
        [153, 165, 181, 192, 209, 230, 247, 4] = Except.ok (some [1, 2, 3], none) := by decide
    rw [h3] at hres
    exact (Except.ok.inj hres).symm
  rw [h2]
  rfl

/-- The tail of `decryptPBE` under a PKCS#12 OID, once the password is encoded
and the parameters are decoded. -/
theorem decryptPBE_sha1_full_blocks (env : Env) (privKey : encryptedPrivateKeyInfo)
    (password salt P K IV : List Byte) (iter : Int) (c : cipherWithBlock) (block : Block)
    (halg : (privKey.EncryptionAlgorithm.Algorithm = [1, 2, 840, 113549, 1, 12, 1, 3] ∧
        c = shaWithTripleDESCBC env) ∨
      (privKey.EncryptionAlgorithm.Algorithm = [1, 2, 840, 113549, 1, 12, 1, 6] ∧
        c = shaWith40BitRC2CBC env))
    (hbmp : env.bmpStringZeroTerminated password = Except.ok (some P, none))
    (hun : env.unmarshal privKey.EncryptionAlgorithm.Parameters.FullBytes =
      Except.ok (Except.ok (salt, iter)))
    (hK : env.PKCS12PBKDF (Sha1Sum env) 20 64 salt P iter 1 c.KeySize = Except.ok (some K))
    (hIV : env.PKCS12PBKDF (Sha1Sum env) 20 64 salt P iter 2 c.IVSize = Except.ok (some IV))
    (hnb : c.newBlock K = Except.ok (Except.ok block))
    (hiv : IV.length = block.blockSize)
    (hpos : 0 < privKey.EncryptedData.length)
    (hmul : privKey.EncryptedData.length % block.blockSize = 0) :
    ∃ res : BytesErr,
      cbcDecrypt block IV privKey.EncryptedData = Except.ok res ∧
      decryptPBE env privKey password =
        Except.ok (res.1,
          if res.2 = none then
            some (pbeKDFParameters.sha1 { Salt := salt, Iterations := iter })
          else none,
          res.2) := by
  have hK2 : (pbeKDFParameters.sha1 { Salt := salt, Iterations := iter }).DeriveKey env P
      c.KeySize = Except.ok (some K, none) := by
    simp only [pbeKDFParameters.DeriveKey, sha1PbeParams.DeriveKey, sha1PbeParams.pbkdf,
      Sha1Size, hK]
  have hIV2 : (pbeKDFParameters.sha1 { Salt := salt, Iterations := iter }).DeriveIV env P
      c.IVSize = Except.ok (some IV, none) := by
    simp only [pbeKDFParameters.DeriveIV, sha1PbeParams.DeriveIV, sha1PbeParams.pbkdf,
      Sha1Size, hIV]
  obtain ⟨res, hres, hpbe⟩ := deriveAndDecrypt_full_blocks env
    (pbeKDFParameters.sha1 { Salt := salt, Iterations := iter }) c privKey P (some K)
    (some IV) block hK2 hIV2 hnb hiv hpos hmul
  refine ⟨res, hres, ?_⟩
  rw [decryptPBE_sha1 env privKey password c halg]
  simp only [hbmp, bytesOf]
  rw [unmarshalAndDecrypt_ok env _ _ privKey P (salt, iter) hun]
  exact hpbe

/-- C12. Under the two PKCS#12 OIDs, with a password whose BMP encoding is `P`,
parameters decoding to a salt and an iteration count and a ciphertext of full
blocks, `decryptPBE` returns what `cbcDecrypt(C(K), IV, ciphertext)` returns,
where `K = PKCS12PBKDF(SHA-1, 20, 64, salt, P, iterations, 1, KeySize)` and
`IV = PKCS12PBKDF(SHA-1, 20, 64, salt, P, iterations, 2, 8)`: `C` is
`des.NewTripleDESCipher` with `KeySize` 24 under 1.2.840.113549.1.12.1.3, and
`rc2.New` with `KeySize` 5 and `8 * len(K)` effective key bits, 40 for a 5-byte
key, under 1.2.840.113549.1.12.1.6. -/
theorem decryptPBE_pkcs12 (env : Env) (privKey : encryptedPrivateKeyInfo)
    (password salt P K IV : List Byte) (iter : Int) (block : Block)
    (hbmp : env.bmpStringZeroTerminated password = Except.ok (some P, none))
    (hun : env.unmarshal privKey.EncryptionAlgorithm.Parameters.FullBytes =
      Except.ok (Except.ok (salt, iter)))
    (hrc2 : env.rc2BlockSize = 8)
    (hIV : env.PKCS12PBKDF (Sha1Sum env) 20 64 salt P iter 2 8 = Except.ok (some IV))
    (hiv : IV.length = 8) (hbs : block.blockSize = 8)
    (hpos : 0 < privKey.EncryptedData.length)
    (hmul : privKey.EncryptedData.length % 8 = 0) :
    (privKey.EncryptionAlgorithm.Algorithm = [1, 2, 840, 113549, 1, 12, 1, 3] →
      env.PKCS12PBKDF (Sha1Sum env) 20 64 salt P iter 1 24 = Except.ok (some K) →
      env.desNewTripleDESCipher K = Except.ok (Except.ok block) →
      ∃ res : BytesErr,
        cbcDecrypt block IV privKey.EncryptedData = Except.ok res ∧
        decryptPBE env privKey password =
          Except.ok (res.1,
            if res.2 = none then
              some (pbeKDFParameters.sha1 { Salt := salt, Iterations := iter })
            else none,
            res.2)) ∧
    (privKey.EncryptionAlgorithm.Algorithm = [1, 2, 840, 113549, 1, 12, 1, 6] →
      env.PKCS12PBKDF (Sha1Sum env) 20 64 salt P iter 1 5 = Except.ok (some K) →
      K.length = 5 →
      env.rc2New K 40 = Except.ok (Except.ok block) →
      ∃ res : BytesErr,
        cbcDecrypt block IV privKey.EncryptedData = Except.ok res ∧
        decryptPBE env privKey password =
          Except.ok (res.1,
            if res.2 = none then
              some (pbeKDFParameters.sha1 { Salt := salt, Iterations := iter })
            else none,
            res.2)) := by
  have hiv2 : IV.length = block.blockSize := by rw [hbs]; exact hiv
  have hmul2 : privKey.EncryptedData.length % block.blockSize = 0 := by rw [hbs]; exact hmul
  constructor
  · intro halg hK hnb
    exact decryptPBE_sha1_full_blocks env privKey password salt P K IV iter
      (shaWithTripleDESCBC env) block (Or.inl ⟨halg, rfl⟩) hbmp hun hK hIV hnb hiv2 hpos hmul2
  · intro halg hK hK5 hnb
    have hIV2 : env.PKCS12PBKDF (Sha1Sum env) 20 64 salt P iter 2
        (shaWith40BitRC2CBC env).IVSize = Except.ok (some IV) := by
      simp only [cipherWithBlock.IVSize, shaWith40BitRC2CBC, hrc2]
      exact hIV
    have hnb2 : (shaWith40BitRC2CBC env).newBlock K = Except.ok (Except.ok block) := by
      simp only [shaWith40BitRC2CBC, hK5]
      exact hnb
    exact decryptPBE_sha1_full_blocks env privKey password salt P K IV iter
      (shaWith40BitRC2CBC env) block (Or.inr ⟨halg, rfl⟩) hbmp hun hK hIV2 hnb2 hiv2 hpos hmul2

/-- C12 at a concrete input under the Triple-DES OID: password `pw`, salt
`01 01`, 2 iterations, one block of ciphertext that decrypts to `ABC`. -/
theorem decryptPBE_pkcs12_witness :
    decryptPBE stubEnv
        { EncryptionAlgorithm := { Algorithm := [1, 2, 840, 113549, 1, 12, 1, 3],
                                   Parameters := { FullBytes := [2, 1, 1] } },
          EncryptedData := [98, 83, 68, 240, 238, 220, 202, 184] }
        [112, 119] =
      Except.ok (some [65, 66, 67],
        some (pbeKDFParameters.sha1 { Salt := [1, 1], Iterations := 2 }), none) := by
  obtain ⟨res, hres, hpbe⟩ := (decryptPBE_pkcs12 stubEnv
    { EncryptionAlgorithm := { Algorithm := [1, 2, 840, 113549, 1, 12, 1, 3],
                               Parameters := { FullBytes := [2, 1, 1] } },
      EncryptedData := [98, 83, 68, 240, 238, 220, 202, 184] }
    [112, 119] [1, 1] [0, 112, 0, 119, 0, 0]
    [125, 139, 153, 167, 181, 195, 209, 223, 237, 251, 9, 23, 37, 51, 65, 79, 93, 107, 121,
      135, 145, 159, 173, 187]
    [94, 108, 122, 136, 150, 164, 178, 192] 2 (xorBlock 8 125)
    (by decide) rfl rfl (by decide) rfl rfl (by decide) (by decide)).1 rfl (by decide) rfl
  rw [hpbe]
  have h2 : res = (some [65, 66, 67], none) := by
    have h3 : cbcDecrypt (xorBlock 8 125) [94, 108, 122, 136, 150, 164, 178, 192]
        [98, 83, 68, 240, 238, 220, 202, 184] = Except.ok (some [65, 66, 67], none) := by
      decide
    rw [h3] at hres
    exact (Except.ok.inj hres).symm
  rw [h2]
  rfl

/-- What the `switch` of `decryptPBE` selects, case by case. -/
theorem selectScheme_some (env : Env) (alg : List Int) (p : pbeKDFParameters)
    (c : cipherWithBlock) (b : Bool) (h : selectScheme env alg = some (p, c, b)) :
    (alg = [1, 2, 840, 113549, 1, 12, 1, 3] ∧ c = shaWithTripleDESCBC env ∧ b = false ∧
      p = pbeKDFParameters.sha1 { Salt := [], Iterations := 0 }) ∨
    (alg = [1, 2, 840, 113549, 1, 12, 1, 6] ∧ c = shaWith40BitRC2CBC env ∧ b = false ∧
      p = pbeKDFParameters.sha1 { Salt := [], Iterations := 0 }) ∨
    (alg = [1, 2, 840, 113549, 1, 5, 3] ∧ c = md5WithDESCBC env ∧ b = true ∧
      p = pbeKDFParameters.md5 { Salt := [], Iterations := 0 }) := by
  simp only [selectScheme] at h
  split at h
  · rename_i h1
    simp only [Option.some.injEq, Prod.mk.injEq] at h
    exact Or.inl ⟨h1, h.2.1.symm, h.2.2.symm, h.1.symm⟩
  · split at h
    · rename_i h1
      simp only [Option.some.injEq, Prod.mk.injEq] at h
      exact Or.inr (Or.inl ⟨h1, h.2.1.symm, h.2.2.symm, h.1.symm⟩)
    · split at h
      · rename_i h1
        simp only [Option.some.injEq, Prod.mk.injEq] at h
        exact Or.inr (Or.inr ⟨h1, h.2.1.symm, h.2.2.symm, h.1.symm⟩)
      · simp at h

/-- C13. The three suite descriptors are fixed: `shaWithTripleDESCBC` has
`KeySize` 24, `IVSize` 8 and OID 1.2.840.113549.1.12.1.3; `shaWith40BitRC2CBC`
has `KeySize` 5, `IVSize` `rc2.BlockSize` (8) and OID 1.2.840.113549.1.12.1.6;
`md5WithDESCBC` has `KeySize` 8, `IVSize` 8 and OID 1.2.840.113549.1.5.3; each
is selected by `decryptPBE` for its own OID, and whatever suite `decryptPBE`
selects for an OID has that OID as its `OID()`. -/
theorem suites_fixed (env : Env) (hrc2 : env.rc2BlockSize = 8) :
    ((shaWithTripleDESCBC env).KeySize = 24 ∧ (shaWithTripleDESCBC env).IVSize = 8 ∧
      (shaWithTripleDESCBC env).OID = [1, 2, 840, 113549, 1, 12, 1, 3]) ∧
    ((shaWith40BitRC2CBC env).KeySize = 5 ∧ (shaWith40BitRC2CBC env).IVSize = 8 ∧
      (shaWith40BitRC2CBC env).OID = [1, 2, 840, 113549, 1, 12, 1, 6]) ∧
    ((md5WithDESCBC env).KeySize = 8 ∧ (md5WithDESCBC env).IVSize = 8 ∧
      (md5WithDESCBC env).OID = [1, 2, 840, 113549, 1, 5, 3]) ∧
    (∃ p b, selectScheme env (shaWithTripleDESCBC env).OID =
      some (p, shaWithTripleDESCBC env, b)) ∧
    (∃ p b, selectScheme env (shaWith40BitRC2CBC env).OID =
      some (p, shaWith40BitRC2CBC env, b)) ∧
    (∃ p b, selectScheme env (md5WithDESCBC env).OID = some (p, md5WithDESCBC env, b)) ∧
    (∀ (alg : List Int) (p : pbeKDFParameters) (c : cipherWithBlock) (b : Bool),
      selectScheme env alg = some (p, c, b) → c.OID = alg) := by
  refine ⟨⟨rfl, rfl, rfl⟩, ⟨rfl, hrc2, rfl⟩, ⟨rfl, rfl, rfl⟩, ⟨_, _, rfl⟩, ⟨_, _, rfl⟩,
    ⟨_, _, rfl⟩, ?_⟩
  intro alg p c b h
  rcases selectScheme_some env alg p c b h with ⟨h1, h2, _⟩ | ⟨h1, h2, _⟩ | ⟨h1, h2, _⟩ <;>
    rw [h1, h2] <;> rfl

/-- C13 with the stand-in collaborators, whose RC2 block size is 8. -/
theorem suites_fixed_witness :
    (shaWith40BitRC2CBC stubEnv).KeySize = 5 ∧ (shaWith40BitRC2CBC stubEnv).IVSize = 8 ∧
      (shaWith40BitRC2CBC stubEnv).OID = [1, 2, 840, 113549, 1, 12, 1, 6] :=
  (suites_fixed stubEnv rfl).2.1

/-- C17. On success `decryptPBE` returns, with a plaintext, the parameters
parsed from the parameter bytes: the salt and the iteration count that
`unmarshal` decoded, in the SHA-1/PKCS#12 shape under the two PKCS#12 OIDs and
in the MD5/PKCS#5 shape under the MD5 OID. -/
theorem decryptPBE_returns_params (env : Env) (privKey : encryptedPrivateKeyInfo)
    (password : List Byte) (r : Option (List Byte)) (k : Option pbeKDFParameters)
    (h : decryptPBE env privKey password = Except.ok (r, k, none)) :
    ∃ (salt : List Byte) (iter : Int) (pt : List Byte),
      env.unmarshal privKey.EncryptionAlgorithm.Parameters.FullBytes =
        Except.ok (Except.ok (salt, iter)) ∧
      r = some pt ∧
      (((privKey.EncryptionAlgorithm.Algorithm = [1, 2, 840, 113549, 1, 12, 1, 3] ∨
          privKey.EncryptionAlgorithm.Algorithm = [1, 2, 840, 113549, 1, 12, 1, 6]) ∧
        k = some (pbeKDFParameters.sha1 { Salt := salt, Iterations := iter })) ∨
      (privKey.EncryptionAlgorithm.Algorithm = [1, 2, 840, 113549, 1, 5, 3] ∧
        k = some (pbeKDFParameters.md5 { Salt := salt, Iterations := iter }))) := by
  have tail : ∀ (params : pbeKDFParameters) (c : cipherWithBlock) (pw : List Byte),
      unmarshalAndDecrypt env params c privKey pw = Except.ok (r, k, none) →
      ∃ (salt : List Byte) (iter : Int) (pt : List Byte),
        env.unmarshal privKey.EncryptionAlgorithm.Parameters.FullBytes =
          Except.ok (Except.ok (salt, iter)) ∧
        r = some pt ∧ k = some (params.fill (salt, iter)) := by
    intro params c pw hu
    simp only [unmarshalAndDecrypt] at hu
    split at hu
    · simp at hu
    · simp at hu
    · rename_i decoded hun
      simp only [deriveAndDecrypt] at hu
      split at hu
      · simp at hu
      · simp at hu
      · split at hu
        · simp at hu
        · simp at hu
        · split at hu
          · simp at hu
          · simp at hu
          · rename_i decryptedKey hd
            have h3 := Except.ok.inj hu
            simp only [Prod.mk.injEq] at h3
            obtain ⟨hr, hk, _⟩ := h3
            simp only [cipherWithBlock.Decrypt] at hd
            split at hd
            · simp at hd
            · simp at hd
            · rename_i block hnb
              obtain ⟨hiv, hpos, hmul⟩ := cbcDecrypt_returns _ _ _ _ hd
              obtain ⟨res, hres, _, h5⟩ := cbcDecrypt_total _ _ _ hiv hpos hmul
              rw [hd] at hres
              have h6 := Except.ok.inj hres
              rw [← h6] at h5
              have h7 : decryptedKey ≠ none := h5 rfl
              obtain ⟨pt, hpt⟩ := Option.ne_none_iff_exists'.mp h7
              exact ⟨decoded.1, decoded.2, pt, hun, by rw [← hr, hpt], hk.symm⟩
  simp only [decryptPBE] at h
  split at h
  · simp at h
  · rename_i params c orig hsel
    rcases selectScheme_some env _ params c orig hsel with
      ⟨h1, _, h3, h4⟩ | ⟨h1, _, h3, h4⟩ | ⟨h1, _, h3, h4⟩
    · rw [h3] at h
      simp only [Bool.false_eq_true, if_false] at h
      split at h
      · simp at h
      · simp at h
      · obtain ⟨salt, iter, pt, hun, hr, hk⟩ := tail _ _ _ h
        rw [h4] at hk
        exact ⟨salt, iter, pt, hun, hr, Or.inl ⟨Or.inl h1, hk⟩⟩
    · rw [h3] at h
      simp only [Bool.false_eq_true, if_false] at h
      split at h
      · simp at h
      · simp at h
      · obtain ⟨salt, iter, pt, hun, hr, hk⟩ := tail _ _ _ h
        rw [h4] at hk
        exact ⟨salt, iter, pt, hun, hr, Or.inl ⟨Or.inr h1, hk⟩⟩
    · rw [h3] at h
      simp only [if_true] at h
      obtain ⟨salt, iter, pt, hun, hr, hk⟩ := tail _ _ _ h
      rw [h4] at hk
      exact ⟨salt, iter, pt, hun, hr, Or.inr ⟨h1, hk⟩⟩

/-- C17 at a concrete input under the MD5 OID: the parameters returned are the
decoded salt `01 01` and iteration count 2. -/
theorem decryptPBE_returns_params_witness :
    ∃ (salt : List Byte) (iter : Int),
      stubEnv.unmarshal [2, 1, 1] = Except.ok (Except.ok (salt, iter)) ∧
      pbeKDFParameters.md5 { Salt := [1, 1], Iterations := 2 } =
        pbeKDFParameters.md5 { Salt := salt, Iterations := iter } := by
  obtain ⟨salt, iter, _, hun, _, hk⟩ := decryptPBE_returns_params stubEnv
    { EncryptionAlgorithm := { Algorithm := [1, 2, 840, 113549, 1, 5, 3],
                               Parameters := { FullBytes := [2, 1, 1] } },
      EncryptedData := [153, 165, 181, 192, 209, 230, 247, 4] }
    [1, 2] (some [1, 2, 3])
    (some (pbeKDFParameters.md5 { Salt := [1, 1], Iterations := 2 })) (by decide)
  rcases hk with ⟨_, hk⟩ | ⟨_, hk⟩
  · simp at hk
  · exact ⟨salt, iter, hun, Option.some.inj hk⟩

/-- C20. `decryptPBE` checks in the order OID, password encoding, parameter
decoding, derivation and decryption and stops at the first failure. Under the
two PKCS#12 OIDs an error of the BMP encoder is returned whatever the parameter
bytes are and whatever `unmarshal` does with them; under every supported OID
(the password being encodable under the PKCS#12 ones) an error of `unmarshal`
is returned whatever the KDFs and the block ciphers do; under the MD5 OID the
BMP encoder is not consulted, so the outcome does not depend on it. -/
theorem decryptPBE_check_order (env : Env) (privKey : encryptedPrivateKeyInfo)
    (password : List Byte) :
    (privKey.EncryptionAlgorithm.Algorithm = [1, 2, 840, 113549, 1, 12, 1, 3] ∨
        privKey.EncryptionAlgorithm.Algorithm = [1, 2, 840, 113549, 1, 12, 1, 6] →
      ∀ (b : Option (List Byte)) (e : String),
        env.bmpStringZeroTerminated password = Except.ok (b, some e) →
        ∀ (unm : List Byte → Go (Except String (List Byte × Int)))
          (kdf : (List Byte → List Byte) → Int → Int → List Byte → List Byte → Int → Byte →
            Int → Go (Option (List Byte)))
          (des des3 : List Byte → Go (Except String Block))
          (rc2 : List Byte → Int → Go (Except String Block)),
          decryptPBE { env with unmarshal := unm, PKCS12PBKDF := kdf, desNewCipher := des,
                                desNewTripleDESCipher := des3, rc2New := rc2 }
            privKey password = Except.ok (none, none, some e)) ∧
    (∀ e : String,
      env.unmarshal privKey.EncryptionAlgorithm.Parameters.FullBytes =
        Except.ok (Except.error e) →
      ((privKey.EncryptionAlgorithm.Algorithm = [1, 2, 840, 113549, 1, 12, 1, 3] ∨
          privKey.EncryptionAlgorithm.Algorithm = [1, 2, 840, 113549, 1, 12, 1, 6]) ∧
        (∃ P, env.bmpStringZeroTerminated password = Except.ok (P, none)) ∨
        privKey.EncryptionAlgorithm.Algorithm = [1, 2, 840, 113549, 1, 5, 3]) →
      ∀ (kdf : (List Byte → List Byte) → Int → Int → List Byte → List Byte → Int → Byte →
          Int → Go (Option (List Byte)))
        (des des3 : List Byte → Go (Except String Block))
        (rc2 : List Byte → Int → Go (Except String Block)),
        decryptPBE { env with PKCS12PBKDF := kdf, desNewCipher := des,
                              desNewTripleDESCipher := des3, rc2New := rc2 }
          privKey password = Except.ok (none, none, some e)) ∧
    (privKey.EncryptionAlgorithm.Algorithm = [1, 2, 840, 113549, 1, 5, 3] →
      ∀ bmp : List Byte → Go BytesErr,
        decryptPBE { env with bmpStringZeroTerminated := bmp } privKey password =
          decryptPBE env privKey password) := by
  refine ⟨?_, ?_, ?_⟩
  · intro halg b e hbmp unm kdf des des3 rc2
    rcases halg with h | h
    · rw [decryptPBE_sha1 _ privKey password _ (Or.inl ⟨h, rfl⟩)]
      simp only [hbmp]
    · rw [decryptPBE_sha1 _ privKey password _ (Or.inr ⟨h, rfl⟩)]
      simp only [hbmp]
  · intro e hun halg kdf des des3 rc2
    rcases halg with ⟨h | h, P, hP⟩ | h
    · rw [decryptPBE_sha1 _ privKey password _ (Or.inl ⟨h, rfl⟩)]
      simp only [hP, unmarshalAndDecrypt, hun]
    · rw [decryptPBE_sha1 _ privKey password _ (Or.inr ⟨h, rfl⟩)]
      simp only [hP, unmarshalAndDecrypt, hun]
    · rw [decryptPBE_md5 _ privKey password h]
      simp only [unmarshalAndDecrypt, hun]
  · intro halg bmp
    rw [decryptPBE_md5 env privKey password halg, decryptPBE_md5 _ privKey password halg]
    rfl

/-- C20 at a concrete input: under the Triple-DES OID a password with a byte
above 127, which the stand-in encoder refuses, and empty parameter bytes, which
the stand-in decoder refuses: the encoder's error is the one returned. -/
theorem decryptPBE_check_order_witness :
    decryptPBE stubEnv
        { EncryptionAlgorithm := { Algorithm := [1, 2, 840, 113549, 1, 12, 1, 3],
                                   Parameters := { FullBytes := [] } },
          EncryptedData := [1, 2, 3, 4, 5, 6, 7, 8] }
        [1, 200] =
      Except.ok (none, none,
        some "pkcs8: string contains characters that cannot be encoded") :=
  (decryptPBE_check_order stubEnv
    { EncryptionAlgorithm := { Algorithm := [1, 2, 840, 113549, 1, 12, 1, 3],
                               Parameters := { FullBytes := [] } },
      EncryptedData := [1, 2, 3, 4, 5, 6, 7, 8] }
    [1, 200]).1 (Or.inl rfl) none _ rfl stubEnv.unmarshal stubEnv.PKCS12PBKDF
    stubEnv.desNewCipher stubEnv.desNewTripleDESCipher stubEnv.rc2New

/-! ## The MD5 scheme outside iteration counts of at least 1 -/

theorem PKCS5PBKDF1_no_round (hash : List Byte → List Byte) (salt password : List Byte)
    (r size : Int) (hr : r ≤ 0) (hsize : ((password ++ salt).length : Int) < size) :
    PKCS5PBKDF1 hash salt password r size = Except.error Panic.sliceBounds := by
  have h0 : r.toNat = 0 := by omega
  have hc : ¬ ((0 : Int) ≤ 0 ∧ 0 ≤ size ∧ size ≤ ((password ++ salt).length : Int)) := by
    omega
  simp only [PKCS5PBKDF1, h0, hashLoop, Slice.slice, if_neg hc]

/-- C16, what the code does. With an iteration count of 0 or below no hash is
applied: `derived` is `password || salt` itself, and when that has fewer than
16 bytes `derived[:16]` panics (slice bounds out of range) in `DeriveKey` and
in `DeriveIV`, and so does `decryptPBE` under the MD5 OID when the parameter
bytes decode to such a salt and count. -/
theorem md5_derive_panics (env : Env) (p : md5Pkcs5PbeParams) (password : List Byte)
    (size : Int) (privKey : encryptedPrivateKeyInfo)
    (hiter : p.Iterations ≤ 0) (hlen : password.length + p.Salt.length < 16)
    (halg : privKey.EncryptionAlgorithm.Algorithm = [1, 2, 840, 113549, 1, 5, 3])
    (hun : env.unmarshal privKey.EncryptionAlgorithm.Parameters.FullBytes =
      Except.ok (Except.ok (p.Salt, p.Iterations))) :
    p.DeriveKey env password size = Except.error Panic.sliceBounds ∧
    p.DeriveIV env password size = Except.error Panic.sliceBounds ∧
    decryptPBE env privKey password = Except.error Panic.sliceBounds := by
  have h := PKCS5PBKDF1_no_round (Md5Sum env) p.Salt password p.Iterations 16 hiter
    (by rw [List.length_append]; omega)
  have hk : p.DeriveKey env password size = Except.error Panic.sliceBounds := by
    simp only [md5Pkcs5PbeParams.DeriveKey, md5Pkcs5PbeParams.pbkdf, h]
  refine ⟨hk, ?_, ?_⟩
  · simp only [md5Pkcs5PbeParams.DeriveIV, md5Pkcs5PbeParams.pbkdf, h]
  · rw [decryptPBE_md5 env privKey password halg,
      unmarshalAndDecrypt_ok env _ _ privKey password _ hun]
    simp only [deriveAndDecrypt, pbeKDFParameters.fill, pbeKDFParameters.DeriveKey,
      md5Pkcs5PbeParams.DeriveKey, md5Pkcs5PbeParams.pbkdf, h]

/-- C16 at a concrete input: empty salt, empty password, iteration count 0. -/
theorem md5_derive_panics_witness :
    md5Pkcs5PbeParams.DeriveKey stubEnv { Salt := [], Iterations := 0 } [] 8 =
      Except.error Panic.sliceBounds ∧
    md5Pkcs5PbeParams.DeriveIV stubEnv { Salt := [], Iterations := 0 } [] 8 =
      Except.error Panic.sliceBounds ∧
    decryptPBE stubEnv
        { EncryptionAlgorithm := { Algorithm := [1, 2, 840, 113549, 1, 5, 3],
                                   Parameters := { FullBytes := [0] } },
          EncryptedData := [1, 2, 3, 4, 5, 6, 7, 8] }
        [] = Except.error Panic.sliceBounds :=
  md5_derive_panics stubEnv { Salt := [], Iterations := 0 } [] 8
    { EncryptionAlgorithm := { Algorithm := [1, 2, 840, 113549, 1, 5, 3],
                               Parameters := { FullBytes := [0] } },
      EncryptedData := [1, 2, 3, 4, 5, 6, 7, 8] }
    (by decide) (by decide) rfl rfl

/-! ## The pipeline on a ciphertext made by `Encrypt` -/

/-- `cbcDecrypt` undoes `cbcEncrypt`. -/
theorem cbcDecrypt_cbcEncrypt (block : Block) (iv pt ct : List Byte)
    (hbs1 : 1 ≤ block.blockSize) (hbs2 : block.blockSize ≤ 255)
    (hinv : ∀ x : List Byte, x.length = block.blockSize → block.decrypt (block.encrypt x) = x)
    (hiv : iv.length = block.blockSize)
    (henc : cbcEncrypt block iv pt = Except.ok (some ct, none)) :
    cbcDecrypt block iv ct = Except.ok (some pt, none) := by
  have hbs : 0 < block.blockSize := hbs1
  have hmod : pt.length % block.blockSize < block.blockSize := Nat.mod_lt _ hbs
  rw [cbcEncrypt_eq block iv pt hbs hiv] at henc
  have hct := Option.some.inj (congrArg Prod.fst (Except.ok.inj henc))
  have hpad : (pt ++ List.replicate (block.blockSize - pt.length % block.blockSize)
      (byte (block.blockSize - pt.length % block.blockSize))).length =
      (pt.length / block.blockSize + 1) * block.blockSize := by
    rw [List.length_append, List.length_replicate]
    exact padded_length _ _ hbs
  have hctlen := encryptBlocks_length block _ iv _ hiv hpad
  rw [← hct]
  apply unpad_padded block iv _ pt (block.blockSize - pt.length % block.blockSize) hiv
    (by omega) (by omega) (by omega)
  rw [cbcDecrypt_crypt block iv _ _ hbs hctlen,
    decryptBlocks_encryptBlocks block hinv _ iv _ hiv hpad]

/-- The whole of `decryptPBE` on a ciphertext that `Encrypt` made under the
derived key and IV. -/
theorem decryptPBE_round_trip (env : Env) (privKey : encryptedPrivateKeyInfo)
    (password salt P K IV pt : List Byte) (iter : Int) (p0 : pbeKDFParameters)
    (c : cipherWithBlock) (orig : Bool) (block : Block)
    (hsel : selectScheme env privKey.EncryptionAlgorithm.Algorithm = some (p0, c, orig))
    (hP : if orig = true then P = password
      else env.bmpStringZeroTerminated password = Except.ok (some P, none))
    (hun : env.unmarshal privKey.EncryptionAlgorithm.Parameters.FullBytes =
      Except.ok (Except.ok (salt, iter)))
    (hK : (p0.fill (salt, iter)).DeriveKey env P c.KeySize = Except.ok (some K, none))
    (hIV : (p0.fill (salt, iter)).DeriveIV env P c.IVSize = Except.ok (some IV, none))
    (hnb : c.newBlock K = Except.ok (Except.ok block))
    (hbs1 : 1 ≤ block.blockSize) (hbs2 : block.blockSize ≤ 255)
    (hinv : ∀ x : List Byte, x.length = block.blockSize → block.decrypt (block.encrypt x) = x)
    (hiv : IV.length = block.blockSize)
    (henc : c.Encrypt K IV pt = Except.ok (some privKey.EncryptedData, none)) :
    decryptPBE env privKey password =
      Except.ok (some pt, some (p0.fill (salt, iter)), none) := by
  have henc2 : cbcEncrypt block IV pt = Except.ok (some privKey.EncryptedData, none) := by
    simpa only [cipherWithBlock.Encrypt, hnb] using henc
  have hdec := cbcDecrypt_cbcEncrypt block IV pt _ hbs1 hbs2 hinv hiv henc2
  have htail : deriveAndDecrypt env (p0.fill (salt, iter)) c privKey P =
      Except.ok (some pt, some (p0.fill (salt, iter)), none) := by
    rw [deriveAndDecrypt_eq env _ c privKey P (some K) (some IV) block hK hIV hnb]
    simp only [bytesOf, hdec]
  simp only [decryptPBE, hsel]
  cases orig with
  | true =>
    simp only [if_true] at hP ⊢
    rw [← hP, unmarshalAndDecrypt_ok env _ _ privKey P (salt, iter) hun]
    exact htail
  | false =>
    simp only [Bool.false_eq_true, if_false] at hP ⊢
    simp only [hP, bytesOf]
    rw [unmarshalAndDecrypt_ok env _ _ privKey P (salt, iter) hun]
    exact htail

/-! ## Big-endian integers -/

theorem beToNat_foldl (l : List Byte) (acc : Nat) :
    l.foldl (fun acc b => acc * 256 + b.val) acc = acc * 256 ^ l.length + beToNat l := by
  induction l generalizing acc with
  | nil => simp [beToNat]
  | cons a l ih =>
    simp only [List.foldl_cons, List.length_cons, beToNat]
    rw [ih, ih (0 * 256 + a.val)]
    ring

theorem beToNat_cons (a : Byte) (l : List Byte) :
    beToNat (a :: l) = a.val * 256 ^ l.length + beToNat l := by
  simp only [beToNat, List.foldl_cons]
  rw [beToNat_foldl]
  simp [beToNat]

theorem beToNat_lt (l : List Byte) : beToNat l < 256 ^ l.length := by
  induction l with
  | nil => simp [beToNat]
  | cons a l ih =>
    rw [beToNat_cons, List.length_cons, pow_succ]
    have ha : a.val < 256 := a.isLt
    nlinarith [Nat.zero_le (256 ^ l.length)]

theorem natToBE_length (v x : Nat) : (natToBE v x).length = v := by
  simp [natToBE]

theorem natToBE_succ (v x : Nat) :
    natToBE (v + 1) x = byte (x / 256 ^ v) :: natToBE v x := by
  simp only [natToBE, List.range_succ_eq_map, List.map_cons, List.map_map]
  congr 1
  apply List.map_congr_left
  intro i _
  simp only [Function.comp]
  congr 3
  omega

theorem beToNat_natToBE (v x : Nat) : beToNat (natToBE v x) = x % 256 ^ v := by
  induction v with
  | zero => simp [natToBE, beToNat, Nat.mod_one]
  | succ v ih =>
    rw [natToBE_succ, beToNat_cons, natToBE_length, ih, Nat.mod_pow_succ]
    show x / 256 ^ v % 256 * 256 ^ v + x % 256 ^ v = _
    ring

/-! ## Strict iteration -/

theorem iterStrict_succ (f : Nat → Nat) (n x : Nat) :
    iterStrict f (n + 1) x = iterStrict f n (f x) := by
  rw [iterStrict]
  cases f x <;> rfl

theorem iterStrict_lt (f : Nat → Nat) (b : Nat) (hf : ∀ x, f x < b) (n x : Nat) (hx : x < b) :
    iterStrict f n x < b := by
  induction n generalizing x with
  | zero => exact hx
  | succ n ih => rw [iterStrict_succ]; exact ih _ (hf x)

/-! ## SHA-1 on 20-byte messages -/

set_option exponentiation.threshold 1024

theorem SHA1.pack_lt (a b c d e : Nat) (ha : a < 4294967296) (hb : b < 4294967296)
    (hc : c < 4294967296) (hd : d < 4294967296) (he : e < 4294967296) :
    SHA1.pack a b c d e < 2 ^ 160 := by
  simp only [SHA1.pack, Nat.add_eq, Nat.mul_eq]
  norm_num
  omega

theorem SHA1.compress_lt (h w : Nat) : SHA1.compress h w < 2 ^ 160 := by
  simp only [SHA1.compress, SHA1.finish]
  apply SHA1.pack_lt <;> exact Nat.mod_lt _ (by decide)

theorem SHA1.sumOf20_lt (x : Nat) : SHA1.sumOf20 x < 2 ^ 160 :=
  SHA1.compress_lt _ _

theorem SHA1.padded_natToBE (x : Nat) (hx : x < 2 ^ 160) :
    SHA1.padded (natToBE 20 x) = x * 2 ^ 352 + (2 ^ 351 + 160) := by
  have hb : beToNat (natToBE 20 x) = x := by
    rw [beToNat_natToBE]
    exact Nat.mod_eq_of_lt (by norm_num at hx ⊢; exact hx)
  have hz : SHA1.zeroPad 20 = 35 := rfl
  rw [SHA1.padded, natToBE_length, hb, hz, Nat.add_assoc]

/-- SHA-1 of the 20 bytes of a 160-bit number is one compression of one block. -/
theorem SHA1.sum_natToBE (x : Nat) (hx : x < 2 ^ 160) :
    SHA1.sum (natToBE 20 x) = natToBE 20 (SHA1.sumOf20 x) := by
  have hlt : x * 2 ^ 352 + (2 ^ 351 + 160) < 2 ^ 512 := by
    norm_num at hx ⊢
    omega
  have h1 : (20 + 9 + SHA1.zeroPad 20) / 64 = 1 := rfl
  have hblock : Nat.mod (Nat.shiftRight (x * 2 ^ 352 + (2 ^ 351 + 160)) (512 * 0))
      (Nat.pow 2 512) = x * 2 ^ 352 + (2 ^ 351 + 160) :=
    Nat.mod_eq_of_lt hlt
  have hlit : x * 2 ^ 352 + (2 ^ 351 + 160) = Nat.add (Nat.mul x (Nat.pow 2 352))
      4586997231980143023221641790604173881593129978336562247475177678773845752176969616140037106220251373109408 := by
    show x * 2 ^ 352 + (2 ^ 351 + 160) = x * 2 ^ 352 + _
    congr 1
  rw [SHA1.sum, natToBE_length, h1, SHA1.padded_natToBE x hx]
  show natToBE 20 (SHA1.compress SHA1.iv
    (Nat.mod (Nat.shiftRight (x * 2 ^ 352 + (2 ^ 351 + 160)) (512 * 0)) (Nat.pow 2 512))) = _
  rw [hblock, hlit]
  rfl

/-- The hash loop on SHA-1 digests is the strict iteration of the one-block
compression on 160-bit numbers. -/
theorem SHA1.hashLoop_natToBE (n x : Nat) (hx : x < 2 ^ 160) :
    hashLoop SHA1.sum n (natToBE 20 x) = natToBE 20 (iterStrict SHA1.sumOf20 n x) := by
  induction n generalizing x with
  | zero => rfl
  | succ n ih =>
    rw [hashLoop, SHA1.sum_natToBE x hx, ih _ (SHA1.sumOf20_lt x), iterStrict_succ]

/-! ## The leading-zero test vector of the PKCS#12 KDF -/

/-- Two rounds of step 5, written out. -/
theorem pkcs12Rounds_two (hash : List Byte → List Byte) (v : Nat) (c : Int)
    (D I : List Byte) :
    pkcs12Rounds hash v c D 2 I =
      hashLoop hash (c - 1).toNat (hash (D ++ I)) ++
        (hashLoop hash (c - 1).toNat
          (hash (D ++ pkcs12Update v I (hashLoop hash (c - 1).toNat (hash (D ++ I))))) ++
          []) :=
  rfl

/-- Round 1 of the test vector, first hash: SHA-1 of `D || I`. -/
theorem kat_first_hash_1 :
    SHA1.blocks 4
        (SHA1.padded (List.replicate 64 1 ++
          (fillWithRepeats [243, 126, 5, 181, 24, 50, 75, 75] 64 ++ fillWithRepeats [0, 0] 64)))
        SHA1.iv =
      578127729691255439413850500662110529975969421824 := by
  decide!

/-- Round 1 of the test vector: the 2047 further hashes. -/
theorem kat_chain_1 :
    iterStrict SHA1.sumOf20 2047 578127729691255439413850500662110529975969421824 =
      5516123924950511403214445833749545479282447808 := by
  decide!

/-- The state `I` after round 1 of the test vector. -/
theorem kat_update_1 :
    pkcs12Update 64
        (fillWithRepeats [243, 126, 5, 181, 24, 50, 75, 75] 64 ++ fillWithRepeats [0, 0] 64)
        (natToBE 20 5516123924950511403214445833749545479282447808) =
      [244, 117, 95, 180, 96, 3, 153, 28, 41, 227, 219, 73, 84, 230, 15, 239, 141, 163, 91, 117,
      25, 41, 165, 75, 59, 79, 83, 133, 78, 152, 32, 224, 48, 49, 202, 88, 178, 87, 161, 11,
      244, 117, 95, 180, 96, 3, 153, 28, 41, 227, 219, 73, 84, 230, 15, 239, 141, 163, 91, 117,
      25, 41, 165, 75, 0, 247, 89, 255, 71, 209, 77, 208, 54, 101, 213, 148, 60, 179, 196, 163,
      154, 37, 85, 192, 0, 247, 89, 255, 71, 209, 77, 208, 54, 101, 213, 148, 60, 179, 196,
      163, 154, 37, 85, 192, 0, 247, 89, 255, 71, 209, 77, 208, 54, 101, 213, 148, 60, 179,
      196, 163, 154, 37, 85, 192, 0, 247, 90, 0] := by
  decide!

/-- Round 2 of the test vector, first hash. -/
theorem kat_first_hash_2 :
    SHA1.blocks 4
        (SHA1.padded (List.replicate 64 1 ++
          [244, 117, 95, 180, 96, 3, 153, 28, 41, 227, 219, 73, 84, 230, 15, 239, 141, 163, 91, 117,
      25, 41, 165, 75, 59, 79, 83, 133, 78, 152, 32, 224, 48, 49, 202, 88, 178, 87, 161, 11,
      244, 117, 95, 180, 96, 3, 153, 28, 41, 227, 219, 73, 84, 230, 15, 239, 141, 163, 91, 117,
      25, 41, 165, 75, 0, 247, 89, 255, 71, 209, 77, 208, 54, 101, 213, 148, 60, 179, 196, 163,
      154, 37, 85, 192, 0, 247, 89, 255, 71, 209, 77, 208, 54, 101, 213, 148, 60, 179, 196,
      163, 154, 37, 85, 192, 0, 247, 89, 255, 71, 209, 77, 208, 54, 101, 213, 148, 60, 179,
      196, 163, 154, 37, 85, 192, 0, 247, 90, 0]))
        SHA1.iv =
      432536134997964575539661478176440133291486720239 := by
  decide!

/-- Round 2 of the test vector: the 2047 further hashes. -/
theorem kat_chain_2 :
    iterStrict SHA1.sumOf20 2047 432536134997964575539661478176440133291486720239 =
      245071851201768387492751217610836009108634024179 := by
  decide!

/-- SHA-1 followed by `n` further SHA-1, from the first chaining value. -/
theorem SHA1.hashLoop_sum (msg : List Byte) (n k x y : Nat)
    (hk : (msg.length + 9 + SHA1.zeroPad msg.length) / 64 = k)
    (hx : SHA1.blocks k (SHA1.padded msg) SHA1.iv = x) (hlt : x < 2 ^ 160)
    (hy : iterStrict SHA1.sumOf20 n x = y) :
    hashLoop SHA1.sum n (SHA1.sum msg) = natToBE 20 y := by
  rw [SHA1.sum, hk, hx, SHA1.hashLoop_natToBE n x hlt, hy]

/-- The test vector of `TestThatPBKDFHandlesLeadingZeros`. -/
theorem kat_leading_zero :
    PKCS12PBKDF SHA1.sum 20 64 [243, 126, 5, 181, 24, 50, 75, 75] [0, 0] 2048 1 24 =
      [0, 247, 89, 255, 71, 209, 77, 208, 54, 101, 213, 148, 60, 179, 196, 163, 154, 37, 85,
      192, 42, 237, 102, 225] := by
  have hc : ((2048 : Int) - 1).toNat = 2047 := rfl
  have a1 := SHA1.hashLoop_sum
    (List.replicate 64 1 ++
      (fillWithRepeats [243, 126, 5, 181, 24, 50, 75, 75] 64 ++ fillWithRepeats [0, 0] 64))
    2047 4 _ _ (by decide!) kat_first_hash_1 (by decide) kat_chain_1
  have a2 := SHA1.hashLoop_sum
    (List.replicate 64 1 ++
      [244, 117, 95, 180, 96, 3, 153, 28, 41, 227, 219, 73, 84, 230, 15, 239, 141, 163, 91, 117,
      25, 41, 165, 75, 59, 79, 83, 133, 78, 152, 32, 224, 48, 49, 202, 88, 178, 87, 161, 11,
      244, 117, 95, 180, 96, 3, 153, 28, 41, 227, 219, 73, 84, 230, 15, 239, 141, 163, 91, 117,
      25, 41, 165, 75, 0, 247, 89, 255, 71, 209, 77, 208, 54, 101, 213, 148, 60, 179, 196, 163,
      154, 37, 85, 192, 0, 247, 89, 255, 71, 209, 77, 208, 54, 101, 213, 148, 60, 179, 196,
      163, 154, 37, 85, 192, 0, 247, 89, 255, 71, 209, 77, 208, 54, 101, 213, 148, 60, 179,
      196, 163, 154, 37, 85, 192, 0, 247, 90, 0])
    2047 4 _ _ (by decide!) kat_first_hash_2 (by decide) kat_chain_2
  show (pkcs12Rounds SHA1.sum 64 2048 (List.replicate 64 1) 2
    (fillWithRepeats [243, 126, 5, 181, 24, 50, 75, 75] 64 ++ fillWithRepeats [0, 0] 64)).take 24 = _
  rw [pkcs12Rounds_two, hc, a1, kat_update_1, a2]
  decide

/-! ## The rounds of the PKCS#12 KDF -/

theorem concatBlocks_length (f : Nat → List Byte) (u n : Nat)
    (h : ∀ i, i < n → (f i).length = u) : (concatBlocks f n).length = n * u := by
  induction n with
  | zero => simp [concatBlocks]
  | succ n ih =>
    rw [concatBlocks, List.length_append, ih (fun i hi => h i (Nat.lt_succ_of_lt hi)),
      h n (Nat.lt_succ_self n), Nat.succ_mul]

theorem blockAt_concatBlocks (f : Nat → List Byte) (v n j : Nat)
    (h : ∀ i, i < n → (f i).length = v) (hj : j < n) :
    blockAt v (concatBlocks f n) j = f j := by
  induction n with
  | zero => omega
  | succ n ih =>
    have hlen := concatBlocks_length f v n (fun i hi => h i (Nat.lt_succ_of_lt hi))
    have hn := h n (Nat.lt_succ_self n)
    rw [concatBlocks, blockAt]
    rcases Nat.lt_succ_iff_lt_or_eq.mp hj with hlt | heq
    · have h1 : j * v + v ≤ n * v := by
        have : (j + 1) * v ≤ n * v := Nat.mul_le_mul_right v hlt
        rw [Nat.succ_mul] at this
        exact this
      rw [List.drop_append_of_le_length (by rw [hlen]; omega),
        List.take_append_of_le_length (by rw [List.length_drop, hlen]; omega)]
      exact ih (fun i hi => h i (Nat.lt_succ_of_lt hi)) hlt
    · rw [heq, List.drop_left' hlen, List.take_of_length_le (by rw [hn])]

theorem hashLoop_hash (hash : List Byte → List Byte) (c : Int) (hc : 1 ≤ c) (x : List Byte) :
    hashLoop hash (c - 1).toNat (hash x) = hashChain hash x c.toNat := by
  have h : c.toNat = (c - 1).toNat + 1 := by omega
  rw [hashLoop_eq_chain, hashChain_shift, h]

theorem hashChain_length (hash : List Byte → List Byte) (u : Nat)
    (hu : ∀ x : List Byte, (hash x).length = u) (n : Nat) (hn : 1 ≤ n) (d0 : List Byte) :
    (hashChain hash d0 n).length = u := by
  obtain ⟨m, rfl⟩ : ∃ m, n = m + 1 := ⟨n - 1, by omega⟩
  exact hu _

theorem pkcs12I_shift (hash : List Byte → List Byte) (v : Nat) (c : Int) (D I0 : List Byte)
    (i : Nat) :
    pkcs12I hash v c D I0 (i + 1) =
      pkcs12I hash v c D (pkcs12Update v I0 (hashChain hash (D ++ I0) c.toNat)) i := by
  induction i with
  | zero => rfl
  | succ i ih =>
    show pkcs12Update v (pkcs12I hash v c D I0 (i + 1))
      (hashChain hash (D ++ pkcs12I hash v c D I0 (i + 1)) c.toNat) = _
    rw [ih]
    rfl

/-- The rounds of the model are the blocks `A_0, A_1, ...` one after the other. -/
theorem pkcs12Rounds_eq (hash : List Byte → List Byte) (v : Nat) (c : Int) (hc : 1 ≤ c)
    (D : List Byte) (k : Nat) (I : List Byte) :
    pkcs12Rounds hash v c D k I = concatBlocks (pkcs12A hash v c D I) k := by
  induction k generalizing I with
  | zero => rfl
  | succ k ih =>
    rw [concatBlocks_succ_left, pkcs12Rounds]
    simp only [hashLoop_hash hash c hc]
    rw [ih]
    congr 1
    congr 1
    funext i
    simp only [pkcs12A, pkcs12I_shift]

theorem ceil_div_mul_ge (n u : Nat) (hu : 0 < u) : n ≤ (n + u - 1) / u * u := by
  have h := Nat.lt_mul_div_succ (n + u - 1) hu
  rw [Nat.mul_add, Nat.mul_one, Nat.mul_comm] at h
  omega

theorem ceil_div_le_one (n u : Nat) (h1 : 1 ≤ n) (h2 : n ≤ u) : (n + u - 1) / u = 1 := by
  have hu : 0 < u := by omega
  apply Nat.div_eq_of_lt_le <;> omega

theorem repeatTo_length (p : List Byte) (n : Nat) : (repeatTo p n).length = n := by
  simp [repeatTo]

theorem repeatTo_getD (p : List Byte) (n i : Nat) (hi : i < n) :
    (repeatTo p n).getD i 0 = p.getD (i % p.length) 0 := by
  simp [repeatTo, List.getD_eq_getElem?_getD, List.getElem?_map, List.getElem?_range hi]

theorem pkcs12Chunk_length (v : Nat) (Ij B : List Byte) : (pkcs12Chunk v Ij B).length = v :=
  natToBE_length _ _

theorem pkcs12Update_length (v : Nat) (I A : List Byte) (hdiv : I.length % v = 0) :
    (pkcs12Update v I A).length = I.length := by
  rw [pkcs12Update, concatBlocks_length _ v _ (fun i _ => pkcs12Chunk_length _ _ _)]
  have h := Nat.div_add_mod I.length v
  rw [hdiv, Nat.add_zero, Nat.mul_comm] at h
  exact h

theorem pkcs12I_length (hash : List Byte → List Byte) (v : Nat) (c : Int) (D I0 : List Byte)
    (hdiv : I0.length % v = 0) (i : Nat) : (pkcs12I hash v c D I0 i).length = I0.length := by
  induction i with
  | zero => rfl
  | succ i ih =>
    rw [pkcs12I, pkcs12Update_length v _ _ (by rw [ih]; exact hdiv), ih]

theorem fillWithRepeats_length (p : List Byte) (v : Nat) :
    (fillWithRepeats p v).length = v * ((p.length + v - 1) / v) :=
  repeatTo_length _ _

theorem SHA1.sum_length (msg : List Byte) : (SHA1.sum msg).length = 20 :=
  natToBE_length _ _

/-- C19. For a hash `H` with digest size `u > 0`, a block size `v > 0` and an
iteration count `c ≥ 1`, `PKCS12PBKDF(H, u, v, S, P, c, ID, n)` returns exactly
`n` bytes, the first `n` bytes of `A_0 || A_1 || ...` over `ceil(n / u)`
rounds, where `A_i = H^c(D || I_i)`, `D` is `v` bytes of value `ID`,
`I_0 = S' || P'` and `I_(i+1)` is `I_i` updated chunk-wise with `A_i`; for
`n ≤ u` the output is the `n`-byte prefix of `H^c(D || S' || P')`. `S'` (and
likewise `P'`) has the smallest multiple of `v` that is at least `len(S)` as
its length, byte `i` of it is byte `i mod len(S)` of `S`, and it is empty when
`S` is. -/
theorem PKCS12PBKDF_spec (hash : List Byte → List Byte) (u v : Nat)
    (hu : ∀ x : List Byte, (hash x).length = u) (hu0 : 0 < u) (hv : 0 < v)
    (S P : List Byte) (c : Int) (hc : 1 ≤ c) (ID : Byte) (n : Nat) :
    (PKCS12PBKDF hash u v S P c ID n).length = n ∧
    PKCS12PBKDF hash u v S P c ID n =
      (concatBlocks
        (fun i => hashChain hash
          (List.replicate v ID ++
            pkcs12I hash v c (List.replicate v ID)
              (fillWithRepeats S v ++ fillWithRepeats P v) i) c.toNat)
        ((n + u - 1) / u)).take n ∧
    (n ≤ u → PKCS12PBKDF hash u v S P c ID n =
      (hashChain hash (List.replicate v ID ++ (fillWithRepeats S v ++ fillWithRepeats P v))
        c.toNat).take n) ∧
    (∀ p : List Byte,
      (fillWithRepeats p v).length % v = 0 ∧ p.length ≤ (fillWithRepeats p v).length ∧
      (fillWithRepeats p v).length < p.length + v ∧
      (∀ i, i < (fillWithRepeats p v).length →
        (fillWithRepeats p v).getD i 0 = p.getD (i % p.length) 0) ∧
      (p = [] → fillWithRepeats p v = [])) := by
  have hcn : 1 ≤ c.toNat := by omega
  have hA : ∀ i, (pkcs12A hash v c (List.replicate v ID)
      (fillWithRepeats S v ++ fillWithRepeats P v) i).length = u :=
    fun i => hashChain_length hash u hu _ hcn _
  have heq : PKCS12PBKDF hash u v S P c ID n =
      (concatBlocks (pkcs12A hash v c (List.replicate v ID)
        (fillWithRepeats S v ++ fillWithRepeats P v)) ((n + u - 1) / u)).take n := by
    rw [PKCS12PBKDF, pkcs12Rounds_eq hash v c hc]
  refine ⟨?_, heq, ?_, ?_⟩
  · rw [heq, List.length_take, concatBlocks_length _ u _ (fun i _ => hA i)]
    exact Nat.min_eq_left (ceil_div_mul_ge n u hu0)
  · intro hn
    rw [heq]
    rcases Nat.eq_zero_or_pos n with h0 | hpos
    · rw [h0]; simp
    · rw [ceil_div_le_one n u hpos hn]
      simp [concatBlocks, pkcs12A, pkcs12I]
  · intro p
    have hlen := fillWithRepeats_length p v
    refine ⟨?_, ?_, ?_, ?_, ?_⟩
    · rw [hlen]; exact Nat.mul_mod_right _ _
    · rw [hlen, Nat.mul_comm]; exact ceil_div_mul_ge _ _ hv
    · rw [hlen]
      have := Nat.mul_div_le (p.length + v - 1) v
      omega
    · intro i hi
      exact repeatTo_getD p _ i (by rw [fillWithRepeats, repeatTo_length] at hi; exact hi)
    · intro hp
      rw [hp]
      apply List.eq_nil_of_length_eq_zero
      rw [fillWithRepeats_length, List.length_nil, Nat.zero_add, Nat.div_eq_of_lt (by omega),
        Nat.mul_zero]

/-- C19 at a concrete input: SHA-1 (`u = 20`, `v = 64`), salt `salt`, password
`password`, 2 iterations, `ID = 0`, `n = 20`: the output is `H^2(D || S' || P')`. -/
theorem PKCS12PBKDF_spec_witness :
    PKCS12PBKDF SHA1.sum 20 64 [115, 97, 108, 116] [112, 97, 115, 115, 119, 111, 114, 100]
        2 0 20 =
      (hashChain SHA1.sum (List.replicate 64 0 ++
        (fillWithRepeats [115, 97, 108, 116] 64 ++
          fillWithRepeats [112, 97, 115, 115, 119, 111, 114, 100] 64)) (2 : Int).toNat).take 20 :=
  (PKCS12PBKDF_spec SHA1.sum 20 64 SHA1.sum_length (by decide) (by decide)
    [115, 97, 108, 116] [112, 97, 115, 115, 119, 111, 114, 100] 2 (by decide) 0 20).2.2.1
    (by decide)

/-- One chunk keeps its width: `v` bytes whatever the sum is. -/
theorem blockAt_length (v : Nat) (l : List Byte) (j : Nat) (h : (j + 1) * v ≤ l.length) :
    (blockAt v l j).length = v := by
  rw [blockAt, List.length_take, List.length_drop]
  rw [Nat.succ_mul] at h
  omega

/-- C18. Every chunk update of the PKCS#12 KDF is fixed-width: the new chunk is
`(I_j + B + 1) mod 2^(8v)` on big-endian integers, written back on exactly `v`
bytes, leading zero bytes included; so in every round every chunk `I_j` has
`v` bytes and is the update of the chunk before. With SHA-1 (`u = 20`,
`v = 64`), salt `f37e05b518324b4b`, password `0000`, 2048 iterations, `ID = 1`
and `n = 24` the output is `00f759ff47d14dd03665d5943cb3c4a39a2555c02aed66e1`. -/
theorem pkcs12_fixed_width_update (v : Nat) :
    (∀ Ij B : List Byte,
      (pkcs12Chunk v Ij B).length = v ∧
      beToNat (pkcs12Chunk v Ij B) = (beToNat Ij + beToNat B + 1) % 2 ^ (8 * v)) ∧
    (∀ (hash : List Byte → List Byte) (c : Int) (D I0 : List Byte),
      I0.length % v = 0 → ∀ i j : Nat, j < I0.length / v →
      (blockAt v (pkcs12I hash v c D I0 i) j).length = v ∧
      blockAt v (pkcs12I hash v c D I0 (i + 1)) j =
        pkcs12Chunk v (blockAt v (pkcs12I hash v c D I0 i) j)
          (repeatTo (hashChain hash (D ++ pkcs12I hash v c D I0 i) c.toNat) v)) ∧
    PKCS12PBKDF SHA1.sum 20 64 [0xf3, 0x7e, 0x05, 0xb5, 0x18, 0x32, 0x4b, 0x4b] [0x00, 0x00]
        2048 1 24 =
      [0x00, 0xf7, 0x59, 0xff, 0x47, 0xd1, 0x4d, 0xd0, 0x36, 0x65, 0xd5, 0x94, 0x3c, 0xb3,
        0xc4, 0xa3, 0x9a, 0x25, 0x55, 0xc0, 0x2a, 0xed, 0x66, 0xe1] := by
  refine ⟨?_, ?_, kat_leading_zero⟩
  · intro Ij B
    refine ⟨pkcs12Chunk_length v Ij B, ?_⟩
    rw [pkcs12Chunk, beToNat_natToBE]
    have h : (256 : Nat) ^ v = 2 ^ (8 * v) := by
      rw [show (256 : Nat) = 2 ^ 8 from rfl, ← Nat.pow_mul]
    rw [h, Nat.mod_mod]
  · intro hash c D I0 hdiv i j hj
    have hlen := pkcs12I_length hash v c D I0 hdiv i
    have hq : I0.length / v * v = I0.length := by
      have h := Nat.div_add_mod I0.length v
      rw [hdiv, Nat.add_zero, Nat.mul_comm] at h
      exact h
    constructor
    · apply blockAt_length
      rw [hlen, ← hq]
      exact Nat.mul_le_mul_right v hj
    · rw [pkcs12I, pkcs12Update]
      exact blockAt_concatBlocks _ v _ j (fun i _ => pkcs12Chunk_length _ _ _)
        (by rw [hlen]; exact hj)

/-! ## A wrong password -/

/-- C14 refuted, with MD5 and DES as they are. Salt `01 .. 08`, one iteration,
password `password`: the suite encrypts `A secret` to
`ed1d5f7a158c0159 43cfd3b0156367dc` under the derived key and IV. With the
different password `wrong password 47`, `decryptPBE` on that ciphertext and
the same parameters returns no error but 15 bytes of plaintext, the last
decrypted byte being a well-formed padding of length 1. -/
theorem wrong_password_accepted :
    ([119, 114, 111, 110, 103, 32, 112, 97, 115, 115, 119, 111, 114, 100, 32, 52, 55] :
        List Byte) ≠ [112, 97, 115, 115, 119, 111, 114, 100] ∧
    md5Pkcs5PbeParams.DeriveKey md5DesEnv
        { Salt := [1, 2, 3, 4, 5, 6, 7, 8], Iterations := 1 }
        [112, 97, 115, 115, 119, 111, 114, 100] 8 =
      Except.ok (some [231, 176, 151, 30, 82, 202, 92, 200], none) ∧
    md5Pkcs5PbeParams.DeriveIV md5DesEnv
        { Salt := [1, 2, 3, 4, 5, 6, 7, 8], Iterations := 1 }
        [112, 97, 115, 115, 119, 111, 114, 100] 8 =
      Except.ok (some [208, 83, 159, 179, 65, 47, 99, 22], none) ∧
    (md5WithDESCBC md5DesEnv).Encrypt [231, 176, 151, 30, 82, 202, 92, 200]
        [208, 83, 159, 179, 65, 47, 99, 22] [65, 32, 115, 101, 99, 114, 101, 116] =
      Except.ok (some [237, 29, 95, 122, 21, 140, 1, 89, 67, 207, 211, 176, 21, 99, 103, 220],
        none) ∧
    decryptPBE md5DesEnv
        { EncryptionAlgorithm :=
            { Algorithm := [1, 2, 840, 113549, 1, 5, 3],
              Parameters :=
                { FullBytes := [48, 13, 4, 8, 1, 2, 3, 4, 5, 6, 7, 8, 2, 1, 1] } },
          EncryptedData :=
            [237, 29, 95, 122, 21, 140, 1, 89, 67, 207, 211, 176, 21, 99, 103, 220] }
        [119, 114, 111, 110, 103, 32, 112, 97, 115, 115, 119, 111, 114, 100, 32, 52, 55] =
      Except.ok (some [185, 8, 122, 157, 187, 199, 89, 58, 175, 109, 133, 231, 188, 16, 116],
        some (pbeKDFParameters.md5 { Salt := [1, 2, 3, 4, 5, 6, 7, 8], Iterations := 1 }),
        none) := by
  decide!

/-- The ciphertext that `Encrypt` returns is made of full blocks. -/
theorem Encrypt_full_blocks (c : cipherWithBlock) (block : Block) (key iv pt ct : List Byte)
    (hkey : c.newBlock key = Except.ok (Except.ok block))
    (hbs : 0 < block.blockSize) (hiv : iv.length = block.blockSize)
    (henc : c.Encrypt key iv pt = Except.ok (some ct, none)) :
    0 < ct.length ∧ ct.length % block.blockSize = 0 := by
  have hpl := padded_length block.blockSize pt.length hbs
  have hpad : (pt ++ List.replicate (block.blockSize - pt.length % block.blockSize)
      (byte (block.blockSize - pt.length % block.blockSize))).length =
      (pt.length / block.blockSize + 1) * block.blockSize := by
    rw [List.length_append, List.length_replicate]
    exact hpl
  have hctlen := encryptBlocks_length block _ iv _ hiv hpad
  simp only [cipherWithBlock.Encrypt, hkey, cbcEncrypt_eq block iv pt hbs hiv] at henc
  have hct := Option.some.inj (congrArg Prod.fst (Except.ok.inj henc))
  rw [← hct, hctlen]
  exact ⟨Nat.mul_pos (Nat.succ_pos _) hbs, Nat.mul_mod_left _ _⟩

/-- C14 as amended. Nothing but the padding check stands between a wrong
password and a plaintext. Let `ct` be the suite's `Encrypt` of a plaintext
under the key and IV derived from a password, and let `K'`, `IV'` be the key
and IV that the same parameters derive from another password `P'`, `D'` the CBC
decryption of `ct` under them and `p` the last byte of `D'`. Then `decryptPBE`
with `P'` returns the decryption-failed error exactly when `p = 0`,
`p > blockSize`, `p > len(D')` or the last `p` bytes of `D'` are not all `p`;
otherwise it returns `D'` without its last `p` bytes as the plaintext, with the
parameters and no error. -/
theorem wrong_password_padding_only (env : Env) (privKey : encryptedPrivateKeyInfo)
    (salt pt Q K IV P' Q' K' IV' : List Byte) (iter : Int) (p0 : pbeKDFParameters)
    (c : cipherWithBlock) (orig : Bool) (block block' : Block)
    (hsel : selectScheme env privKey.EncryptionAlgorithm.Algorithm = some (p0, c, orig))
    (hun : env.unmarshal privKey.EncryptionAlgorithm.Parameters.FullBytes =
      Except.ok (Except.ok (salt, iter)))
    (_hK : (p0.fill (salt, iter)).DeriveKey env Q c.KeySize = Except.ok (some K, none))
    (_hIV : (p0.fill (salt, iter)).DeriveIV env Q c.IVSize = Except.ok (some IV, none))
    (hnb : c.newBlock K = Except.ok (Except.ok block))
    (hiv : IV.length = block.blockSize) (hbs : 0 < block.blockSize)
    (henc : c.Encrypt K IV pt = Except.ok (some privKey.EncryptedData, none))
    (hP' : if orig = true then Q' = P'
      else env.bmpStringZeroTerminated P' = Except.ok (some Q', none))
    (hK' : (p0.fill (salt, iter)).DeriveKey env Q' c.KeySize = Except.ok (some K', none))
    (hIV' : (p0.fill (salt, iter)).DeriveIV env Q' c.IVSize = Except.ok (some IV', none))
    (hnb' : c.newBlock K' = Except.ok (Except.ok block'))
    (hiv' : IV'.length = block'.blockSize) (hbs' : block'.blockSize = block.blockSize) :
    (decryptPBE env privKey P' = Except.ok (none, none, some "pkcs8: decryption failed") ↔
      (lastByte (cbcDecryption block' IV' privKey.EncryptedData) = 0 ∨
        lastByte (cbcDecryption block' IV' privKey.EncryptedData) > block'.blockSize ∨
        lastByte (cbcDecryption block' IV' privKey.EncryptedData) >
          (cbcDecryption block' IV' privKey.EncryptedData).length ∨
        ¬ ∀ x ∈ (cbcDecryption block' IV' privKey.EncryptedData).drop
            ((cbcDecryption block' IV' privKey.EncryptedData).length -
              lastByte (cbcDecryption block' IV' privKey.EncryptedData)),
          x.val = lastByte (cbcDecryption block' IV' privKey.EncryptedData))) ∧
    (¬ (lastByte (cbcDecryption block' IV' privKey.EncryptedData) = 0 ∨
        lastByte (cbcDecryption block' IV' privKey.EncryptedData) > block'.blockSize ∨
        lastByte (cbcDecryption block' IV' privKey.EncryptedData) >
          (cbcDecryption block' IV' privKey.EncryptedData).length ∨
        ¬ ∀ x ∈ (cbcDecryption block' IV' privKey.EncryptedData).drop
            ((cbcDecryption block' IV' privKey.EncryptedData).length -
              lastByte (cbcDecryption block' IV' privKey.EncryptedData)),
          x.val = lastByte (cbcDecryption block' IV' privKey.EncryptedData)) →
      decryptPBE env privKey P' =
        Except.ok (some ((cbcDecryption block' IV' privKey.EncryptedData).take
          ((cbcDecryption block' IV' privKey.EncryptedData).length -
            lastByte (cbcDecryption block' IV' privKey.EncryptedData))),
          some (p0.fill (salt, iter)), none)) := by
  obtain ⟨hpos, hmul⟩ := Encrypt_full_blocks c block K IV pt _ hnb hbs hiv henc
  rw [← hbs'] at hmul
  have hspec := cbcDecrypt_spec block' IV' privKey.EncryptedData hiv' hpos hmul
  have htail : deriveAndDecrypt env (p0.fill (salt, iter)) c privKey Q' =
      match cbcDecrypt block' IV' privKey.EncryptedData with
      | Except.error e => Except.error e
      | Except.ok (_, some err) => Except.ok (none, none, some err)
      | Except.ok (pt, none) => Except.ok (pt, some (p0.fill (salt, iter)), none) :=
    deriveAndDecrypt_eq env _ c privKey Q' (some K') (some IV') block' hK' hIV' hnb'
  have hpbe : decryptPBE env privKey P' =
      deriveAndDecrypt env (p0.fill (salt, iter)) c privKey Q' := by
    simp only [decryptPBE, hsel]
    cases orig with
    | true =>
      simp only [if_true] at hP' ⊢
      rw [← hP', unmarshalAndDecrypt_ok env _ _ privKey Q' (salt, iter) hun]
    | false =>
      simp only [Bool.false_eq_true, if_false] at hP' ⊢
      simp only [hP', bytesOf]
      rw [unmarshalAndDecrypt_ok env _ _ privKey Q' (salt, iter) hun]
  rw [hpbe, htail, hspec]
  constructor
  · constructor
    · intro hfail
      by_contra hgood
      rw [if_neg hgood] at hfail
      have h2 := congrArg Prod.fst (Except.ok.inj hfail)
      simp at h2
    · intro hbad
      rw [if_pos hbad]
      rfl
  · intro hgood
    rw [if_neg hgood]

/-- C14 as amended, at the input of the counterexample: with the password
`wrong password 47` the padding check passes and 15 bytes are returned. -/
theorem wrong_password_padding_only_witness :
    decryptPBE md5DesEnv
        { EncryptionAlgorithm :=
            { Algorithm := [1, 2, 840, 113549, 1, 5, 3],
              Parameters :=
                { FullBytes := [48, 13, 4, 8, 1, 2, 3, 4, 5, 6, 7, 8, 2, 1, 1] } },
          EncryptedData :=
            [237, 29, 95, 122, 21, 140, 1, 89, 67, 207, 211, 176, 21, 99, 103, 220] }
        [119, 114, 111, 110, 103, 32, 112, 97, 115, 115, 119, 111, 114, 100, 32, 52, 55] =
      Except.ok (some [185, 8, 122, 157, 187, 199, 89, 58, 175, 109, 133, 231, 188, 16, 116],
        some (pbeKDFParameters.md5 { Salt := [1, 2, 3, 4, 5, 6, 7, 8], Iterations := 1 }),
        none) :=
  ((wrong_password_padding_only md5DesEnv
    { EncryptionAlgorithm :=
        { Algorithm := [1, 2, 840, 113549, 1, 5, 3],
          Parameters := { FullBytes := [48, 13, 4, 8, 1, 2, 3, 4, 5, 6, 7, 8, 2, 1, 1] } },
      EncryptedData :=
        [237, 29, 95, 122, 21, 140, 1, 89, 67, 207, 211, 176, 21, 99, 103, 220] }
    [1, 2, 3, 4, 5, 6, 7, 8] [65, 32, 115, 101, 99, 114, 101, 116]
    [112, 97, 115, 115, 119, 111, 114, 100] [231, 176, 151, 30, 82, 202, 92, 200]
    [208, 83, 159, 179, 65, 47, 99, 22]
    [119, 114, 111, 110, 103, 32, 112, 97, 115, 115, 119, 111, 114, 100, 32, 52, 55]
    [119, 114, 111, 110, 103, 32, 112, 97, 115, 115, 119, 111, 114, 100, 32, 52, 55]
    [108, 147, 102, 244, 68, 34, 101, 210] [96, 0, 158, 62, 48, 2, 129, 115] 1
    (pbeKDFParameters.md5 { Salt := [], Iterations := 0 }) (md5WithDESCBC md5DesEnv) true
    (DES.block (DES.subkeys (beToNat [231, 176, 151, 30, 82, 202, 92, 200])))
    (DES.block (DES.subkeys (beToNat [108, 147, 102, 244, 68, 34, 101, 210])))
    rfl (by decide!) (by decide!) (by decide!) rfl rfl (by decide) (by decide!) rfl
    (by decide!) (by decide!) rfl rfl rfl).2 (by decide!)).trans (by decide!)

/-! ## Padding is canonical -/

theorem encryptBlocks_decryptBlocks (b : Block)
    (hinv : ∀ x : List Byte, x.length = b.blockSize → b.encrypt (b.decrypt x) = x)
    (n : Nat) (iv src : List Byte)
    (hiv : iv.length = b.blockSize) (hsrc : src.length = n * b.blockSize) :
    encryptBlocks b n iv (decryptBlocks b n iv src) = src := by
  induction n generalizing iv src with
  | zero =>
    have : src = [] := by
      apply List.eq_nil_of_length_eq_zero; simpa using hsrc
    simp [encryptBlocks, this]
  | succ n ih =>
    have htake : (src.take b.blockSize).length = b.blockSize := by
      rw [List.length_take, hsrc, Nat.succ_mul]; omega
    have hd := b.decrypt_length _ htake
    have hx : (xorBytes (b.decrypt (src.take b.blockSize)) iv).length = b.blockSize := by
      rw [xorBytes_length _ _ (by rw [hd, hiv]), hd]
    have hdrop : (src.drop b.blockSize).length = n * b.blockSize := by
      rw [List.length_drop, hsrc, Nat.succ_mul]; omega
    simp only [encryptBlocks, decryptBlocks]
    rw [List.take_left' hx, List.drop_left' hx, xorBytes_cancel _ _ (by rw [hd, hiv]),
      hinv _ htake, ih _ _ htake hdrop, List.take_append_drop]

theorem unpadded_length (bs n p : Nat) (hn : 0 < n) (hp1 : 1 ≤ p) (hp2 : p ≤ bs) :
    (n * bs - p) / bs + 1 = n ∧ bs - (n * bs - p) % bs = p := by
  obtain ⟨m, rfl⟩ : ∃ m, n = m + 1 := ⟨n - 1, by omega⟩
  have hbs : 0 < bs := by omega
  have h : (m + 1) * bs - p = (bs - p) + bs * m := by
    rw [Nat.succ_mul, Nat.mul_comm m bs]; omega
  have hlt : bs - p < bs := by omega
  rw [h, Nat.add_mul_div_left _ _ hbs, Nat.add_mul_mod_self_left, Nat.div_eq_of_lt hlt,
    Nat.mod_eq_of_lt hlt]
  omega

/-- The ciphertext behind a successful `cbcDecrypt` is the `cbcEncrypt` of its
result, for a block cipher whose encryption inverts its decryption. -/
theorem cbcEncrypt_cbcDecrypt (block : Block) (iv ct : List Byte) (pt : Option (List Byte))
    (hinv : ∀ x : List Byte, x.length = block.blockSize → block.encrypt (block.decrypt x) = x)
    (hpos : 0 < ct.length) (hmul : ct.length % block.blockSize = 0)
    (h : cbcDecrypt block iv ct = Except.ok (pt, none)) :
    cbcEncrypt block iv (bytesOf pt) = Except.ok (some ct, none) := by
  obtain ⟨hiv, _, _⟩ := cbcDecrypt_returns block iv ct _ h
  obtain ⟨hbs, hn, hct⟩ := full_blocks block.blockSize ct.length hpos hmul
  rw [cbcDecrypt_full_blocks block iv ct _ hn hbs hiv hct] at h
  have hlen := decryptBlocks_length block _ iv ct hiv hct
  have hback := encryptBlocks_decryptBlocks block hinv _ iv ct hiv hct
  generalize decryptBlocks block (ct.length / block.blockSize) iv ct = D at h hlen hback
  split at h
  · have h2 := congrArg Prod.snd (Except.ok.inj h)
    simp at h2
  · rename_i hgood
    have hpt := congrArg Prod.fst (Except.ok.inj h)
    simp only at hpt
    have h0 : (D.getLastD 0).val ≠ 0 := fun hh => hgood (Or.inl hh)
    have h1 : (D.getLastD 0).val ≤ block.blockSize := by
      by_contra hh
      exact hgood (Or.inr (Or.inl (by omega)))
    have h2 : (D.getLastD 0).val ≤ D.length := by
      by_contra hh
      exact hgood (Or.inr (Or.inr (Or.inl (by omega))))
    have h3 : ∀ x ∈ D.drop (D.length - (D.getLastD 0).val), x.val = (D.getLastD 0).val := by
      by_contra hh
      exact hgood (Or.inr (Or.inr (Or.inr hh)))
    have htail := (tail_eq_replicate_iff D (D.getLastD 0) h2).mpr h3
    have hlenpt : (D.take (D.length - (D.getLastD 0).val)).length =
        ct.length / block.blockSize * block.blockSize - (D.getLastD 0).val := by
      rw [List.length_take, hlen]; omega
    obtain ⟨ha, hb⟩ := unpadded_length block.blockSize (ct.length / block.blockSize)
      (D.getLastD 0).val hn (by omega) h1
    rw [← hpt]
    show cbcEncrypt block iv (D.take (D.length - (D.getLastD 0).val)) = _
    rw [cbcEncrypt_eq block iv _ hbs hiv, hlenpt, ha, hb, ← htail, List.take_append_drop, hback]

/-- C21. Reverse round trip: for a block cipher of block size at most 255 whose
block encryption inverts its block decryption, every IV and every ciphertext
whose length is a positive multiple of the block size, if `cbcDecrypt` succeeds
with plaintext `pt` then `cbcEncrypt` of `pt` under the same block and IV
returns exactly that ciphertext; hence two accepted ciphertexts with the same
plaintext are equal. -/
theorem cbcDecrypt_canonical (block : Block) (iv : List Byte)
    (_hbs : block.blockSize ≤ 255)
    (hinv : ∀ x : List Byte, x.length = block.blockSize →
      block.encrypt (block.decrypt x) = x) :
    (∀ (ct : List Byte) (pt : Option (List Byte)),
      0 < ct.length → ct.length % block.blockSize = 0 →
      cbcDecrypt block iv ct = Except.ok (pt, none) →
      cbcEncrypt block iv (bytesOf pt) = Except.ok (some ct, none)) ∧
    (∀ (ct1 ct2 : List Byte) (pt : Option (List Byte)),
      0 < ct1.length → ct1.length % block.blockSize = 0 →
      0 < ct2.length → ct2.length % block.blockSize = 0 →
      cbcDecrypt block iv ct1 = Except.ok (pt, none) →
      cbcDecrypt block iv ct2 = Except.ok (pt, none) → ct1 = ct2) := by
  constructor
  · intro ct pt hpos hmul h
    exact cbcEncrypt_cbcDecrypt block iv ct pt hinv hpos hmul h
  · intro ct1 ct2 pt hpos1 hmul1 hpos2 hmul2 h1 h2
    have e1 := cbcEncrypt_cbcDecrypt block iv ct1 pt hinv hpos1 hmul1 h1
    have e2 := cbcEncrypt_cbcDecrypt block iv ct2 pt hinv hpos2 hmul2 h2
    rw [e1] at e2
    have h3 := congrArg Prod.fst (Except.ok.inj e2)
    exact Option.some.inj h3

theorem xorBlock_inv_right (bs : Nat) (k : Byte) (x : List Byte) :
    (xorBlock bs k).encrypt ((xorBlock bs k).decrypt x) = x :=
  xorBlock_inv bs k x

/-- C21 at a concrete input: one accepted 8-byte block with 5 bytes of padding
is the encryption of its 3-byte plaintext. -/
theorem cbcDecrypt_canonical_witness :
    cbcDecrypt (xorBlock 8 90) [1, 2, 3, 4, 5, 6, 7, 8] [26, 26, 26, 91, 90, 89, 88, 87] =
        Except.ok (some [65, 66, 67], none) ∧
      cbcEncrypt (xorBlock 8 90) [1, 2, 3, 4, 5, 6, 7, 8] [65, 66, 67] =
        Except.ok (some [26, 26, 26, 91, 90, 89, 88, 87], none) :=
  ⟨by decide,
    (cbcDecrypt_canonical (xorBlock 8 90) [1, 2, 3, 4, 5, 6, 7, 8] (by decide)
      (fun x _ => xorBlock_inv_right 8 90 x)).1 [26, 26, 26, 91, 90, 89, 88, 87]
      (some [65, 66, 67]) (by decide) (by decide) (by decide)⟩

/-! ## What `decryptPBE` returns beside an error -/

theorem cbcDecrypt_ok_some (block : Block) (iv ct : List Byte) (r : Option (List Byte))
    (h : cbcDecrypt block iv ct = Except.ok (r, none)) : r ≠ none := by
  obtain ⟨hiv, hpos, hmul⟩ := cbcDecrypt_returns block iv ct _ h
  rw [cbcDecrypt_spec block iv ct hiv hpos hmul] at h
  split at h
  · have hb := congrArg Prod.snd (Except.ok.inj h)
    simp at hb
  · have ha := congrArg Prod.fst (Except.ok.inj h)
    simp only at ha
    rw [← ha]
    simp

theorem Decrypt_ok_some (c : cipherWithBlock) (key iv ct : List Byte) (r : Option (List Byte))
    (h : c.Decrypt key iv ct = Except.ok (r, none)) : r ≠ none := by
  simp only [cipherWithBlock.Decrypt] at h
  split at h
  · simp at h
  · have hb := congrArg Prod.snd (Except.ok.inj h)
    simp at hb
  · exact cbcDecrypt_ok_some _ _ _ _ h

theorem deriveAndDecrypt_atomic (env : Env) (params : pbeKDFParameters) (c : cipherWithBlock)
    (privKey : encryptedPrivateKeyInfo) (password : List Byte)
    (pt : Option (List Byte)) (k : Option pbeKDFParameters) (err : Option String)
    (h : deriveAndDecrypt env params c privKey password = Except.ok (pt, k, err)) :
    (err ≠ none → pt = none ∧ k = none) ∧ (err = none → pt ≠ none ∧ k ≠ none) := by
  simp only [deriveAndDecrypt] at h
  split at h
  · simp at h
  · simp only [Except.ok.injEq, Prod.mk.injEq] at h
    obtain ⟨h1, h2, h3⟩ := h
    subst h1 h2 h3
    simp
  · split at h
    · simp at h
    · simp only [Except.ok.injEq, Prod.mk.injEq] at h
      obtain ⟨h1, h2, h3⟩ := h
      subst h1 h2 h3
      simp
    · split at h
      · simp at h
      · simp only [Except.ok.injEq, Prod.mk.injEq] at h
        obtain ⟨h1, h2, h3⟩ := h
        subst h1 h2 h3
        simp
      · rename_i decryptedKey hd
        simp only [Except.ok.injEq, Prod.mk.injEq] at h
        obtain ⟨h1, h2, h3⟩ := h
        subst h1 h2 h3
        have := Decrypt_ok_some _ _ _ _ _ hd
        simp [this]

theorem unmarshalAndDecrypt_atomic (env : Env) (params : pbeKDFParameters)
    (c : cipherWithBlock) (privKey : encryptedPrivateKeyInfo) (password : List Byte)
    (pt : Option (List Byte)) (k : Option pbeKDFParameters) (err : Option String)
    (h : unmarshalAndDecrypt env params c privKey password = Except.ok (pt, k, err)) :
    (err ≠ none → pt = none ∧ k = none) ∧ (err = none → pt ≠ none ∧ k ≠ none) := by
  simp only [unmarshalAndDecrypt] at h
  split at h
  · simp at h
  · simp only [Except.ok.injEq, Prod.mk.injEq] at h
    obtain ⟨h1, h2, h3⟩ := h
    subst h1 h2 h3
    simp
  · exact deriveAndDecrypt_atomic _ _ _ _ _ _ _ _ h

/-- C22. Every return of `decryptPBE` is atomic: whenever it returns a non-nil
error, whichever step made it and even if the parameters had been decoded,
the returned plaintext is nil and the returned KDF parameters are nil; whenever
the error is nil, a plaintext and the parameters are both returned. -/
theorem decryptPBE_error_atomic (env : Env) (privKey : encryptedPrivateKeyInfo)
    (password : List Byte) (pt : Option (List Byte)) (params : Option pbeKDFParameters)
    (err : Option String)
    (h : decryptPBE env privKey password = Except.ok (pt, params, err)) :
    (err ≠ none → pt = none ∧ params = none) ∧
    (err = none → pt ≠ none ∧ params ≠ none) := by
  simp only [decryptPBE] at h
  split at h
  · simp only [Except.ok.injEq, Prod.mk.injEq] at h
    obtain ⟨h1, h2, h3⟩ := h
    subst h1 h2 h3
    simp
  · split at h
    · exact unmarshalAndDecrypt_atomic _ _ _ _ _ _ _ _ h
    · split at h
      · simp at h
      · simp only [Except.ok.injEq, Prod.mk.injEq] at h
        obtain ⟨h1, h2, h3⟩ := h
        subst h1 h2 h3
        simp
      · exact unmarshalAndDecrypt_atomic _ _ _ _ _ _ _ _ h

/-- C22 at concrete inputs under the MD5 OID with the stand-in collaborators:
a ciphertext whose padding check fails after the parameters were decoded comes
back with nil plaintext and nil parameters; the ciphertext with good padding
comes back with both. -/
theorem decryptPBE_error_atomic_witness :
    stubEnv.unmarshal [2, 1, 1] = Except.ok (Except.ok ([1, 1], 2)) ∧
    decryptPBE stubEnv
        { EncryptionAlgorithm := { Algorithm := [1, 2, 840, 113549, 1, 5, 3],
                                   Parameters := { FullBytes := [2, 1, 1] } },
          EncryptedData := [153, 165, 181, 192, 209, 230, 247, 5] }
        [1, 2] = Except.ok (none, none, some "pkcs8: decryption failed") ∧
    ((some "pkcs8: decryption failed" ≠ none →
        (none : Option (List Byte)) = none ∧ (none : Option pbeKDFParameters) = none) ∧
      (some "pkcs8: decryption failed" = none →
        (none : Option (List Byte)) ≠ none ∧ (none : Option pbeKDFParameters) ≠ none)) ∧
    decryptPBE stubEnv
        { EncryptionAlgorithm := { Algorithm := [1, 2, 840, 113549, 1, 5, 3],
                                   Parameters := { FullBytes := [2, 1, 1] } },
          EncryptedData := [153, 165, 181, 192, 209, 230, 247, 4] }
        [1, 2] =
      Except.ok (some [1, 2, 3],
        some (pbeKDFParameters.md5 { Salt := [1, 1], Iterations := 2 }), none) ∧
    ((none : Option String) = none →
      some ([1, 2, 3] : List Byte) ≠ none ∧
        some (pbeKDFParameters.md5 { Salt := [1, 1], Iterations := 2 }) ≠ none) :=
  ⟨rfl, by decide,
    decryptPBE_error_atomic stubEnv
      { EncryptionAlgorithm := { Algorithm := [1, 2, 840, 113549, 1, 5, 3],
                                 Parameters := { FullBytes := [2, 1, 1] } },
        EncryptedData := [153, 165, 181, 192, 209, 230, 247, 5] }
      [1, 2] none none (some "pkcs8: decryption failed") (by decide),
    by decide,
    (decryptPBE_error_atomic stubEnv
      { EncryptionAlgorithm := { Algorithm := [1, 2, 840, 113549, 1, 5, 3],
                                 Parameters := { FullBytes := [2, 1, 1] } },
        EncryptedData := [153, 165, 181, 192, 209, 230, 247, 4] }
      [1, 2] (some [1, 2, 3])
      (some (pbeKDFParameters.md5 { Salt := [1, 1], Iterations := 2 })) none (by decide)).2⟩

/-! ## PBKDF1 sees only the concatenation of password and salt -/

/-- C23. `PKCS5PBKDF1` depends on password and salt only through their
concatenation: for every hash, iteration count and size, two pairs with
`password1 ++ salt1 = password2 ++ salt2` give the same outcome; so the MD5
scheme derives the same key and the same IV for both pairs. -/
theorem PKCS5PBKDF1_concat_only (hash : List Byte → List Byte) (r size : Int)
    (password1 salt1 password2 salt2 : List Byte)
    (h : password1 ++ salt1 = password2 ++ salt2) :
    PKCS5PBKDF1 hash salt1 password1 r size = PKCS5PBKDF1 hash salt2 password2 r size ∧
    ∀ (env : Env) (keySize ivSize : Int),
      md5Pkcs5PbeParams.DeriveKey env { Salt := salt1, Iterations := r } password1 keySize =
        md5Pkcs5PbeParams.DeriveKey env { Salt := salt2, Iterations := r } password2 keySize ∧
      md5Pkcs5PbeParams.DeriveIV env { Salt := salt1, Iterations := r } password1 ivSize =
        md5Pkcs5PbeParams.DeriveIV env { Salt := salt2, Iterations := r } password2 ivSize := by
  have key : ∀ (f : List Byte → List Byte) (n s : Int),
      PKCS5PBKDF1 f salt1 password1 n s = PKCS5PBKDF1 f salt2 password2 n s := by
    intro f n s
    simp only [PKCS5PBKDF1, h]
  refine ⟨key hash r size, ?_⟩
  intro env keySize ivSize
  constructor
  · simp only [md5Pkcs5PbeParams.DeriveKey, md5Pkcs5PbeParams.pbkdf, key]
  · simp only [md5Pkcs5PbeParams.DeriveIV, md5Pkcs5PbeParams.pbkdf, key]

/-- C23 at a concrete input, with MD5 itself and one iteration: password `ab`
with salt `c` and password `a` with salt `bc` derive the same key, the first
eight bytes of the MD5 digest of `abc`, and the same IV, the last eight. -/
theorem PKCS5PBKDF1_concat_only_witness :
    md5Pkcs5PbeParams.DeriveKey md5DesEnv { Salt := [98, 99], Iterations := 1 } [97] 8 =
        Except.ok (some [144, 1, 80, 152, 60, 210, 79, 176], none) ∧
      md5Pkcs5PbeParams.DeriveIV md5DesEnv { Salt := [98, 99], Iterations := 1 } [97] 8 =
        Except.ok (some [214, 150, 63, 125, 40, 225, 127, 114], none) ∧
      md5Pkcs5PbeParams.DeriveKey md5DesEnv { Salt := [99], Iterations := 1 } [97, 98] 8 =
        md5Pkcs5PbeParams.DeriveKey md5DesEnv { Salt := [98, 99], Iterations := 1 } [97] 8 ∧
      md5Pkcs5PbeParams.DeriveIV md5DesEnv { Salt := [99], Iterations := 1 } [97, 98] 8 =
        md5Pkcs5PbeParams.DeriveIV md5DesEnv { Salt := [98, 99], Iterations := 1 } [97] 8 :=
  ⟨by decide!, by decide!,
    (PKCS5PBKDF1_concat_only (Md5Sum md5DesEnv) 1 16 [97, 98] [99] [97] [98, 99] rfl).2
      md5DesEnv 8 8⟩

/-! ## `Encrypt` and `Decrypt` of a suite -/

theorem cbcEncrypt_no_error (block : Block) (iv pt : List Byte) (r : Option (List Byte))
    (e : String) : cbcEncrypt block iv pt ≠ Except.ok (r, some e) := by
  intro h
  simp only [cbcEncrypt] at h
  split at h
  · simp at h
  · split at h
    · simp at h
    · split at h
      · simp at h
      · simp at h

/-- C24. `Encrypt` and `Decrypt` of a suite fail exactly when the block-cipher
constructor rejects the key or, for `Decrypt`, the padding check fails. If
`newBlock(key)` returns an error, both return that error with a nil result,
whatever the IV and the data are (also where the CBC code would panic on them);
if `newBlock(key)` returns a block, `Encrypt` is `cbcEncrypt` and `Decrypt` is
`cbcDecrypt` on that block, unchanged. `Encrypt` returns an error only in the
first case; `Decrypt` returns an error only in the first case or when, on a
ciphertext of full blocks, the last byte `p` of the CBC decryption `D` is 0,
exceeds the block size or `len(D)`, or the last `p` bytes of `D` are not all `p`. -/
theorem Encrypt_Decrypt_follow_newBlock (c : cipherWithBlock) (key iv pt ct : List Byte) :
    (∀ err : String, c.newBlock key = Except.ok (Except.error err) →
      c.Encrypt key iv pt = Except.ok (none, some err) ∧
      c.Decrypt key iv ct = Except.ok (none, some err)) ∧
    (∀ block : Block, c.newBlock key = Except.ok (Except.ok block) →
      c.Encrypt key iv pt = cbcEncrypt block iv pt ∧
      c.Decrypt key iv ct = cbcDecrypt block iv ct) ∧
    (∀ (r : Option (List Byte)) (e : String),
      c.Encrypt key iv pt = Except.ok (r, some e) ↔
        c.newBlock key = Except.ok (Except.error e) ∧ r = none) ∧
    (∀ (r : Option (List Byte)) (e : String),
      c.Decrypt key iv ct = Except.ok (r, some e) ↔
        (c.newBlock key = Except.ok (Except.error e) ∧ r = none) ∨
        (∃ block : Block, c.newBlock key = Except.ok (Except.ok block) ∧
          r = none ∧ e = errDecryptionFailed ∧
          iv.length = block.blockSize ∧ 0 < ct.length ∧ ct.length % block.blockSize = 0 ∧
          (lastByte (cbcDecryption block iv ct) = 0 ∨
            lastByte (cbcDecryption block iv ct) > block.blockSize ∨
            lastByte (cbcDecryption block iv ct) > (cbcDecryption block iv ct).length ∨
            ¬ ∀ x ∈ (cbcDecryption block iv ct).drop
                ((cbcDecryption block iv ct).length - lastByte (cbcDecryption block iv ct)),
              x.val = lastByte (cbcDecryption block iv ct)))) := by
  refine ⟨?_, ?_, ?_, ?_⟩
  · intro err hnb
    simp only [cipherWithBlock.Encrypt, cipherWithBlock.Decrypt, hnb, and_self]
  · intro block hnb
    simp only [cipherWithBlock.Encrypt, cipherWithBlock.Decrypt, hnb, and_self]
  · intro r e
    constructor
    · intro h
      simp only [cipherWithBlock.Encrypt] at h
      split at h
      · simp at h
      · rename_i err hnb
        simp only [Except.ok.injEq, Prod.mk.injEq, Option.some.injEq] at h
        rw [hnb, h.2]
        exact ⟨rfl, h.1.symm⟩
      · exact absurd h (cbcEncrypt_no_error _ _ _ _ _)
    · rintro ⟨hnb, rfl⟩
      simp only [cipherWithBlock.Encrypt, hnb]
  · intro r e
    constructor
    · intro h
      simp only [cipherWithBlock.Decrypt] at h
      split at h
      · simp at h
      · rename_i err hnb
        simp only [Except.ok.injEq, Prod.mk.injEq, Option.some.injEq] at h
        left
        rw [hnb, h.2]
        exact ⟨rfl, h.1.symm⟩
      · rename_i block hnb
        right
        obtain ⟨hiv, hpos, hmul⟩ := cbcDecrypt_returns block iv ct _ h
        obtain ⟨hr, he⟩ := cbcDecrypt_error_eq block iv ct r e h
        refine ⟨block, hnb, hr, he, hiv, hpos, hmul, ?_⟩
        by_contra hgood
        rw [cbcDecrypt_spec block iv ct hiv hpos hmul, if_neg hgood] at h
        have h2 := congrArg Prod.snd (Except.ok.inj h)
        simp at h2
    · rintro (⟨hnb, rfl⟩ | ⟨block, hnb, rfl, rfl, hiv, hpos, hmul, hbad⟩)
      · simp only [cipherWithBlock.Decrypt, hnb]
      · simp only [cipherWithBlock.Decrypt, hnb]
        rw [cbcDecrypt_spec block iv ct hiv hpos hmul, if_pos hbad]

/-! ## The length check of `cbcDecrypt` -/

/-- Forgetting the `return` statement gives `cbcDecrypt` back. -/
theorem cbcDecryptTraced_fst (block : Block) (iv ct : List Byte) :
    Except.map Prod.fst (cbcDecryptTraced block iv ct) = cbcDecrypt block iv ct := by
  simp only [cbcDecryptTraced, cbcDecrypt]
  split
  · rfl
  · split
    · rfl
    · split
      · rfl
      · split
        · rfl
        · split
          · rfl
          · split
            · rfl
            · rfl

theorem psLen_le_length (block : Block) (iv ct : List Byte) (mode : Block × List Byte)
    (plaintext : List Byte) (last : Byte)
    (hpos : 0 < ct.length) (hmul : ct.length % block.blockSize = 0)
    (hmode : newCBC block iv = Except.ok mode)
    (hD : decrypterCryptBlocks mode ct = Except.ok plaintext)
    (hcheck : ¬ (last.val = 0 ∨ last.val > block.blockSize)) :
    last.val ≤ plaintext.length := by
  obtain ⟨hbs, hn, hct⟩ := full_blocks block.blockSize ct.length hpos hmul
  have hiv : iv.length = block.blockSize := by
    by_contra hne
    simp [newCBC, hne] at hmode
  have hm : mode = (block, iv) := by
    simp only [newCBC, hiv, ne_eq, not_true_eq_false, if_false, Except.ok.injEq] at hmode
    exact hmode.symm
  rw [hm, cbcDecrypt_crypt block iv ct _ hbs hct] at hD
  have hlen := decryptBlocks_length block _ iv ct hiv hct
  rw [Except.ok.inj hD] at hlen
  have h1 : block.blockSize ≤ ct.length / block.blockSize * block.blockSize :=
    Nat.le_mul_of_pos_left _ hn
  rw [hlen]
  omega

/-- C25. In `cbcDecrypt` the check `len(plaintext) < psLen` is unreachable on a
ciphertext whose length is a positive multiple of the block size: once the
check `psLen == 0 || psLen > block.BlockSize()` has passed, `psLen` is at most
`len(plaintext)`, so the slice `plaintext[len(plaintext)-psLen:]` is in range,
and no run of `cbcDecrypt` leaves through the second failure branch. -/
theorem length_check_unreachable (block : Block) (iv ct : List Byte)
    (hpos : 0 < ct.length) (hmul : ct.length % block.blockSize = 0) :
    (∀ (mode : Block × List Byte) (plaintext : List Byte) (last : Byte),
      newCBC block iv = Except.ok mode →
      decrypterCryptBlocks mode ct = Except.ok plaintext →
      plaintext.getLast? = some last →
      ¬ (last.val = 0 ∨ last.val > block.blockSize) →
      ¬ (plaintext.length < last.val) ∧
        0 ≤ (plaintext.length : Int) - last.val ∧
        (plaintext.length : Int) - last.val ≤ plaintext.length) ∧
    (∀ r : BytesErr, cbcDecryptTraced block iv ct ≠ Except.ok (r, Return.plaintextShort)) ∧
    Except.map Prod.fst (cbcDecryptTraced block iv ct) = cbcDecrypt block iv ct := by
  refine ⟨?_, ?_, cbcDecryptTraced_fst block iv ct⟩
  · intro mode plaintext last hmode hD _ hcheck
    have h := psLen_le_length block iv ct mode plaintext last hpos hmul hmode hD hcheck
    omega
  · intro r h
    simp only [cbcDecryptTraced] at h
    split at h
    · simp at h
    · rename_i mode hmode
      split at h
      · simp at h
      · rename_i plaintext hD
        split at h
        · simp at h
        · rename_i last hlast
          split at h
          · simp at h
          · rename_i hcheck
            have hle := psLen_le_length block iv ct mode plaintext last hpos hmul hmode hD
              hcheck
            split at h
            · omega
            · split at h
              · simp at h
              · simp at h

/-- C25 at a concrete input: an 8-byte block whose decryption ends in 5 passes
the first check with `psLen = 5` and leaves through the final `return`. -/
theorem length_check_unreachable_witness :
    cbcDecryptTraced (xorBlock 8 90) [1, 2, 3, 4, 5, 6, 7, 8]
        [26, 26, 26, 91, 90, 89, 88, 87] =
      Except.ok ((some [65, 66, 67], none), Return.plaintext) ∧
    cbcDecryptTraced (xorBlock 8 90) [1, 2, 3, 4, 5, 6, 7, 8]
        [26, 26, 26, 91, 90, 89, 88, 87] ≠
      Except.ok ((none, some errDecryptionFailed), Return.plaintextShort) :=
  ⟨by decide,
    (length_check_unreachable (xorBlock 8 90) [1, 2, 3, 4, 5, 6, 7, 8]
      [26, 26, 26, 91, 90, 89, 88, 87] (by decide) (by decide)).2.1
      (none, some errDecryptionFailed)⟩

/-! ## DES decryption inverts DES encryption -/

theorem DES.foldl_bits (b : Nat → Nat) (T : List Nat) (acc : Nat) :
    T.foldl (fun r p => 2 * r + b p) acc =
      acc * 2 ^ T.length + T.foldl (fun r p => 2 * r + b p) 0 := by
  induction T generalizing acc with
  | nil => simp
  | cons p T ih =>
    simp only [List.foldl_cons, List.length_cons]
    rw [ih, ih (2 * 0 + b p)]
    ring

theorem DES.foldl_bits_snoc (b : Nat → Nat) (T : List Nat) (p : Nat) :
    (T ++ [p]).foldl (fun r p => 2 * r + b p) 0 =
      2 * T.foldl (fun r p => 2 * r + b p) 0 + b p := by
  rw [List.foldl_append]
  rfl

theorem DES.foldl_bits_lt (b : Nat → Nat) (hb : ∀ p, b p < 2) (T : List Nat) :
    T.foldl (fun r p => 2 * r + b p) 0 < 2 ^ T.length := by
  induction T using List.reverseRecOn with
  | nil => simp
  | append_singleton T p ih =>
    rw [DES.foldl_bits_snoc, List.length_append, List.length_singleton, pow_succ]
    have := hb p
    omega

theorem DES.permute_lt (x width : Nat) (table : List Nat) :
    DES.permute x width table < 2 ^ table.length :=
  DES.foldl_bits_lt (fun p => (x >>> (width - p)) % 2) (fun _ => Nat.mod_lt _ (by decide)) table

/-- Bit `q` (counted from 1 at the most significant of `len(T)` bits) of the
number built from the table `T` is the bit picked by entry `q` of `T`. -/
theorem DES.foldl_bits_bit (b : Nat → Nat) (hb : ∀ p, b p < 2) (T : List Nat) (q : Nat)
    (hq1 : 1 ≤ q) (hq2 : q ≤ T.length) :
    (T.foldl (fun r p => 2 * r + b p) 0 >>> (T.length - q)) % 2 = b (T.getD (q - 1) 0) := by
  induction T using List.reverseRecOn with
  | nil => simp at hq2; omega
  | append_singleton T p ih =>
    rw [DES.foldl_bits_snoc, List.length_append, List.length_singleton]
    rw [List.length_append, List.length_singleton] at hq2
    have hbp := hb p
    rcases Nat.eq_or_lt_of_le hq2 with h | h
    · have h1 : T.length + 1 - q = 0 := by omega
      have h2 : q - 1 = T.length := by omega
      rw [h1, h2, Nat.shiftRight_zero, List.getD_append_right _ _ _ _ (Nat.le_refl _)]
      simp only [Nat.sub_self, List.getD_cons_zero]
      omega
    · have hq3 : q ≤ T.length := by omega
      have h1 : T.length + 1 - q = (T.length - q) + 1 := by omega
      rw [h1, Nat.shiftRight_succ_inside, List.getD_append _ _ _ _ (by omega)]
      have h2 : (2 * T.foldl (fun r p => 2 * r + b p) 0 + b p) / 2 =
          T.foldl (fun r p => 2 * r + b p) 0 := by omega
      rw [h2]
      exact ih hq3

theorem DES.permute_permute (y w : Nat) (T1 T2 : List Nat) (hlen : T1.length = w)
    (hrange : ∀ p ∈ T2, 1 ≤ p ∧ p ≤ w) :
    DES.permute (DES.permute y w T1) w T2 =
      DES.permute y w (T2.map (fun p => T1.getD (p - 1) 0)) := by
  simp only [DES.permute, List.foldl_map]
  apply List.foldl_ext
  intro r p hp
  obtain ⟨h1, h2⟩ := hrange p hp
  have := DES.foldl_bits_bit (fun p => (y >>> (w - p)) % 2) (fun _ => Nat.mod_lt _ (by decide))
    T1 p h1 (by rw [hlen]; exact h2)
  rw [hlen] at this
  simp only [this]

theorem DES.permute_range (y w n : Nat) (hn : n ≤ w) (hy : y < 2 ^ w) :
    DES.permute y w ((List.range n).map (fun i => i + 1)) = y >>> (w - n) := by
  induction n with
  | zero =>
    simp only [List.range_zero, List.map_nil, DES.permute, List.foldl_nil, Nat.sub_zero]
    rw [Nat.shiftRight_eq_div_pow, Nat.div_eq_of_lt hy]
  | succ n ih =>
    have ih2 := ih (by omega)
    simp only [DES.permute] at ih2 ⊢
    rw [List.range_succ, List.map_append, List.map_singleton, DES.foldl_bits_snoc
      (fun p => (y >>> (w - p)) % 2), ih2]
    have h1 : w - n = (w - (n + 1)) + 1 := by omega
    rw [h1, Nat.shiftRight_succ]
    omega

theorem DES.permute_id (y w : Nat) (hy : y < 2 ^ w) :
    DES.permute y w ((List.range w).map (fun i => i + 1)) = y := by
  rw [DES.permute_range y w w (Nat.le_refl _) hy, Nat.sub_self, Nat.shiftRight_zero]

theorem DES.IP_FP (y : Nat) (hy : y < 2 ^ 64) :
    DES.permute (DES.permute y 64 DES.FP) 64 DES.IP = y := by
  rw [DES.permute_permute y 64 DES.FP DES.IP rfl (by decide)]
  exact DES.permute_id y 64 hy

theorem DES.FP_IP (y : Nat) (hy : y < 2 ^ 64) :
    DES.permute (DES.permute y 64 DES.IP) 64 DES.FP = y := by
  rw [DES.permute_permute y 64 DES.IP DES.FP rfl (by decide)]
  exact DES.permute_id y 64 hy

theorem DES.feistel_lt (r k : Nat) : DES.feistel r k < 2 ^ 32 :=
  DES.permute_lt _ 32 DES.P

/-- The rounds under the reversed subkeys undo the rounds: a Feistel network. -/
theorem DES.rounds_reverse (ks : List Nat) (l r : Nat) (hl : l < 2 ^ 32) (hr : r < 2 ^ 32) :
    ∃ L R : Nat, L < 2 ^ 32 ∧ R < 2 ^ 32 ∧ DES.rounds ks l r = R * 4294967296 + L ∧
      ∀ ks2 : List Nat, DES.rounds (ks.reverse ++ ks2) R L = DES.rounds ks2 r l := by
  induction ks generalizing l r with
  | nil => exact ⟨l, r, hl, hr, rfl, fun _ => rfl⟩
  | cons k ks ih =>
    have hx : l ^^^ DES.feistel r k < 2 ^ 32 := Nat.xor_lt_two_pow hl (DES.feistel_lt r k)
    obtain ⟨L, R, hL, hR, h1, h2⟩ := ih r (l ^^^ DES.feistel r k) hr hx
    refine ⟨L, R, hL, hR, h1, ?_⟩
    intro ks2
    rw [List.reverse_cons, List.append_assoc, h2]
    show DES.rounds ks2 r ((l ^^^ DES.feistel r k) ^^^ DES.feistel r k) = _
    rw [Nat.xor_cancel_right]

theorem DES.crypt_lt (ks : List Nat) (x : Nat) : DES.crypt ks x < 2 ^ 64 :=
  DES.permute_lt _ 64 DES.FP

theorem DES.crypt_reverse (ks : List Nat) (x : Nat) (hx : x < 2 ^ 64) :
    DES.crypt ks.reverse (DES.crypt ks x) = x := by
  have hip : DES.permute x 64 DES.IP < 2 ^ 64 := DES.permute_lt x 64 DES.IP
  have hl : DES.permute x 64 DES.IP / 4294967296 < 2 ^ 32 := by omega
  have hr : DES.permute x 64 DES.IP % 4294967296 < 2 ^ 32 := by omega
  obtain ⟨L, R, hL, hR, h1, h2⟩ := DES.rounds_reverse ks _ _ hl hr
  have h3 := h2 []
  rw [List.append_nil] at h3
  have hY : R * 4294967296 + L < 2 ^ 64 := by omega
  simp only [DES.crypt] at *
  rw [h1, DES.IP_FP _ hY]
  have hdiv : (R * 4294967296 + L) / 4294967296 = R := by omega
  have hmod : (R * 4294967296 + L) % 4294967296 = L := by omega
  rw [hdiv, hmod, h3]
  show DES.permute (DES.permute x 64 DES.IP / 4294967296 * 4294967296 +
    DES.permute x 64 DES.IP % 4294967296) 64 DES.FP = x
  rw [Nat.div_add_mod' , DES.FP_IP x hx]

theorem beToNat_inj (l1 l2 : List Byte) (hlen : l1.length = l2.length)
    (h : beToNat l1 = beToNat l2) : l1 = l2 := by
  induction l1 generalizing l2 with
  | nil =>
    cases l2 with
    | nil => rfl
    | cons b l2 => simp at hlen
  | cons a l1 ih =>
    cases l2 with
    | nil => simp at hlen
    | cons b l2 =>
      have hlen2 : l1.length = l2.length := by simpa using hlen
      rw [beToNat_cons, beToNat_cons, hlen2] at h
      have h1 := beToNat_lt l1
      have h2 := beToNat_lt l2
      rw [hlen2] at h1
      have hpos : 0 < 256 ^ l2.length := Nat.pow_pos (by decide)
      have ha : (a.val * 256 ^ l2.length + beToNat l1) / 256 ^ l2.length = a.val := by
        rw [Nat.mul_comm, Nat.mul_add_div hpos, Nat.div_eq_of_lt h1, Nat.add_zero]
      have hb : (b.val * 256 ^ l2.length + beToNat l2) / 256 ^ l2.length = b.val := by
        rw [Nat.mul_comm, Nat.mul_add_div hpos, Nat.div_eq_of_lt h2, Nat.add_zero]
      have hab : a.val = b.val := by rw [← ha, ← hb, h]
      have hrest : beToNat l1 = beToNat l2 := by
        rw [hab] at h
        omega
      rw [Fin.ext hab, ih l2 hlen2 hrest]

theorem natToBE_beToNat (l : List Byte) : natToBE l.length (beToNat l) = l := by
  apply beToNat_inj _ _ (natToBE_length _ _)
  rw [beToNat_natToBE, Nat.mod_eq_of_lt (beToNat_lt l)]

theorem DES.block_inv (ks : List Nat) (x : List Byte) (hx : x.length = 8) :
    (DES.block ks).decrypt ((DES.block ks).encrypt x) = x := by
  have hlt : beToNat x < 2 ^ 64 := by
    have := beToNat_lt x
    rw [hx] at this
    exact this
  show natToBE 8 (DES.crypt ks.reverse (beToNat (natToBE 8 (DES.crypt ks (beToNat x))))) = x
  have hc : DES.crypt ks (beToNat x) % 256 ^ 8 = DES.crypt ks (beToNat x) :=
    Nat.mod_eq_of_lt (DES.crypt_lt ks _)
  rw [beToNat_natToBE, hc, DES.crypt_reverse ks _ hlt]
  have := natToBE_beToNat x
  rw [hx] at this
  exact this

theorem DES.NewCipher_eight (key : List Byte) (hkey : key.length = 8) :
    DES.NewCipher key = Except.ok (Except.ok (DES.block (DES.subkeys (beToNat key)))) := by
  simp [DES.NewCipher, hkey]

/-! ## No bound on the iteration count -/

/-- With MD5, DES and the DER shape of the parameters as they are: whatever
salt and iteration count of at least 1 the parameter bytes decode to, there is
a ciphertext, the `Encrypt` of the plaintext under the derived key and IV, on
which `decryptPBE` under the MD5 OID returns the plaintext and no error. -/
theorem decryptPBE_md5_des_accepts (bytes password salt pt : List Byte) (iter : Int)
    (hiter : 1 ≤ iter)
    (hun : derUnmarshal bytes = Except.ok (Except.ok (salt, iter))) :
    ∃ ct : List Byte,
      decryptPBE md5DesEnv
          { EncryptionAlgorithm := { Algorithm := [1, 2, 840, 113549, 1, 5, 3],
                                     Parameters := { FullBytes := bytes } },
            EncryptedData := ct }
          password =
        Except.ok (some pt,
          some (pbeKDFParameters.md5 { Salt := salt, Iterations := iter }), none) := by
  obtain ⟨hK, hIV, hlen⟩ := md5_derive_eq md5DesEnv { Salt := salt, Iterations := iter }
    password 8 hiter
  generalize hashChain _ _ _ = d at hK hIV hlen
  have hk8 : (d.take 8).length = 8 := by rw [List.length_take, hlen]; rfl
  have hiv8 : ((d.drop 8).take 8).length = 8 := by
    rw [List.length_take, List.length_drop, hlen]; rfl
  obtain ⟨ct, henc⟩ : ∃ ct : List Byte,
      cbcEncrypt (DES.block (DES.subkeys (beToNat (d.take 8)))) ((d.drop 8).take 8) pt =
        Except.ok (some ct, none) :=
    ⟨_, cbcEncrypt_eq _ _ pt (show 0 < 8 by decide) hiv8⟩
  have hnb : (md5WithDESCBC md5DesEnv).newBlock (d.take 8) =
      Except.ok (Except.ok (DES.block (DES.subkeys (beToNat (d.take 8))))) :=
    DES.NewCipher_eight _ hk8
  refine ⟨ct, decryptPBE_round_trip md5DesEnv
    { EncryptionAlgorithm := { Algorithm := [1, 2, 840, 113549, 1, 5, 3],
                               Parameters := { FullBytes := bytes } },
      EncryptedData := ct }
    password salt password (d.take 8) ((d.drop 8).take 8) pt iter
    (pbeKDFParameters.md5 { Salt := [], Iterations := 0 }) (md5WithDESCBC md5DesEnv) true
    (DES.block (DES.subkeys (beToNat (d.take 8)))) rfl rfl hun hK hIV hnb
    (show 1 ≤ 8 by decide) (show 8 ≤ 255 by decide)
    (fun x hx => DES.block_inv _ x hx) hiv8 ?_⟩
  simp only [cipherWithBlock.Encrypt, hnb]
  exact henc

/-- C15 refuted, with MD5, DES and the DER shape of the parameters as they are.
The parameter bytes `30 14 04 08 01..08 02 08 7f ff ff ff ff ff ff ff` decode to
the salt `01 .. 08` and the iteration count 9223372036854775807, the largest
value of a Go `int`. Under the MD5 OID `decryptPBE` does not reject them: with
the password `password` there is a ciphertext on which it returns the plaintext
`A secret`, those parameters and no error. So no bound below the largest `int`
is imposed: for every such bound there are parameters above it that are not
rejected. -/
theorem largest_iteration_count_accepted :
    derUnmarshal [48, 20, 4, 8, 1, 2, 3, 4, 5, 6, 7, 8, 2, 8, 127, 255, 255, 255, 255, 255,
        255, 255] =
      Except.ok (Except.ok ([1, 2, 3, 4, 5, 6, 7, 8], 9223372036854775807)) ∧
    (∃ ct : List Byte,
      decryptPBE md5DesEnv
          { EncryptionAlgorithm :=
              { Algorithm := [1, 2, 840, 113549, 1, 5, 3],
                Parameters :=
                  { FullBytes := [48, 20, 4, 8, 1, 2, 3, 4, 5, 6, 7, 8, 2, 8, 127, 255, 255,
                      255, 255, 255, 255, 255] } },
            EncryptedData := ct }
          [112, 97, 115, 115, 119, 111, 114, 100] =
        Except.ok (some [65, 32, 115, 101, 99, 114, 101, 116],
          some (pbeKDFParameters.md5
            { Salt := [1, 2, 3, 4, 5, 6, 7, 8], Iterations := 9223372036854775807 }),
          none)) ∧
    ¬ ∃ B : Int, B < 9223372036854775807 ∧
      ∀ (privKey : encryptedPrivateKeyInfo) (password salt : List Byte) (iter : Int),
        (privKey.EncryptionAlgorithm.Algorithm = [1, 2, 840, 113549, 1, 12, 1, 3] ∨
          privKey.EncryptionAlgorithm.Algorithm = [1, 2, 840, 113549, 1, 12, 1, 6] ∨
          privKey.EncryptionAlgorithm.Algorithm = [1, 2, 840, 113549, 1, 5, 3]) →
        md5DesEnv.unmarshal privKey.EncryptionAlgorithm.Parameters.FullBytes =
          Except.ok (Except.ok (salt, iter)) →
        (B < iter ∨ B < (salt.length : Int)) →
        ∃ e : String, decryptPBE md5DesEnv privKey password = Except.ok (none, none, some e) := by
  have hun : derUnmarshal [48, 20, 4, 8, 1, 2, 3, 4, 5, 6, 7, 8, 2, 8, 127, 255, 255, 255,
      255, 255, 255, 255] =
      Except.ok (Except.ok ([1, 2, 3, 4, 5, 6, 7, 8], 9223372036854775807)) := by
    decide!
  have hrun := decryptPBE_md5_des_accepts _ [112, 97, 115, 115, 119, 111, 114, 100] _
    [65, 32, 115, 101, 99, 114, 101, 116] _ (by decide) hun
  refine ⟨hun, hrun, ?_⟩
  rintro ⟨B, hB, h⟩
  obtain ⟨ct, hct⟩ := hrun
  obtain ⟨e, he⟩ := h
    { EncryptionAlgorithm :=
        { Algorithm := [1, 2, 840, 113549, 1, 5, 3],
          Parameters :=
            { FullBytes := [48, 20, 4, 8, 1, 2, 3, 4, 5, 6, 7, 8, 2, 8, 127, 255, 255, 255,
                255, 255, 255, 255] } },
      EncryptedData := ct }
    [112, 97, 115, 115, 119, 111, 114, 100] [1, 2, 3, 4, 5, 6, 7, 8]
    9223372036854775807 (Or.inr (Or.inr rfl)) hun (Or.inl hB)
  rw [hct] at he
  simp at he

/-- C15 as amended. `decryptPBE` puts no bound on the iteration count or on the
salt length: under every supported OID, whatever salt and iteration count the
parameter bytes decode to, if the ciphertext is the suite's `Encrypt` of a
plaintext under the key and IV derived with them, `decryptPBE` returns that
plaintext and those parameters with no error. -/
theorem decryptPBE_accepts_any_parameters (env : Env) (privKey : encryptedPrivateKeyInfo)
    (password salt P K IV pt : List Byte) (iter : Int) (p0 : pbeKDFParameters)
    (c : cipherWithBlock) (orig : Bool) (block : Block)
    (hsel : selectScheme env privKey.EncryptionAlgorithm.Algorithm = some (p0, c, orig))
    (hP : if orig = true then P = password
      else env.bmpStringZeroTerminated password = Except.ok (some P, none))
    (hun : env.unmarshal privKey.EncryptionAlgorithm.Parameters.FullBytes =
      Except.ok (Except.ok (salt, iter)))
    (hK : (p0.fill (salt, iter)).DeriveKey env P c.KeySize = Except.ok (some K, none))
    (hIV : (p0.fill (salt, iter)).DeriveIV env P c.IVSize = Except.ok (some IV, none))
    (hnb : c.newBlock K = Except.ok (Except.ok block))
    (hbs1 : 1 ≤ block.blockSize) (hbs2 : block.blockSize ≤ 255)
    (hinv : ∀ x : List Byte, x.length = block.blockSize → block.decrypt (block.encrypt x) = x)
    (hiv : IV.length = block.blockSize)
    (henc : c.Encrypt K IV pt = Except.ok (some privKey.EncryptedData, none)) :
    (privKey.EncryptionAlgorithm.Algorithm = [1, 2, 840, 113549, 1, 12, 1, 3] ∨
      privKey.EncryptionAlgorithm.Algorithm = [1, 2, 840, 113549, 1, 12, 1, 6] ∨
      privKey.EncryptionAlgorithm.Algorithm = [1, 2, 840, 113549, 1, 5, 3]) ∧
    decryptPBE env privKey password =
      Except.ok (some pt, some (p0.fill (salt, iter)), none) := by
  refine ⟨?_, decryptPBE_round_trip env privKey password salt P K IV pt iter p0 c orig block
    hsel hP hun hK hIV hnb hbs1 hbs2 hinv hiv henc⟩
  rcases selectScheme_some env _ p0 c orig hsel with ⟨h, _⟩ | ⟨h, _⟩ | ⟨h, _⟩
  · exact Or.inl h
  · exact Or.inr (Or.inl h)
  · exact Or.inr (Or.inr h)

/-- C15 as amended, at a concrete input with MD5 and DES as they are: salt
`01 .. 08`, 16 iterations, password `password`. The derived key is
`eee14439b257811c`, the IV `5ec54788a872e3fd`, and the ciphertext
`327841d62204720b 0c31033cc43c7376` comes back as `A secret`. -/
theorem decryptPBE_accepts_any_parameters_witness :
    decryptPBE md5DesEnv
        { EncryptionAlgorithm :=
            { Algorithm := [1, 2, 840, 113549, 1, 5, 3],
              Parameters :=
                { FullBytes := [48, 13, 4, 8, 1, 2, 3, 4, 5, 6, 7, 8, 2, 1, 16] } },
          EncryptedData :=
            [50, 120, 65, 214, 34, 4, 114, 11, 12, 49, 3, 60, 196, 60, 115, 118] }
        [112, 97, 115, 115, 119, 111, 114, 100] =
      Except.ok (some [65, 32, 115, 101, 99, 114, 101, 116],
        some (pbeKDFParameters.md5 { Salt := [1, 2, 3, 4, 5, 6, 7, 8], Iterations := 16 }),
        none) :=
  (decryptPBE_accepts_any_parameters md5DesEnv
    { EncryptionAlgorithm :=
        { Algorithm := [1, 2, 840, 113549, 1, 5, 3],
          Parameters := { FullBytes := [48, 13, 4, 8, 1, 2, 3, 4, 5, 6, 7, 8, 2, 1, 16] } },
      EncryptedData :=
        [50, 120, 65, 214, 34, 4, 114, 11, 12, 49, 3, 60, 196, 60, 115, 118] }
    [112, 97, 115, 115, 119, 111, 114, 100] [1, 2, 3, 4, 5, 6, 7, 8]
    [112, 97, 115, 115, 119, 111, 114, 100] [238, 225, 68, 57, 178, 87, 129, 28]
    [94, 197, 71, 136, 168, 114, 227, 253] [65, 32, 115, 101, 99, 114, 101, 116] 16
    (pbeKDFParameters.md5 { Salt := [], Iterations := 0 }) (md5WithDESCBC md5DesEnv) true
    (DES.block (DES.subkeys (beToNat [238, 225, 68, 57, 178, 87, 129, 28])))
    rfl rfl (by decide!) (by decide!) (by decide!) rfl (by decide) (by decide)
    (fun x hx => DES.block_inv _ x hx) rfl (by decide!)).2

end Pkcs8
